import Mathlib

/-!
Verification of the mudlark maintenance-work-order text normaliser.

This file gives a shallow embedding of the core text-normalisation code of
the repository (src/mudlark/normalisation/simple_normalisation.py,
src/mudlark/anonymisation/__init__.py and the batch anonymisation loop of
src/mudlark/main.py) and proves or refutes the frozen claims about it.

Strings are modelled as `List Char`.  The Python regular expressions used by
the source are embedded as executable scanners whose equivalence with the
Python `re` semantics (leftmost match, greedy quantifiers over pairwise
disjoint character classes, `\b` word boundaries) is argued in the doc
comment of each scanner.  Python's `str.lower` is modelled on the ASCII
range, and the external `nltk.word_tokenize` collaborator is modelled as
whitespace tokenisation, as the specification treats the tokenizer as an
injected external capability.
-/

namespace Mudlark

/-- Word character of Python's regex class w on the ASCII range:
letters, digits and the underscore. -/
def isW (c : Char) : Bool := c.isAlphanum || c = '_'

/-- Whitespace of Python's regex class s on the ASCII range:
space, tab, newline, vertical tab, form feed, carriage return. -/
def isS (c : Char) : Bool :=
  c = ' ' || c = '\t' || c = '\n' || c = Char.ofNat 11 || c = Char.ofNat 12 || c = '\r'

/-- ASCII letter, the class A-Za-z of the source regexes. -/
def isL (c : Char) : Bool := c.isAlpha

/-- ASCII digit, the class d (0-9) of the source regexes. -/
def isD (c : Char) : Bool := c.isDigit

/-! ## Standalone anonymiser: `_anonymise_sentence`

The source replaces, via `re.sub`, every match of

  `\b(\d*[A-Za-z]+\d+[A-Za-z]*|[A-Za-z]*\d+[A-Za-z]+|[A-Za-z]*\d+[A-Za-z]*|[A-Za-z]\d[A-Za-z]\d\d[A-Za-z])\b`

with the placeholder `AssetID`.  Because every alternative consists solely of
letter/digit atoms and the alternation is bracketed by two word boundaries,
a match can only start at the beginning of a maximal run of word characters
(there is no boundary inside a run) and must consume the whole run (the
closing boundary fails anywhere strictly inside the run).  Hence `re.sub`
with this pattern replaces exactly those maximal word-character runs that
are fully matched by one of the four alternatives; runs containing an
underscore are never fully matched since no alternative admits underscores.
The four alternative checks below decompose a run greedily; greediness is
faithful because the letter and digit classes are disjoint. -/

/-- Alternative 1 of the pattern: `\d*[A-Za-z]+\d+[A-Za-z]*` matched against
the complete run. -/
def anonAlt1 (r : List Char) : Bool :=
  let r1 := r.dropWhile isD
  let l1 := r1.takeWhile isL
  let r2 := r1.dropWhile isL
  let d2 := r2.takeWhile isD
  let r3 := r2.dropWhile isD
  !l1.isEmpty && !d2.isEmpty && r3.all isL

/-- Alternative 2 of the pattern: `[A-Za-z]*\d+[A-Za-z]+` matched against
the complete run. -/
def anonAlt2 (r : List Char) : Bool :=
  let r1 := r.dropWhile isL
  let d1 := r1.takeWhile isD
  let r2 := r1.dropWhile isD
  !d1.isEmpty && !r2.isEmpty && r2.all isL

/-- Alternative 3 of the pattern: `[A-Za-z]*\d+[A-Za-z]*` matched against
the complete run.  Both letter groups are optional, so a run consisting of
digits only is matched by this alternative. -/
def anonAlt3 (r : List Char) : Bool :=
  let r1 := r.dropWhile isL
  let d1 := r1.takeWhile isD
  let r2 := r1.dropWhile isD
  !d1.isEmpty && r2.all isL

/-- Alternative 4 of the pattern: `[A-Za-z]\d[A-Za-z]\d\d[A-Za-z]`, the
fixed six-character letter-digit-letter-digit-digit-letter shape. -/
def anonAlt4 (r : List Char) : Bool :=
  match r with
  | [a, b, c, d, e, f] => isL a && isD b && isL c && isD d && isD e && isL f
  | _ => false

/-- Does the identifier pattern of `_anonymise_sentence` match the complete
word-character run `r` (alternatives tried in source order)? -/
def anonMatch (r : List Char) : Bool :=
  anonAlt1 r || anonAlt2 r || anonAlt3 r || anonAlt4 r

/-- The literal placeholder inserted by the standalone anonymiser. -/
def assetIDword : List Char := ('A' :: "ssetID".toList)

/-- Scanner for `re.sub(pattern, "AssetID", sentence)`: walk the sentence,
replace every maximal word-character run fully matched by the pattern with
`AssetID`, and copy everything else verbatim. -/
def anonGo : List Char → List Char
  | [] => []
  | c :: cs =>
    if isW c then
      (if anonMatch (c :: cs.takeWhile isW) then assetIDword
       else c :: cs.takeWhile isW) ++ anonGo (cs.dropWhile isW)
    else c :: anonGo cs
termination_by s => s.length
decreasing_by
  · simpa [Nat.lt_succ_iff] using (cs.dropWhile_sublist isW).length_le
  · simp [Nat.lt_succ_iff]

/-- The function `_anonymise_sentence` of
src/mudlark/normalisation/simple_normalisation.py (lines 621-661). -/
def anonymise_sentence (sentence : List Char) : List Char := anonGo sentence

/- Anchors: the test cases of tests/test_normalise_text.py, section [6]
(modulo the lowercasing the pipeline performs first; the pattern is
case-insensitive in structure so we check the raw forms used there). -/
example : anonymise_sentence "check ABX32ad and DDdkL204ddd".toList
    = "check AssetID and AssetID".toList := by
  simp [anonymise_sentence, anonGo, isW, anonMatch, anonAlt1, anonAlt2, anonAlt3,
    anonAlt4, isL, isD, assetIDword]
example : anonymise_sentence "AB123 XYZ789".toList = "AssetID AssetID".toList := by
  simp [anonymise_sentence, anonGo, isW, anonMatch, anonAlt1, anonAlt2, anonAlt3,
    anonAlt4, isL, isD, assetIDword]
example : anonymise_sentence "none here".toList = "none here".toList := by
  simp [anonymise_sentence, anonGo, isW, anonMatch, anonAlt1, anonAlt2, anonAlt3,
    anonAlt4, isL, isD, assetIDword]
example : anonymise_sentence "XY345Z".toList = "AssetID".toList := by
  simp [anonymise_sentence, anonGo, isW, anonMatch, anonAlt1, anonAlt2, anonAlt3,
    anonAlt4, isL, isD, assetIDword]

/-! ## Batch detector: `get_anonymised_terms`

src/mudlark/anonymisation/__init__.py collects, per document, all matches of
the compiled pattern `\b[A-Z]+\s*-*\d+\b` via `re.findall`.  Equivalence of
the scanner with `re` semantics: the leading boundary together with the
leading `[A-Z]+` forces a match to start at an uppercase letter whose
predecessor is not a word character; all quantified classes (`[A-Z]`, `\s`,
`-`, `\d`) are pairwise disjoint, so each greedy group is the maximal run
and no backtracking can succeed where the greedy parse fails; the final
boundary holds iff the character following the maximal digit run is not a
word character (giving back digits cannot restore the boundary since the
next character would then be a digit).  `re.findall` scans left to right
and resumes after each match. -/

/-- Uppercase ASCII letter, the class A-Z. -/
def isU (c : Char) : Bool := c.isUpper

/-- Attempt to match `[A-Z]+\s*-*\d+\b` at the start of `s`; on success
return the matched characters and the remainder of the input. -/
def tryDetect (s : List Char) : Option (List Char × List Char) :=
  let u := s.takeWhile isU
  let r1 := s.dropWhile isU
  let w1 := r1.takeWhile isS
  let r2 := r1.dropWhile isS
  let hy := r2.takeWhile (fun c => c = '-')
  let r3 := r2.dropWhile (fun c => c = '-')
  let d := r3.takeWhile isD
  let r4 := r3.dropWhile isD
  if !u.isEmpty && !d.isEmpty &&
      (match r4 with | [] => true | x :: _ => !isW x)
  then some (u ++ w1 ++ hy ++ d, r4) else none

theorem tryDetect_rest_lt {s : List Char} {mr : List Char × List Char}
    (h : tryDetect s = some mr) : mr.2.length < s.length := by
  unfold tryDetect at h
  simp only at h
  split at h
  · cases h
    rename_i hcond
    rw [Bool.and_eq_true, Bool.and_eq_true] at hcond
    obtain ⟨⟨hu, _⟩, _⟩ := hcond
    have hu2 : (s.takeWhile isU).isEmpty = false := by
      cases he : (s.takeWhile isU).isEmpty
      · rfl
      · rw [he] at hu
        exact absurd hu (by simp)
    have h1 : s.dropWhile isU ≠ s := by
      intro he
      rw [List.dropWhile_eq_self_iff] at he
      cases s with
      | nil => simp at hu2
      | cons c cs =>
        have hc : isU c = false := by simpa using he
        simp [List.takeWhile_cons, hc] at hu2
    have h2 : (s.dropWhile isU).length < s.length :=
      lt_of_le_of_ne (s.dropWhile_sublist isU).length_le
        (fun hl => h1 ((s.dropWhile_sublist isU).eq_of_length hl))
    exact lt_of_le_of_lt
      (le_trans (List.dropWhile_sublist _).length_le
        (le_trans (List.dropWhile_sublist _).length_le
          (List.dropWhile_sublist _).length_le)) h2
  · cases h

/-- Scanner for `re.findall` with the batch pattern: `prevW` records whether
the previous character was a word character (for the leading boundary). -/
def detectGo (prevW : Bool) (s : List Char) : List (List Char) :=
  match s with
  | [] => []
  | c :: cs =>
    if !prevW && isU c then
      match h : tryDetect (c :: cs) with
      | some mr => mr.1 :: detectGo true mr.2
      | none => detectGo (isW c) cs
    else detectGo (isW c) cs
termination_by s.length
decreasing_by
  · exact tryDetect_rest_lt h
  · simp [Nat.lt_succ_iff]
  · simp [Nat.lt_succ_iff]

/-- The function `get_anonymised_terms` of src/mudlark/anonymisation/__init__.py
(lines 4-66): the list of matches of `\b[A-Z]+\s*-*\d+\b` found in the
sentence (the source stores them in a set; de-duplication is applied at the
batch level in this development). -/
def get_anonymised_terms (sentence : List Char) : List (List Char) :=
  detectGo false sentence

example : get_anonymised_terms "PU1760 not pumping".toList = [('P' :: "U1760".toList)] := by
  simp [get_anonymised_terms, detectGo, tryDetect, isU, isW, isS, isD]

example : get_anonymised_terms "replace ABC-123 and ABC 123".toList
    = [('A' :: "BC-123".toList), ('A' :: "BC 123".toList)] := by
  simp [get_anonymised_terms, detectGo, tryDetect, isU, isW, isS, isD]

example : get_anonymised_terms "nothing to see".toList = [] := by
  simp [get_anonymised_terms, detectGo, tryDetect, isU, isW, isS, isD]

/-! ## List helper lemmas for the scanners -/

/-- A list is empty or starts with a non-word character. -/
def nwHead : List Char → Prop
  | [] => True
  | c :: _ => isW c = false

theorem all_takeWhile_self (p : Char → Bool) (l : List Char) :
    (l.takeWhile p).all p = true := by
  induction l with
  | nil => simp
  | cons c cs ih =>
    rw [List.takeWhile_cons]
    split
    · simpa [*]
    · simp

theorem takeWhile_of_all_append {xs ys : List Char}
    (h : xs.all isW = true) (h2 : nwHead ys) :
    (xs ++ ys).takeWhile isW = xs := by
  induction xs with
  | nil =>
    cases ys with
    | nil => simp
    | cons c cs => simp [List.takeWhile_cons, show isW c = false from h2]
  | cons x xs ih =>
    simp only [List.all_cons, Bool.and_eq_true] at h
    simp [List.takeWhile_cons, h.1, ih h.2]

theorem dropWhile_of_all_append {xs ys : List Char}
    (h : xs.all isW = true) (h2 : nwHead ys) :
    (xs ++ ys).dropWhile isW = ys := by
  induction xs with
  | nil =>
    cases ys with
    | nil => simp
    | cons c cs => simp [List.dropWhile_cons, show isW c = false from h2]
  | cons x xs ih =>
    simp only [List.all_cons, Bool.and_eq_true] at h
    simp [List.dropWhile_cons, h.1, ih h.2]

theorem nwHead_dropWhile_isW (l : List Char) : nwHead (l.dropWhile isW) := by
  induction l with
  | nil => simp [nwHead]
  | cons c cs ih =>
    rw [List.dropWhile_cons]
    split
    · exact ih
    · rename_i hc
      show isW c = false
      simpa using hc

/-! ## C10: idempotence of the standalone anonymiser -/

theorem anonGo_cons_nonword {c : Char} {cs : List Char} (h : isW c = false) :
    anonGo (c :: cs) = c :: anonGo cs := by
  rw [anonGo]
  simp [h]

theorem nwHead_anonGo {s : List Char} (h : nwHead s) : nwHead (anonGo s) := by
  cases s with
  | nil => simpa [anonGo] using h
  | cons c cs =>
    rw [anonGo_cons_nonword h]
    exact h

theorem anonMatch_assetIDword : anonMatch assetIDword = false := by decide

theorem assetIDword_all_isW : assetIDword.all isW = true := by decide

/-- Processing a word run followed by a tail that does not continue the run:
if the run does not match the identifier pattern it is copied verbatim. -/
theorem anonGo_run_append {rep t : List Char} (hall : rep.all isW = true)
    (hne : rep ≠ []) (hnm : anonMatch rep = false) (ht : nwHead t) :
    anonGo (rep ++ t) = rep ++ anonGo t := by
  cases rep with
  | nil => exact absurd rfl hne
  | cons r0 r1 =>
    simp only [List.all_cons, Bool.and_eq_true] at hall
    rw [List.cons_append, anonGo]
    simp only [hall.1, if_true]
    rw [takeWhile_of_all_append hall.2 ht, dropWhile_of_all_append hall.2 ht]
    rw [hnm]
    simp

/-- C10.  The standalone anonymiser is idempotent: anonymising an already
anonymised sentence changes nothing, because the placeholder AssetID contains
no digit and therefore never matches the identifier pattern, and substitution
never creates a new word-boundary-delimited match. -/
theorem anonymise_sentence_idempotent (s : List Char) :
    anonymise_sentence (anonymise_sentence s) = anonymise_sentence s := by
  show anonGo (anonGo s) = anonGo s
  induction s using anonGo.induct with
  | case1 => simp [anonGo]
  | case2 c cs hw ih =>
    rw [anonGo]
    simp only [hw, if_true]
    have hnw : nwHead (anonGo (cs.dropWhile isW)) :=
      nwHead_anonGo (nwHead_dropWhile_isW cs)
    by_cases hm : anonMatch (c :: cs.takeWhile isW) = true
    · rw [if_pos hm]
      rw [anonGo_run_append assetIDword_all_isW (by decide) anonMatch_assetIDword hnw, ih]
    · rw [if_neg hm]
      have hall : (c :: cs.takeWhile isW).all isW = true := by
        simp [hw, all_takeWhile_self]
      rw [anonGo_run_append hall (by simp) (by simpa using hm) hnw, ih]
  | case3 c cs hw ih =>
    have hw2 : isW c = false := by simpa using hw
    rw [anonGo_cons_nonword hw2, anonGo_cons_nonword hw2, ih]

/-! ## C5: which tokens the two identifier detectors match -/

theorem exists_digit_of_take {l r : List Char}
    (hsub : List.Sublist l r) (hne : (l.takeWhile isD).isEmpty = false) :
    ∃ c ∈ r, isD c = true := by
  cases he : l.takeWhile isD with
  | nil => rw [he] at hne; simp at hne
  | cons d ds =>
    have hd : d ∈ l.takeWhile isD := by rw [he]; exact List.mem_cons_self d ds
    exact ⟨d, hsub.subset ((l.takeWhile_sublist isD).subset hd),
      List.mem_takeWhile_imp hd⟩

/-- Every run matched by the standalone pattern contains a digit (each
alternative contains a mandatory digit group). -/
theorem anonMatch_has_digit {r : List Char} (h : anonMatch r = true) :
    ∃ c ∈ r, isD c = true := by
  unfold anonMatch anonAlt1 anonAlt2 anonAlt3 anonAlt4 at h
  simp only [Bool.or_eq_true, Bool.and_eq_true, Bool.not_eq_true',
    List.all_eq_true] at h
  rcases h with ((h1 | h2) | h3) | h4
  · exact exists_digit_of_take
      (((List.dropWhile_sublist _ (l := r.dropWhile isD)).trans
        (List.dropWhile_sublist _)))
      h1.1.2
  · exact exists_digit_of_take (List.dropWhile_sublist _) h2.1.1
  · exact exists_digit_of_take (List.dropWhile_sublist _) h3.1
  · match r, h4 with
    | [a, b, c, d, e, f], h4 =>
      exact ⟨b, by simp, by simp only [Bool.and_eq_true] at h4; exact h4.1.1.1.1.2⟩

theorem isL_of_isU {c : Char} (h : isU c = true) : isL c = true := by
  simp only [isU] at h
  simp [isL, Char.isAlpha, h]

/-- Shape of a successful batch-pattern match: an uppercase-letter run,
whitespace, hyphens, then a digit run. -/
theorem tryDetect_shape {s : List Char} {mr : List Char × List Char}
    (h : tryDetect s = some mr) :
    ∃ u w hy d : List Char, mr.1 = u ++ w ++ hy ++ d ∧
      u ≠ [] ∧ d ≠ [] ∧ u.all isU = true ∧ d.all isD = true := by
  unfold tryDetect at h
  simp only at h
  split at h
  · rename_i hcond
    cases h
    rw [Bool.and_eq_true, Bool.and_eq_true] at hcond
    refine ⟨_, _, _, _, rfl, ?_, ?_, all_takeWhile_self _ _, all_takeWhile_self _ _⟩
    · intro he
      rw [he] at hcond
      simp at hcond
    · intro he
      rw [he] at hcond
      simp at hcond
  · cases h

theorem detectGo_nil (prevW : Bool) : detectGo prevW [] = [] := by
  rw [detectGo]

theorem detectGo_cons_hit {prevW : Bool} {c : Char} {cs : List Char}
    {mr : List Char × List Char} (hb : (!prevW && isU c) = true)
    (hm : tryDetect (c :: cs) = some mr) :
    detectGo prevW (c :: cs) = mr.1 :: detectGo true mr.2 := by
  rw [detectGo]
  simp only [hb, if_true]
  split
  · rename_i mr2 heq
    rw [hm] at heq
    cases heq
    rfl
  · rename_i heq
    rw [hm] at heq
    cases heq

theorem detectGo_cons_miss {prevW : Bool} {c : Char} {cs : List Char}
    (hb : (!prevW && isU c) = true) (hm : tryDetect (c :: cs) = none) :
    detectGo prevW (c :: cs) = detectGo (isW c) cs := by
  rw [detectGo]
  simp only [hb, if_true]
  split
  · rename_i mr2 heq
    rw [hm] at heq
    cases heq
  · rfl

theorem detectGo_cons_skip {prevW : Bool} {c : Char} {cs : List Char}
    (hb : (!prevW && isU c) = false) :
    detectGo prevW (c :: cs) = detectGo (isW c) cs := by
  rw [detectGo]
  simp only [hb]
  rfl

theorem mem_detectGo_shape {t : List Char} :
    ∀ (prevW : Bool) (s : List Char), t ∈ detectGo prevW s →
    ∃ u w hy d : List Char, t = u ++ w ++ hy ++ d ∧
      u ≠ [] ∧ d ≠ [] ∧ u.all isU = true ∧ d.all isD = true := by
  intro prevW s
  induction prevW, s using detectGo.induct with
  | case1 prevW => intro h; simp [detectGo_nil] at h
  | case2 prevW c cs hb mr hm ih =>
    intro h
    rw [detectGo_cons_hit hb hm] at h
    rcases List.mem_cons.mp h with he | hmem
    · exact he ▸ tryDetect_shape hm
    · exact ih hmem
  | case3 prevW c cs hb hm ih =>
    intro h
    rw [detectGo_cons_miss hb hm] at h
    exact ih h
  | case4 prevW c cs hb ih =>
    intro h
    have hb2 : (!prevW && isU c) = false := by
      cases hbb : (!prevW && isU c)
      · rfl
      · exact absurd hbb hb
    rw [detectGo_cons_skip hb2] at h
    exact ih h

theorem get_anonymised_terms_has_digit_and_letter {s t : List Char}
    (h : t ∈ get_anonymised_terms s) :
    (∃ c ∈ t, isD c = true) ∧ (∃ c ∈ t, isL c = true) := by
  obtain ⟨u, w, hy, d, he, hu, hd, hau, had⟩ := mem_detectGo_shape false s h
  subst he
  constructor
  · cases d with
    | nil => exact absurd rfl hd
    | cons d0 ds =>
      refine ⟨d0, by simp, ?_⟩
      simp only [List.all_cons, Bool.and_eq_true] at had
      exact had.1
  · cases u with
    | nil => exact absurd rfl hu
    | cons u0 us =>
      refine ⟨u0, by simp, ?_⟩
      simp only [List.all_cons, Bool.and_eq_true] at hau
      exact isL_of_isU hau.1

/-- C5 counterexample.  The claim states that every token matched by the
identifier-detection pattern contains at least one letter, and that a bare
number (all digits) is never matched.  The third alternative
`[A-Za-z]*\d+[A-Za-z]*` of the standalone pattern makes both letter groups
optional, so the all-digit token 123 is matched and replaced: the claim is
false on `_anonymise_sentence`. -/
theorem bare_number_anonymised_counterexample :
    ("123".toList.all isD = true) ∧
    anonymise_sentence "123".toList = assetIDword ∧
    anonymise_sentence "123".toList ≠ "123".toList := by
  refine ⟨by decide, ?_, ?_⟩
  · simp [anonymise_sentence, anonGo, isW, anonMatch, anonAlt1, anonAlt2, anonAlt3,
      anonAlt4, isL, isD, assetIDword]
  · simp [anonymise_sentence, anonGo, isW, anonMatch, anonAlt1, anonAlt2, anonAlt3,
      anonAlt4, isL, isD, assetIDword]

/-- C5 (amended).  Every token matched by either identifier detector contains
at least one digit (so bare words are never matched); the batch detector
additionally guarantees at least one letter; but the standalone pattern's
third alternative has both letter groups optional, so a bare number is
matched by the standalone anonymiser.  The concrete test cases
PU1760, AB123, XY345Z match and nothing does not. -/
theorem identifier_detectors_digit_letter :
    (∀ r : List Char, anonMatch r = true → ∃ c ∈ r, isD c = true) ∧
    (∀ s t : List Char, t ∈ get_anonymised_terms s →
      (∃ c ∈ t, isD c = true) ∧ (∃ c ∈ t, isL c = true)) ∧
    anonMatch "PU1760".toList = true ∧
    anonMatch "AB123".toList = true ∧
    anonMatch "XY345Z".toList = true ∧
    anonMatch "nothing".toList = false ∧
    anonMatch "123".toList = true :=
  ⟨fun _ h => anonMatch_has_digit h,
   fun _ _ h => get_anonymised_terms_has_digit_and_letter h,
   by decide, by decide, by decide, by decide, by decide⟩

/-- Witness for C5: the theorem instantiated at the concrete sentence
PU1760 broken and its detected term PU1760. -/
theorem identifier_detectors_digit_letter_witness :
    (∃ c ∈ "PU1760".toList, isD c = true) ∧ (∃ c ∈ "PU1760".toList, isL c = true) :=
  identifier_detectors_digit_letter.2.1 "PU1760 broken".toList "PU1760".toList
    (by simp [get_anonymised_terms, detectGo, tryDetect, isU, isW, isS, isD])

/-! ## Typo corrector: `_correct_typos`

The source sorts the corrections dictionary by descending key length
(Python's `sorted` with `reverse=True` is stable), then for each pair runs
`re.sub(r"\b" + key.lower() + r"\b", value, text)`.  The keys occurring in
the corrections tables are plain words and phrases (letters, digits, spaces,
slashes, hyphens), for which the regex body is the literal key; the scanner
below implements literal whole-key matching between two word boundaries.
A word boundary holds at a position iff exactly one of the two adjacent
characters (string ends counting as non-word) is a word character.
`re.sub` matches against the original text left to right and does not
rescan its own replacements, so the scanner resumes after the matched key
with the key's last character as previous context.  Keys are non-empty in
every corrections table; an empty key (an empty pattern, which `re.sub`
would treat as a zero-width match at every boundary) is not matched by the
scanner. -/

/-- Wordness of the head of a list (empty list counts as non-word). -/
def headW : List Char → Bool
  | [] => false
  | c :: _ => isW c

/-- Wordness of the last character of a list (empty counts as non-word). -/
def lastW (l : List Char) : Bool :=
  match l.getLast? with
  | some c => isW c
  | none => false

/-- One `re.sub(r"\b" + key + r"\b", val, text)` pass over `text`;
`prevW` is the wordness of the character preceding the current position. -/
def substGo (k v : List Char) (prevW : Bool) (s : List Char) : List Char :=
  match s with
  | [] => []
  | c :: cs =>
    if !k.isEmpty && k.isPrefixOf (c :: cs) && (prevW != headW k)
        && (lastW k != headW ((c :: cs).drop k.length)) then
      v ++ substGo k v (lastW k) ((c :: cs).drop k.length)
    else c :: substGo k v (isW c) cs
termination_by s.length
decreasing_by
  · rename_i hcond
    rw [Bool.and_eq_true, Bool.and_eq_true, Bool.and_eq_true] at hcond
    have hk : k ≠ [] := by
      intro he
      rw [he] at hcond
      simp at hcond
    have h1 : 1 ≤ k.length := by
      cases k with
      | nil => exact absurd rfl hk
      | cons a b => simp [Nat.succ_le_succ, Nat.zero_le]
    simp only [List.length_drop, List.length_cons]
    omega
  · simp [Nat.lt_succ_iff]

/-- Stable insertion (descending key length) used to model Python's
`sorted(corrections_dict.items(), key=len(key), reverse=True)`. -/
def insDesc (x : List Char × List Char) :
    List (List Char × List Char) → List (List Char × List Char)
  | [] => [x]
  | y :: ys => if y.1.length ≤ x.1.length then x :: y :: ys else y :: insDesc x ys

/-- The corrections table in descending key-length order, longest first,
stable on equal lengths (as Python's stable sort). -/
def sortCorrections (d : List (List Char × List Char)) :
    List (List Char × List Char) :=
  d.foldr insDesc []

/-- Apply the per-key substitutions in the given order; each key is
lowercased before use, the replacement is inserted verbatim, as in the
source. -/
def applyCorrections (order : List (List Char × List Char)) (text : List Char) :
    List Char :=
  order.foldl (fun t p => substGo (p.1.map Char.toLower) p.2 false t) text

/-- The function `_correct_typos` of
src/mudlark/normalisation/simple_normalisation.py (lines 588-618). -/
def correct_typos (text : List Char) (d : List (List Char × List Char)) :
    List Char :=
  applyCorrections (sortCorrections d) text

/-! ## Text shape normalisation stages -/

/-- Python `str.lower`, modelled on the ASCII range (`Char.toLower` maps
exactly A-Z to a-z). -/
def pyLower (s : List Char) : List Char := s.map Char.toLower

/-- The function `_remove_commas` (lines 718-727): `text.replace(",", " ")`. -/
def remove_commas (s : List Char) : List Char :=
  s.map (fun c => if c = ',' then ' ' else c)

/-- The punctuation allow-set `chars_to_keep` of the source: comma,
ampersand, period, hash, at-sign, slash, hyphen. -/
def keepP : List Char := [',', '&', '.', '#', '@', '/', '-']

/-- Membership in the allow-set. -/
def inKeep (c : Char) : Bool := keepP.contains c

/-- Characters kept by `_remove_undesirable_chars`: letters, digits, space
and the allow-set (the source regex replaces the complement class with a
space). -/
def isAllowed (c : Char) : Bool := c.isAlphanum || c = ' ' || inKeep c

/-- The function `_remove_undesirable_chars` (lines 691-701). -/
def remove_undesirable_chars (s : List Char) : List Char :=
  s.map (fun c => if isAllowed c then c else ' ')

/-- Scanner for the backreference substitution of the source (a bracketed
allow-set character followed by one or more repetitions of itself, replaced
by a single copy): a run of two or more identical allow-set characters is
collapsed to one; `prev` is the previously emitted character. -/
def dupGo (prev : Option Char) (s : List Char) : List Char :=
  match s with
  | [] => []
  | c :: cs =>
    if prev = some c && inKeep c then dupGo prev cs
    else c :: dupGo (some c) cs

/-- The function `_remove_duplicate_contiguous_chars` (lines 704-715). -/
def remove_duplicate_contiguous_chars (s : List Char) : List Char := dupGo none s

/-- Scanner for `re.sub(r"\s+", " ", text)`: every maximal whitespace run
becomes a single space; `prevS` records whether we are inside a run. -/
def wsGo (prevS : Bool) (s : List Char) : List Char :=
  match s with
  | [] => []
  | c :: cs =>
    if isS c then (if prevS then wsGo true cs else ' ' :: wsGo true cs)
    else c :: wsGo false cs

/-- The function `_remove_extra_spaces` (lines 69-80). -/
def remove_extra_spaces (s : List Char) : List Char := wsGo false s

/-- The character class of the first substitution of
`_add_space_around_punctuation`:
all ASCII punctuation except slash and hyphen, given by code point:
33 to 38 and 39 to 44 cover bang, double quote, hash, dollar, percent,
ampersand, single quote, parens, star, plus, comma; 46 period; 58 to 64
colon, semicolon, angle brackets, equals, question mark, at-sign; 91 to 96
square brackets, backslash, caret, underscore, backquote; 123 to 126
braces, pipe, tilde. -/
def q1Codes : List Nat :=
  [33, 34, 35, 36, 37, 38, 39, 40, 41, 42, 43, 44, 46, 58, 59, 60, 61, 62,
   63, 64, 91, 92, 93, 94, 95, 96, 123, 124, 125, 126]

/-- Membership in that class. -/
def inQ1 (c : Char) : Bool := q1Codes.contains c.toNat

/-- First substitution of `_add_space_around_punctuation` (lines 674-676):
every matched punctuation character is wrapped in spaces. -/
def spacePunct (s : List Char) : List Char :=
  s.flatMap (fun c => if inQ1 c then [' ', c, ' '] else [c])

/-- Test, directly after a word run, the tail of the pattern
`(\w{3,})\s*SEP\s*(?=\w{3,})`: optional whitespace, the separator, optional
whitespace, and a lookahead of three word characters. -/
def sepOk (sep : Char) (rest : List Char) : Bool :=
  match rest.dropWhile isS with
  | c :: r2 => c = sep && decide (3 ≤ ((r2.dropWhile isS).takeWhile isW).length)
  | [] => false

/-- The scanner resume point after a successful separator match: the
position of the lookahead run (which `re.sub` does not consume). -/
def sepRes (rest : List Char) : List Char :=
  ((rest.dropWhile isS).drop 1).dropWhile isS

theorem sepRes_lt {sep : Char} {rest : List Char}
    (h : sepOk sep rest = true) : (sepRes rest).length ≤ rest.length - 1 := by
  unfold sepOk at h
  unfold sepRes
  cases hd : rest.dropWhile isS with
  | nil => rw [hd] at h; cases h
  | cons c r2 =>
    rw [hd] at h
    have h2 : (r2.dropWhile isS).length ≤ r2.length :=
      (r2.dropWhile_sublist isS).length_le
    have h3 : (c :: r2).length ≤ rest.length :=
      hd ▸ (rest.dropWhile_sublist isS).length_le
    simp only [List.length_cons] at h3
    simp only [List.drop_one, List.tail_cons]
    omega

/-- Scanner for the second and third substitutions of
`_add_space_around_punctuation` (lines 679-686):
`re.sub(r"((\w{3,})\s*SEP\s*)(?=\w{3,})", r"\2 SEP ", text)` for SEP a slash
or hyphen.  A match must place the group `\w{3,}` directly before the
whitespace and separator, so the group is a suffix of a maximal word run and
a match is possible iff that run has length at least three; greediness makes
the group the whole run, and the leftmost matching start is the run start.
All quantified classes are pairwise disjoint so greedy scanning is faithful,
and if the greedy attempt at a run fails, no start inside the run can
succeed (every suffix fails on the same tail).  `re.sub` resumes after the
consumed trailing whitespace, at the lookahead run. -/
def sepGo (sep : Char) (s : List Char) : List Char :=
  match s with
  | [] => []
  | c :: cs =>
    if isW c then
      (if h : 3 ≤ (c :: cs.takeWhile isW).length ∧ sepOk sep (cs.dropWhile isW) = true then
        (c :: cs.takeWhile isW) ++ ' ' :: sep :: ' ' :: sepGo sep (sepRes (cs.dropWhile isW))
      else (c :: cs.takeWhile isW) ++ sepGo sep (cs.dropWhile isW))
    else c :: sepGo sep cs
termination_by s.length
decreasing_by
  · have h1 := sepRes_lt h.2
    have h2 : (cs.dropWhile isW).length ≤ cs.length :=
      (cs.dropWhile_sublist isW).length_le
    simp only [List.length_cons]
    omega
  · simpa [Nat.lt_succ_iff] using (cs.dropWhile_sublist isW).length_le
  · simp [Nat.lt_succ_iff]

/-- The function `_add_space_around_punctuation` (lines 664-688): space out
general punctuation, then slashes, then hyphens. -/
def add_space_around_punctuation (s : List Char) : List Char :=
  sepGo '-' (sepGo '/' (spacePunct s))

example : add_space_around_punctuation "test-tube".toList = "test - tube".toList := by
  simp [add_space_around_punctuation, sepGo, sepOk, sepRes, spacePunct, inQ1, q1Codes, isW, isS]

example : add_space_around_punctuation "o-ring long-ring".toList
    = "o-ring long - ring".toList := by
  simp [add_space_around_punctuation, sepGo, sepOk, sepRes, spacePunct, inQ1, q1Codes, isW, isS]

example : add_space_around_punctuation "hello/hi hey / hey".toList
    = "hello/hi hey / hey".toList := by
  simp [add_space_around_punctuation, sepGo, sepOk, sepRes, spacePunct, inQ1, q1Codes, isW, isS]

example : add_space_around_punctuation "word/slash/word".toList
    = "word / slash / word".toList := by
  simp [add_space_around_punctuation, sepGo, sepOk, sepRes, spacePunct, inQ1, q1Codes, isW, isS]

example : remove_extra_spaces "  test     tube   ".toList = " test tube ".toList := by
  simp [remove_extra_spaces, wsGo, isS]

/-! ## Association lists and tokenisation helpers -/

/-- First-match lookup in an association list (Python dict read). -/
def alLookup (m : List (List Char × List Char)) (k : List Char) :
    Option (List Char) :=
  match m with
  | [] => none
  | (k2, v) :: r => if k2 = k then some v else alLookup r k

/-- Whitespace tokenisation, with an accumulator holding the reversed
current token: split on whitespace runs, dropping empties.
This models both Python's `str.split()` (used for the keyword vocabulary)
and, in the pipeline, the external `nltk.word_tokenize` collaborator. -/
def splitWsAcc (acc : List Char) (s : List Char) : List (List Char) :=
  match s with
  | [] => if acc.isEmpty then [] else [acc.reverse]
  | c :: cs =>
    if isS c then
      (if acc.isEmpty then splitWsAcc [] cs else acc.reverse :: splitWsAcc [] cs)
    else splitWsAcc (c :: acc) cs

/-- Whitespace tokenisation of a string. -/
def splitWs (s : List Char) : List (List Char) := splitWsAcc [] s

example : splitWs "  engine was  broken ".toList
    = ["engine".toList, "was".toList, "broken".toList] := by decide

/-- The keyword vocabulary: all whitespace-split tokens of the values of the
corrections table (the source collects them in a set; only membership is
ever used). -/
def keywords (d : List (List Char × List Char)) : List (List Char) :=
  (d.map Prod.snd).flatMap splitWs

/-- Python slice `w[:-n]`. -/
def pyDropEnd (w : List Char) (n : Nat) : List Char := w.take (w.length - n)

/-- Python negative index `w[-k]` (None when out of range). -/
def pyNegIdx (w : List Char) (k : Nat) : Option Char := w[w.length - k]?

/-- Python `w.endswith(s)`. -/
def pyEnds (w : List Char) (s : String) : Bool := s.toList.isSuffixOf w

/-! ## Singulariser: `_singularise`
(src/mudlark/normalisation/simple_normalisation.py, lines 83-265).
All word tables are transcribed verbatim from the source; the anchored
alternation patterns tested with `re.findall` are exact whole-word matches,
i.e. list membership. -/

def irregularNouns : List (List Char × List Char) :=
  [("children", "child"), ("geese", "goose"), ("men", "man"),
   ("women", "woman"), ("teeth", "tooth"), ("feet", "foot"),
   ("mice", "mouse"), ("people", "person"), ("sheep", "sheep"),
   ("deer", "deer"), ("fish", "fish"), ("moose", "moose"),
   ("series", "series"), ("species", "species"), ("corps", "corps"),
   ("lens", "lens"), ("quizzes", "quiz")].map
    (fun p => (p.1.toList, p.2.toList))

def ixExceptions : List (List Char) := ["matrices", "appendices"].map String.toList

def exExceptions : List (List Char) :=
  ["indices", "vertices", "vortices"].map String.toList

def isExceptions : List (List Char) :=
  ["theses", "analyses", "crises", "diagnoses", "oases", "parentheses",
   "syntheses", "ellipses", "hypotheses", "emphases"].map String.toList

def seExceptions : List (List Char) :=
  ["abuses", "accuses", "advises", "analyses", "arises", "bases", "bruises",
   "cases", "causes", "ceases", "chases", "cheeses", "chooses", "clauses",
   "closes", "collapses", "comprises", "compromises", "confuses", "corpses",
   "courses", "cruises", "curses", "databases", "decreases", "defenses",
   "diagnoses", "diseases", "doses", "endoreses", "enterprises", "excuses",
   "exercises", "expenses", "exposes", "franchises", "fuses", "glimpses",
   "horses", "houses", "imposes", "impulses", "increases", "leases",
   "licenses", "loses", "muses", "noises", "noses", "nurses", "offenses",
   "opposes", "pauses", "phases", "phrases", "pleases", "poses", "praises",
   "premises", "promises", "proposes", "pulses", "purchases", "purposes",
   "purses", "raises", "realises", "recognises", "refuses", "releases",
   "responses", "reverses", "rises", "rinses", "roses", "senses",
   "shocases", "specialises", "spouses", "suitcases", "suprises",
   "universes", "uses", "vases", "verses", "warehouses"].map String.toList

def zeExceptions : List (List Char) :=
  ["analyzes", "amazes", "blazes", "freezes", "prizes", "sizes"].map String.toList

def cheExceptions : List (List Char) :=
  ["aches", "headaches", "niches"].map String.toList

def vesExceptions : List (List Char) :=
  ["abrasives", "achieves", "addictives", "additives", "adhesives",
   "adjectives", "administratives", "adoptives", "alternatives", "approves",
   "archives", "arrives", "automotives", "aves", "behaves", "believes",
   "bravescaptives", "carves", "captives", "caves", "cloves", "collectives",
   "comparatives", "concaves", "conceives", "conductives", "connectives",
   "conserves", "conservatives", "coves", "contraceptives", "craves",
   "cooperatives", "curves", "deceives", "delves", "deprives",
   "derivatives", "derives", "deserves", "detectives", "digestives",
   "directives", "disapproves", "dissolves", "dives", "doves", "drives",
   "electives", "eves", "evolves", "executives", "explosives", "fives",
   "forgives", "formatives", "fugitives", "gives", "gloves", "graves",
   "grieves", "grooves", "groves", "heaves", "hives", "hoves", "improves",
   "involves", "inventives", "initiatives", "jives", "knaves",
   "legislatives", "locomotives", "loves", "motives", "moves",
   "narratives", "natives", "negatives", "nerves", "normatives",
   "objectives", "observes", "octaves", "olives", "operatives",
   "overdrives", "oxidatives", "paves", "perspectives", "perceives",
   "positives", "predictives", "preserves", "primitives", "progressives",
   "proves", "raves", "receives", "reeves", "relieves", "relives",
   "relatives", "removes", "reserves", "representatives", "resolves",
   "retrieves", "revives", "revolves", "salves", "saves", "serves",
   "shaves", "shoves", "sieves", "slaves", "sleeves", "solves", "starves",
   "staves", "stoves", "strives", "suaves", "survives", "thrives",
   "troves", "twelves", "valves", "verves", "waives", "waves",
   "weaves"].map String.toList

def umExceptions : List (List Char) :=
  ["data", "bacteria", "memoranda", "strata", "curricula", "millennia",
   "spectra", "referenda"].map String.toList

def onExceptions : List (List Char) :=
  ["criteria", "phenomena", "automata"].map String.toList

def usExceptions : List (List Char) :=
  ["radii", "foci", "fungi", "nuclei", "cacti", "stimuli"].map String.toList

def asExceptions : List (List Char) :=
  ["alias", "atlas", "bias", "canvas", "pancreas", "whereas"].map String.toList

/-- The function `_singularise` (lines 83-265). -/
def singularise (word : List Char) (d : List (List Char × List Char)) :
    List Char :=
  match alLookup irregularNouns word with
  | some v => v
  | none =>
    if word ∈ keywords d then word
    else if word.length ≤ 3 then word
    else if pyEnds word "es" then
      if word ∈ ixExceptions then pyDropEnd word 3 ++ "x".toList
      else if word ∈ exExceptions then pyDropEnd word 4 ++ "ex".toList
      else if word ∈ isExceptions then pyDropEnd word 2 ++ "is".toList
      else if (pyNegIdx word 3 = some 's' ∨ pyNegIdx word 3 = some 'x'
            ∨ pyNegIdx word 3 = some 'z')
          ∨ ((word.drop (word.length - 4)).take 2 = "sh".toList
            ∨ (word.drop (word.length - 4)).take 2 = "ch".toList) then
        if word ∈ seExceptions ∨ word ∈ zeExceptions ∨ word ∈ cheExceptions
        then pyDropEnd word 1
        else pyDropEnd word 2
      else if pyEnds word "ies" ∧ 4 < word.length then pyDropEnd word 3 ++ "y".toList
      else if pyEnds word "oes" then pyDropEnd word 2
      else if pyEnds word "ves" then
        if word ∈ vesExceptions then pyDropEnd word 1
        else if pyEnds word "ives" then pyDropEnd word 3 ++ "fe".toList
        else pyDropEnd word 3 ++ "f".toList
      else pyDropEnd word 1
    else if pyEnds word "a" then
      if word ∈ umExceptions then pyDropEnd word 1 ++ "um".toList
      else if word ∈ onExceptions then pyDropEnd word 1 ++ "on".toList
      else word
    else if pyEnds word "i" then
      if word ∈ usExceptions then pyDropEnd word 1 ++ "us".toList
      else word
    else if pyEnds word "ys" ∧ (pyNegIdx word 3 = some 'a' ∨ pyNegIdx word 3 = some 'e'
        ∨ pyNegIdx word 3 = some 'i' ∨ pyNegIdx word 3 = some 'o'
        ∨ pyNegIdx word 3 = some 'u') then
      pyDropEnd word 2 ++ "y".toList
    else if pyEnds word "ss" then word
    else if pyEnds word "s" ∧ ¬(pyNegIdx word 2 = some 'i' ∨ pyNegIdx word 2 = some 'u') then
      if word ∈ asExceptions then word
      else pyDropEnd word 1
    else word

example : singularise "berries".toList [] = "berry".toList := by decide
example : singularise "glasses".toList [] = "glass".toList := by decide
example : singularise "classes".toList [] = "class".toList := by decide
example : singularise "dresses".toList [] = "dress".toList := by decide
example : singularise "buses".toList [] = "bus".toList := by decide
example : singularise "foxes".toList [] = "fox".toList := by decide
example : singularise "bushes".toList [] = "bush".toList := by decide
example : singularise "churches".toList [] = "church".toList := by decide
example : singularise "niches".toList [] = "niche".toList := by decide
example : singularise "indices".toList [] = "index".toList := by decide
example : singularise "matrices".toList [] = "matrix".toList := by decide
example : singularise "knives".toList [] = "knife".toList := by decide
example : singularise "leaves".toList [] = "leaf".toList := by decide
example : singularise "theses".toList [] = "thesis".toList := by decide
example : singularise "data".toList [] = "datum".toList := by decide
example : singularise "criteria".toList [] = "criterion".toList := by decide
example : singularise "radii".toList [] = "radius".toList := by decide
example : singularise "rays".toList [] = "ray".toList := by decide
example : singularise "boys".toList [] = "boy".toList := by decide
example : singularise "glass".toList [] = "glass".toList := by decide
example : singularise "cats".toList [] = "cat".toList := by decide
example : singularise "pumps".toList [] = "pump".toList := by decide
example : singularise "potatoes".toList [] = "potato".toList := by decide
example : singularise "alias".toList [] = "alias".toList := by decide
example : singularise "focus".toList [] = "focus".toList := by decide
example : singularise "tennis".toList [] = "tennis".toList := by decide
example : singularise "campuses".toList [] = "campus".toList := by decide
example : singularise "men".toList [] = "man".toList := by decide
example : singularise "sheep".toList [] = "sheep".toList := by decide

/-! ## Tense normaliser: `_to_present_tense`
(src/mudlark/normalisation/simple_normalisation.py, lines 268-585).
Character classes are transcribed from the bracket expressions of the
source regexes; suffix tests written with `re.findall` and an unanchored
tail pattern hold iff the listed final characters match, and fully anchored
alternations are word-list membership.  One peculiarity is kept faithfully:
the source tests `stem in er_exclusions` where `er_exclusions` is the
pattern STRING, so Python performs a substring test against the pattern
text itself. -/

/-- The class `[b-df-hj-np-tv-xz]`: consonants except y. -/
def consNoY (c : Char) : Bool :=
  c ∈ (['b', 'c', 'd', 'f', 'g', 'h', 'j', 'k', 'l', 'm', 'n', 'p', 'q',
        'r', 's', 't', 'v', 'w', 'x', 'z'] : List Char)

/-- The class `[b-df-hj-np-tv-z]`: consonants including y. -/
def consY (c : Char) : Bool := consNoY c || c = 'y'

/-- The vowels `[aeiou]`. -/
def vowel (c : Char) : Bool := c ∈ (['a', 'e', 'i', 'o', 'u'] : List Char)

/-- The doubled-letter class `[b-dghjkmnp-rtv]`. -/
def dblCls (c : Char) : Bool :=
  c ∈ (['b', 'c', 'd', 'g', 'h', 'j', 'k', 'm', 'n', 'p', 'q', 'r', 't', 'v'] :
    List Char)

/-- The consonant-vowel-consonant final class `[b-df-hj-npqstvz]`. -/
def cvcEnd (c : Char) : Bool :=
  c ∈ (['b', 'c', 'd', 'f', 'g', 'h', 'j', 'k', 'l', 'm', 'n', 'p', 'q',
        's', 't', 'v', 'z'] : List Char)

/-- The class `[b-df-hjkmnp-tv-z]` of the ia-rule (excludes l). -/
def iaCls (c : Char) : Bool :=
  c ∈ (['b', 'c', 'd', 'f', 'g', 'h', 'j', 'k', 'm', 'n', 'p', 'q', 'r',
        's', 't', 'v', 'w', 'x', 'y', 'z'] : List Char)

/-- The class `[bcf-hjkmp-rtv]` of the ing-rule. -/
def ingCls (c : Char) : Bool :=
  c ∈ (['b', 'c', 'f', 'g', 'h', 'j', 'k', 'm', 'p', 'q', 'r', 't', 'v'] :
    List Char)

/-- The class `[bdf-hj-np-tw-z]` of the ill-rule. -/
def illCls (c : Char) : Bool :=
  c ∈ (['b', 'd', 'f', 'g', 'h', 'j', 'k', 'l', 'm', 'n', 'p', 'q', 'r',
        's', 't', 'w', 'x', 'y', 'z'] : List Char)

/-- The class `[b-df-hj-np-tvz]` of the consonant-plus-l rule. -/
def clCls (c : Char) : Bool :=
  c ∈ (['b', 'c', 'd', 'f', 'g', 'h', 'j', 'k', 'l', 'm', 'n', 'p', 'q',
        'r', 's', 't', 'v', 'z'] : List Char)

def irregularVerbs : List (List Char × List Char) :=
  [("was", "is"), ("were", "are"), ("had", "has"), ("have", "has"),
   ("did", "do"), ("went", "go"), ("ran", "run"), ("been", "be"),
   ("bled", "bleed"), ("bred", "breed"), ("brought", "bring"),
   ("chose", "choose"), ("fed", "feed"), ("fled", "flee"), ("led", "lead"),
   ("saw", "see"), ("sped", "speed"), ("threw", "throw"),
   ("knew", "know")].map (fun p => (p.1.toList, p.2.toList))

/-- The prefix alternation `re|under|un|over|dis|mis|out`, in source order
(the comment in the source notes that under must precede un). -/
def prefList : List (List Char) :=
  ["re", "under", "un", "over", "dis", "mis", "out"].map String.toList

/-- The first alternative of the anchored prefix pattern matching `verb`,
as `re.findall` with a leading anchor finds it. -/
def firstPref (verb : List Char) : Option (List Char) :=
  prefList.find? (fun p => p.isPrefixOf verb)

def ingNonVerbs : List (List Char) :=
  ["bearing", "beesting", "beeswing", "building", "cabling", "ceiling",
   "cladding", "coupling", "cowling", "darling", "duckling", "fastening",
   "fitting", "fledgling", "hamstring", "hireling", "inkling", "lightning",
   "missing", "monitoring", "morning", "outing", "packing", "quisling",
   "underling", "upbringing", "unwilling", "sapling", "shilling",
   "sibling", "siding", "tailing", "warning", "willing",
   "wiring"].map String.toList

def dblKeep : List (List Char) :=
  ["ebb", "add", "superadd", "odd", "redd", "egg", "inn", "err", "shirr",
   "burr", "deburr", "flurr", "skirr", "purr", "putt",
   "vaxx"].map String.toList

def sylDivList : List (List Char) :=
  ["enucleat", "ideat", "malleat", "nucleat", "permeat", "illaqueat",
   "laureat", "nauseat"].map String.toList

def eaIncl : List (List Char) := ["bequeath", "freath"].map String.toList

def eeExcl : List (List Char) := ["teeth", "seeth"].map String.toList

def eeEdForm : List (List Char) :=
  ["agreed", "decreed", "demareed", "disagreed", "emceed", "farseed",
   "filigreed", "freed", "fricasseed", "garnisheed", "gratineed",
   "guaranteed", "kneed", "leveed", "peed", "pureed", "shivareed",
   "squeegeed", "squeed", "teed", "treed", "trusteed"].map String.toList

def ouExc : List (List Char) :=
  ["rout", "misrout", "rerout", "douch", "accouch"].map String.toList

def ffExc : List (List Char) := ["coiff", "piaff"].map String.toList

def rangIncl : List (List Char) := ["boomerang", "prang"].map String.toList

def ingSpec : List (List Char) :=
  ["bringing", "outringing", "outspringing", "understringing",
   "unstringing", "upspringing"].map String.toList

def ingIncl : List (List Char) :=
  ["ping", "overstring", "ring", "spring", "string", "wring"].map String.toList

def ungIncl : List (List Char) := ["dung", "bung"].map String.toList

def ngExc : List (List Char) := ["flang", "twing", "spong"].map String.toList

def multiLL : List (List Char) :=
  ["bankroll", "bespell", "booksell", "bushfell", "doomscroll", "farewell",
   "hairpull", "handsell", "inscroll", "kvell", "logroll", "misspell",
   "outpoll", "outpull", "outroll", "outsell", "outswell", "outwell",
   "outyell", "oversell", "outsmell", "overswell", "presell", "reenroll",
   "repoll", "reroll", "resell", "respell", "steamroll", "unroll",
   "undersell", "uproll", "upsell", "upswell", "upwell"].map String.toList

def ballExcl : List (List Char) :=
  ["caball", "gimball", "metall", "pedastall", "totall"].map String.toList

def chandList : List (List Char) := ["chandell", "cordell"].map String.toList

def illExc : List (List Char) :=
  ["imperill", "perill", "postill"].map String.toList

/-- The literal text of the er-exclusions pattern; the source tests
`stem in er_exclusions`, a Python substring test against this string. -/
def erExclStr : List Char := "^(adher|interfer|premier|rever)$".toList

/-- Python's `a in b` on strings: contiguous substring test. -/
def isSubstring (xs ys : List Char) : Bool :=
  match ys with
  | [] => xs.isEmpty
  | _ :: t => xs.isPrefixOf ys || isSubstring xs t

def orExc : List (List Char) :=
  ["snor", "stor", "restor", "bor", "chokebor", "rebor",
   "counterbor"].map String.toList

def zExc : List (List Char) := ["whizz", "quizz"].map String.toList

/-- The shared suffix cascade of `_to_present_tense` (lines 354-584),
applied after the stem has been computed and the per-suffix rejections have
been passed; branch order follows the source exactly. -/
def tenseCascade (verb stem : List Char) : List Char :=
  if stem ≠ [] ∧ stem.all consNoY then verb
  else if (match stem.reverse with
    | 'l' :: 'l' :: v :: rest => vowel v && !rest.isEmpty && rest.all consY
    | _ => false) then stem
  else if (match verb with
    | [c, 'y', 'i', 'n', 'g'] => consY c
    | _ => false) then verb.take 1 ++ "ie".toList
  else if (match verb with
    | [c, 'y', 'e', 'd'] => consY c
    | _ => false) then pyDropEnd verb 1
  else if (match verb with
    | [c, 'i', 'e', 'd'] => consY c
    | _ => false) then verb.take 1 ++ "ie".toList
  else if (match stem with
    | [a, b] => vowel a && consY b
    | _ => false) then stem ++ "e".toList
  else if (match stem.reverse with
    | x :: y :: _ => x = y && dblCls x
    | _ => false) && !(dblKeep.contains stem) then pyDropEnd stem 1
  else if (match stem.reverse with
    | c2 :: v :: c1 :: _ => cvcEnd c2 && vowel v && consY c1
    | _ => false) then stem ++ "e".toList
  else if stem ∈ sylDivList then stem ++ "e".toList
  else if pyEnds stem "creat" then stem ++ "e".toList
  else if pyEnds stem "lineat" then stem ++ "e".toList
  else if pyEnds stem "caseat" then stem ++ "e".toList
  else if pyEnds stem "alias" then stem
  else if pyEnds stem "bias" then stem
  else if (match stem.reverse with
    | c :: 'a' :: 'i' :: _ => iaCls c
    | _ => false) then stem ++ "e".toList
  else if pyEnds stem "aug" then stem ++ "e".toList
  else if stem ∈ eaIncl then stem
  else if pyEnds stem "eath" then stem ++ "e".toList
  else if stem ∈ eeExcl then stem ++ "e".toList
  else if verb ∈ eeEdForm then pyDropEnd verb 1
  else if pyEnds verb "eed" then verb
  else if pyEnds stem "eun" then stem ++ "e".toList
  else if stem = "julienn".toList then stem ++ "e".toList
  else if stem = "sooge".toList then stem ++ "e".toList
  else if stem ∈ ouExc then stem ++ "e".toList
  else if pyEnds stem "oug" then stem ++ "e".toList
  else if (match stem.reverse with
    | c :: 'a' :: 'u' :: _ =>
        c = 'd' || c = 'g' || c = 'k' || c = 't' || c = 'r'
    | _ => false) then stem ++ "e".toList
  else if stem = "queu".toList then stem ++ "e".toList
  else if (match stem.reverse with
    | c :: 'i' :: 'u' :: _ => c = 'r' || c = 'd' || c = 'l'
    | _ => false) then stem ++ "e".toList
  else if stem = "requit".toList then stem ++ "e".toList
  else if pyEnds stem "c" then stem ++ "e".toList
  else if stem ∈ ffExc then stem ++ "e".toList
  else if (match stem.reverse with
    | 'g' :: c :: _ => c = 'r' || c = 'd' || c = 'l'
    | _ => false) then stem ++ "e".toList
  else if pyEnds stem "chang" then stem ++ "e".toList
  else if pyEnds stem "rang" ∧ stem ∉ rangIncl then stem ++ "e".toList
  else if pyEnds stem "eng" then stem ++ "e".toList
  else if (match stem.reverse with
    | 'g' :: 'n' :: 'i' :: c :: _ => ingCls c
    | _ => false) && !(ingSpec.contains verb) && !(ingIncl.contains stem) then
    stem ++ "e".toList
  else if pyEnds stem "ung" ∧ stem ∉ ungIncl then stem ++ "e".toList
  else if stem ∈ ngExc then stem ++ "e".toList
  else if pyEnds verb "ied" then pyDropEnd stem 1 ++ "y".toList
  else if stem ∈ multiLL then stem
  else if (pyEnds stem "ball" ∨ pyEnds stem "call" ∨ pyEnds stem "tall"
      ∨ pyEnds stem "thrall") ∧ stem ∉ ballExcl then stem
  else if stem ∈ chandList then stem ++ "e".toList
  else if pyEnds stem "tell" then stem
  else if (match stem.reverse with
    | 'l' :: 'l' :: 'i' :: c :: _ => illCls c
    | _ => false) && !(illExc.contains stem) then stem
  else if pyEnds stem "ll" then pyDropEnd stem 1
  else if (match stem.reverse with
    | 'l' :: c :: _ => clCls c
    | _ => false) then stem ++ "e".toList
  else if (match stem.reverse with
    | 'r' :: v :: c :: _ => (v = 'a' || v = 'i' || v = 'u') && consY c
    | _ => false) then stem ++ "e".toList
  else if isSubstring stem erExclStr then stem ++ "e".toList
  else if (orExc.contains stem
      || (match stem.reverse with
          | 'r' :: 'o' :: rest => !rest.isEmpty && rest.all consY
          | _ => false)
      || ((match stem.reverse with
          | 'r' :: 'o' :: c :: _ => c = 'l' || c = 'd' || c = 'h' || c = 'p'
          | _ => false)
        && !(pyEnds stem "color" || pyEnds stem "tailor" || pyEnds stem "sailor"
          || pyEnds stem "author" || pyEnds stem "anchor" || pyEnds stem "vapor"))) then
    stem ++ "e".toList
  else if pyEnds stem "uir" then stem ++ "e".toList
  else if pyEnds stem "ss" then stem
  else if pyEnds stem "s" then stem ++ "e".toList
  else if pyEnds stem "u" then stem ++ "e".toList
  else if pyEnds stem "v" then stem ++ "e".toList
  else if stem ∈ zExc then pyDropEnd stem 1
  else if pyEnds stem "zz" then stem
  else if pyEnds stem "z" then stem ++ "e".toList
  else stem

/-- The suffix part of `_to_present_tense` (lines 330-352): compute the
stem, reject non-verb forms, and run the cascade. -/
def tenseSuffixPart (verb : List Char) : List Char :=
  if pyEnds verb "ed" then
    if (pyDropEnd verb 2).length ≤ 1 then verb
    else tenseCascade verb (pyDropEnd verb 2)
  else if pyEnds verb "ing" then
    if verb ∈ ingNonVerbs then verb
    else tenseCascade verb (pyDropEnd verb 3)
  else verb

/-- The function `_to_present_tense` (lines 268-585). -/
def to_present_tense (verb : List Char) (d : List (List Char × List Char)) :
    List Char :=
  match alLookup irregularVerbs verb with
  | some v => v
  | none =>
    match firstPref verb with
    | some p =>
      match alLookup irregularVerbs (verb.drop p.length) with
      | some v => verb.take p.length ++ v
      | none =>
        if verb ∈ keywords d then verb else tenseSuffixPart verb
    | none =>
      if verb ∈ keywords d then verb else tenseSuffixPart verb

example : to_present_tense "was".toList [] = "is".toList := by decide
example : to_present_tense "were".toList [] = "are".toList := by decide
example : to_present_tense "had".toList [] = "has".toList := by decide
example : to_present_tense "underwent".toList [] = "undergo".toList := by decide
example : to_present_tense "played".toList [] = "play".toList := by decide
example : to_present_tense "running".toList [] = "run".toList := by decide
example : to_present_tense "worked".toList [] = "work".toList := by decide
example : to_present_tense "busted".toList [] = "bust".toList := by decide
example : to_present_tense "jumped".toList [] = "jump".toList := by decide
example : to_present_tense "spinning".toList [] = "spin".toList := by decide
example : to_present_tense "stunning".toList [] = "stun".toList := by decide
example : to_present_tense "liked".toList [] = "like".toList := by decide
example : to_present_tense "baked".toList [] = "bake".toList := by decide
example : to_present_tense "danced".toList [] = "dance".toList := by decide
example : to_present_tense "lurked".toList [] = "lurk".toList := by decide
example : to_present_tense "hiking".toList [] = "hike".toList := by decide
example : to_present_tense "crying".toList [] = "cry".toList := by decide
example : to_present_tense "bouncing".toList [] = "bounce".toList := by decide
example : to_present_tense "licking".toList [] = "lick".toList := by decide
example : to_present_tense "bring".toList [] = "bring".toList := by decide
example : to_present_tense "died".toList [] = "die".toList := by decide
example : to_present_tense "spied".toList [] = "spy".toList := by decide
example : to_present_tense "tying".toList [] = "tie".toList := by decide
example : to_present_tense "dyed".toList [] = "dye".toList := by decide
example : to_present_tense "agreed".toList [] = "agree".toList := by decide
example : to_present_tense "filling".toList [] = "fill".toList := by decide
example : to_present_tense "monitoring".toList [] = "monitoring".toList := by decide
example : to_present_tense "storing".toList [] = "store".toList := by decide
example : to_present_tense "requiring".toList [] = "require".toList := by decide
example : to_present_tense "housing".toList [] = "house".toList := by decide
example : to_present_tense "accessing".toList [] = "access".toList := by decide
example : to_present_tense "jogging".toList [] = "jog".toList := by decide
example : to_present_tense "hoping".toList [] = "hope".toList := by decide
example : to_present_tense "subduing".toList [] = "subdue".toList := by decide
example : to_present_tense "solving".toList [] = "solve".toList := by decide
example : to_present_tense "buzzing".toList [] = "buzz".toList := by decide
example : to_present_tense "pump".toList [] = "pump".toList := by decide

/-! ## Pipeline orchestrator: `simple_normalise`

The function `simple_normalise` of
src/mudlark/normalisation/simple_normalisation.py (lines 7-66).  The source
takes a corrections path and loads the table itself; table loading is I/O
glue declared out of scope by the specification, so the embedding receives
the loaded corrections table directly.  The external `nltk.word_tokenize`
collaborator is modelled as whitespace tokenisation (faithful on the
space-separated text the earlier stages produce for the inputs considered
here); both pipeline variants below share this model, so their comparison
does not depend on it. -/

def simple_normalise (text : List Char) (d : List (List Char × List Char)) :
    List Char :=
  let t1 := pyLower text
  let t2 := remove_commas t1
  let t3 := remove_undesirable_chars t2
  let t4 := remove_duplicate_contiguous_chars t3
  let t5 := add_space_around_punctuation t4
  let t6 := anonymise_sentence t5
  let t7 := remove_extra_spaces t6
  let t8 := correct_typos t7 d
  let toks := splitWs t8
  let toks2 := toks.map (fun tok => to_present_tense tok d)
  let toks3 := toks2.map (fun tok => singularise tok d)
  List.intercalate [' '] toks3

/-- The stage composition in the order asserted by the specification
(section 4.5): correct typos first, then lowercase, then the
punctuation/comma/slash/hyphen normalisation, then anonymise, then collapse
whitespace, then tokenize, tense-normalise, singularise and rejoin.  This
definition follows the words of the spec and exists to be compared with
`simple_normalise`. -/
def specOrderNormalise (text : List Char) (d : List (List Char × List Char)) :
    List Char :=
  let t1 := correct_typos text d
  let t2 := pyLower t1
  let t3 := remove_commas t2
  let t4 := remove_undesirable_chars t3
  let t5 := remove_duplicate_contiguous_chars t4
  let t6 := add_space_around_punctuation t5
  let t7 := anonymise_sentence t6
  let t8 := remove_extra_spaces t7
  let toks := splitWs t8
  let toks2 := toks.map (fun tok => to_present_tense tok d)
  let toks3 := toks2.map (fun tok => singularise tok d)
  List.intercalate [' '] toks3

/-- A one-entry corrections table mapping pmp to the uppercase
replacement PUMP, on which the two stage orders differ observably. -/
def cexDict : List (List Char × List Char) := [("pmp".toList, "PUMP".toList)]

/-- C1 counterexample.  The claim asserts `simple_normalise` equals the
composition correct-typos first, lowercase second.  In the code the typo
correction runs after lowercasing (and after anonymisation), so a
replacement value containing uppercase is not lowercased by the pipeline,
while under the claimed order it would be: on the text pmp with the table
pmp to PUMP, the code yields PUMP but the claimed composition yields pump. -/
theorem simple_normalise_pmp :
    simple_normalise "pmp".toList cexDict = "PUMP".toList := by
  simp only [simple_normalise, cexDict]
  simp [pyLower, remove_commas, remove_undesirable_chars,
    remove_duplicate_contiguous_chars, dupGo, add_space_around_punctuation, sepGo,
    sepOk, sepRes, spacePunct, inQ1, q1Codes, anonymise_sentence, anonGo, anonMatch,
    anonAlt1, anonAlt2, anonAlt3, anonAlt4, remove_extra_spaces, wsGo, correct_typos,
    applyCorrections, sortCorrections, insDesc, substGo, headW, lastW, splitWs,
    isW, isS, isL, isD, isAllowed, inKeep, keepP]
  decide

theorem specOrder_pmp :
    specOrderNormalise "pmp".toList cexDict = "pump".toList := by
  simp only [specOrderNormalise, cexDict]
  simp [pyLower, remove_commas, remove_undesirable_chars,
    remove_duplicate_contiguous_chars, dupGo, add_space_around_punctuation, sepGo,
    sepOk, sepRes, spacePunct, inQ1, q1Codes, anonymise_sentence, anonGo, anonMatch,
    anonAlt1, anonAlt2, anonAlt3, anonAlt4, remove_extra_spaces, wsGo, correct_typos,
    applyCorrections, sortCorrections, insDesc, substGo, headW, lastW, splitWs,
    isW, isS, isL, isD, isAllowed, inKeep, keepP]
  decide

theorem spec_order_pipeline_counterexample :
    simple_normalise "pmp".toList cexDict = "PUMP".toList ∧
    specOrderNormalise "pmp".toList cexDict = "pump".toList ∧
    simple_normalise "pmp".toList cexDict ≠ specOrderNormalise "pmp".toList cexDict := by
  refine ⟨simple_normalise_pmp, specOrder_pmp, ?_⟩
  rw [simple_normalise_pmp, specOrder_pmp]
  decide

/-- C1 (amended).  The pipeline applies its stages in the order the code
fixes: lowercase, remove commas, remove undesirable characters, collapse
duplicate punctuation, space out punctuation, anonymise, collapse
whitespace, correct typos (on the already lowercased text), tokenize,
tense-normalise each token, singularise each token, rejoin with spaces;
`simple_normalise` equals the composition of the stage functions in exactly
that order.  (The specification's order, with typo correction first, is
refuted by the counterexample.) -/
theorem simple_normalise_stage_order (text : List Char)
    (d : List (List Char × List Char)) :
    simple_normalise text d =
      List.intercalate [' ']
        (((splitWs (correct_typos
            (remove_extra_spaces (anonymise_sentence
              (add_space_around_punctuation (remove_duplicate_contiguous_chars
                (remove_undesirable_chars (remove_commas (pyLower text))))))) d)).map
          (fun tok => to_present_tense tok d)).map
          (fun tok => singularise tok d)) := rfl

/- Pipeline anchors: concrete scenarios from the specification (section 8)
and tests/test_normalise_text.py, restricted to inputs on which the
whitespace model of the external tokenizer agrees with nltk. -/
example : simple_normalise "BROKEN".toList [] = "broken".toList := by
  simp only [simple_normalise]
  simp [pyLower, remove_commas, remove_undesirable_chars,
    remove_duplicate_contiguous_chars, dupGo, add_space_around_punctuation, sepGo,
    sepOk, sepRes, spacePunct, inQ1, q1Codes, anonymise_sentence, anonGo, anonMatch,
    anonAlt1, anonAlt2, anonAlt3, anonAlt4, remove_extra_spaces, wsGo, correct_typos,
    applyCorrections, sortCorrections, substGo, splitWs,
    isW, isS, isL, isD, isAllowed, inKeep, keepP]
  decide

example : simple_normalise "replace   pump".toList [] = "replace pump".toList := by
  simp only [simple_normalise]
  simp [pyLower, remove_commas, remove_undesirable_chars,
    remove_duplicate_contiguous_chars, dupGo, add_space_around_punctuation, sepGo,
    sepOk, sepRes, spacePunct, inQ1, q1Codes, anonymise_sentence, anonGo, anonMatch,
    anonAlt1, anonAlt2, anonAlt3, anonAlt4, remove_extra_spaces, wsGo, correct_typos,
    applyCorrections, sortCorrections, substGo, splitWs,
    isW, isS, isL, isD, isAllowed, inKeep, keepP]
  decide

example : simple_normalise "enGiNe was broken".toList [] = "engine is broken".toList := by
  simp only [simple_normalise]
  simp [pyLower, remove_commas, remove_undesirable_chars,
    remove_duplicate_contiguous_chars, dupGo, add_space_around_punctuation, sepGo,
    sepOk, sepRes, spacePunct, inQ1, q1Codes, anonymise_sentence, anonGo, anonMatch,
    anonAlt1, anonAlt2, anonAlt3, anonAlt4, remove_extra_spaces, wsGo, correct_typos,
    applyCorrections, sortCorrections, substGo, splitWs,
    isW, isS, isL, isD, isAllowed, inKeep, keepP]
  decide

example : simple_normalise "glasses classes dresses".toList []
    = "glass class dress".toList := by
  simp only [simple_normalise]
  simp [pyLower, remove_commas, remove_undesirable_chars,
    remove_duplicate_contiguous_chars, dupGo, add_space_around_punctuation, sepGo,
    sepOk, sepRes, spacePunct, inQ1, q1Codes, anonymise_sentence, anonGo, anonMatch,
    anonAlt1, anonAlt2, anonAlt3, anonAlt4, remove_extra_spaces, wsGo, correct_typos,
    applyCorrections, sortCorrections, substGo, splitWs,
    isW, isS, isL, isD, isAllowed, inKeep, keepP]
  decide

example : simple_normalise "check ABX32ad and DDdkL204ddd".toList []
    = "check AssetID and AssetID".toList := by
  simp only [simple_normalise]
  simp [pyLower, remove_commas, remove_undesirable_chars,
    remove_duplicate_contiguous_chars, dupGo, add_space_around_punctuation, sepGo,
    sepOk, sepRes, spacePunct, inQ1, q1Codes, anonymise_sentence, anonGo, anonMatch,
    anonAlt1, anonAlt2, anonAlt3, anonAlt4, remove_extra_spaces, wsGo, correct_typos,
    applyCorrections, sortCorrections, substGo, splitWs,
    isW, isS, isL, isD, isAllowed, inKeep, keepP, assetIDword]
  decide

/-! ## C6: priority of keyword protection in the singulariser -/

/-- C6 counterexample.  The claim states that the vocabulary / short-word
protection is the first rule, taking precedence over the irregular-noun
table, so that men with men in the vocabulary returns men.  The code checks
the irregular table first: men maps to man even when men is a keyword. -/
theorem singularise_irregular_precedes_protection :
    ("men".toList ∈ keywords [("k".toList, "men".toList)]) ∧
    "men".toList.length ≤ 3 ∧
    singularise "men".toList [("k".toList, "men".toList)] = "man".toList ∧
    singularise "men".toList [("k".toList, "men".toList)] ≠ "men".toList := by
  decide

/-- C6 (amended).  For every word that is not a key of the irregular-noun
table, membership in the keyword vocabulary or length at most three makes
`_singularise` return the word unchanged; this protection precedes every
suffix rule, but the irregular-noun table is checked before it (the
counterexample men shows the table wins). -/
theorem singularise_protection_amended (word : List Char)
    (d : List (List Char × List Char))
    (hirr : alLookup irregularNouns word = none)
    (h : word ∈ keywords d ∨ word.length ≤ 3) :
    singularise word d = word := by
  unfold singularise
  rw [hirr]
  by_cases hk : word ∈ keywords d
  · simp [hk]
  · rcases h with h | h
    · exact absurd h hk
    · simp [hk, h]

/-- Witness for C6: the keyword pumps is protected from the plural-s rule. -/
theorem singularise_protection_amended_witness :
    singularise "pumps".toList [("pmp".toList, "pumps".toList)] = "pumps".toList :=
  singularise_protection_amended "pumps".toList [("pmp".toList, "pumps".toList)]
    (by decide) (Or.inl (by decide))

/-! ## C7: stem rejections in the tense normaliser -/

/-- Does the anchored prefix alternation match and leave an irregular-table
root (the prefix-stripping retry of `_to_present_tense`)? -/
def prefRootIrregular (verb : List Char) : Bool :=
  match firstPref verb with
  | some p => (alLookup irregularVerbs (verb.drop p.length)).isSome
  | none => false

/-- C7 counterexample.  The claim states that a stem of length at most one
makes `_to_present_tense` return the verb unchanged for both the ed and the
ing suffix.  The code performs that rejection only in the ed branch: oing
(stem o, length one) is not rejected, falls through the cascade and returns
the bare stem o. -/
theorem present_tense_short_ing_stem_counterexample :
    alLookup irregularVerbs "oing".toList = none ∧
    prefRootIrregular "oing".toList = false ∧
    ("oing".toList ∉ keywords ([] : List (List Char × List Char))) ∧
    pyEnds "oing".toList "ing" = true ∧
    (pyDropEnd "oing".toList 3).length ≤ 1 ∧
    to_present_tense "oing".toList [] = "o".toList ∧
    to_present_tense "oing".toList [] ≠ "oing".toList := by
  decide

theorem not_ends_ed_of_ends_ing {verb : List Char}
    (h : pyEnds verb "ing" = true) : pyEnds verb "ed" = false := by
  unfold pyEnds List.isSuffixOf at h ⊢
  cases hr : verb.reverse with
  | nil => rw [hr] at h; simp at h
  | cons c cs =>
    rw [hr] at h
    simp only [String.toList] at h ⊢
    simp only [List.isPrefixOf, Bool.and_eq_true, beq_iff_eq] at h
    obtain ⟨hg, -⟩ := h
    subst hg
    simp [List.isPrefixOf]

/-- C7 (amended).  For a verb that is not irregular, not prefix plus
irregular, and not in the vocabulary: an ed form whose stem has length at
most one is returned unchanged, and an ed or ing form whose stem is
non-empty and consists entirely of consonants other than y is returned
unchanged.  (The claimed length rejection for ing stems does not exist in
the code, as the counterexample oing shows.) -/
theorem present_tense_rejection_amended (verb : List Char)
    (d : List (List Char × List Char))
    (h1 : alLookup irregularVerbs verb = none)
    (h2 : prefRootIrregular verb = false)
    (h3 : verb ∉ keywords d)
    (h4 : (pyEnds verb "ed" = true ∧
            ((pyDropEnd verb 2).length ≤ 1 ∨
              (pyDropEnd verb 2 ≠ [] ∧ (pyDropEnd verb 2).all consNoY = true)))
        ∨ (pyEnds verb "ing" = true ∧ pyDropEnd verb 3 ≠ [] ∧
            (pyDropEnd verb 3).all consNoY = true)) :
    to_present_tense verb d = verb := by
  have hsfx : tenseSuffixPart verb = verb := by
    unfold tenseSuffixPart
    rcases h4 with ⟨hed, hrej⟩ | ⟨hing, hne, hcons⟩
    · rw [hed]
      simp only [if_true]
      rcases hrej with hlen | ⟨hne, hcons⟩
      · simp [hlen]
      · by_cases hlen : (pyDropEnd verb 2).length ≤ 1
        · simp [hlen]
        · simp only [hlen, if_false]
          unfold tenseCascade
          simp [hne, hcons]
    · rw [not_ends_ed_of_ends_ing hing, hing]
      simp only [if_false, if_true]
      by_cases hnv : verb ∈ ingNonVerbs
      · simp [hnv]
      · simp only [hnv, if_false]
        unfold tenseCascade
        simp [hne, hcons]
  unfold to_present_tense
  unfold prefRootIrregular at h2
  simp only [h1]
  cases hp : firstPref verb with
  | some p =>
    rw [hp] at h2
    simp only at h2
    cases hl : alLookup irregularVerbs (verb.drop p.length) with
    | some v => rw [hl] at h2; simp at h2
    | none => simp [hl, h3, hsfx]
  | none => simp [h3, hsfx]

/-- Witness for C7: bring has the all-consonant stem br and is returned
unchanged. -/
theorem present_tense_rejection_amended_witness :
    to_present_tense "bring".toList [] = "bring".toList :=
  present_tense_rejection_amended "bring".toList [] (by decide) (by decide)
    (by decide) (Or.inr ⟨by decide, by decide, by decide⟩)

/-! ## Batch anonymisation map (src/mudlark/main.py, lines 189-236)

The batch driver collects all detected terms of all documents into a set,
then iterates over that set: for each term it derives a key by removing
spaces and hyphens, inserts the key with label Asset followed by
`len(map) + 1` if absent, and maps the surface term to the key's label.
A Python set of strings has no specified iteration order (string hashing is
randomised), so the construction below is parametrised by the enumeration
`ts` of the collected set: any permutation of the distinct collected terms
is an admissible execution.  Python dicts are insertion-ordered maps with
in-place update, modelled by `alInsert`; `len` of a dict is the number of
entries, modelled by list length (keys are never duplicated by
`alInsert`). -/

/-- Python `term.replace(" ", "").replace("-", "")`. -/
def stripKey (t : List Char) : List Char :=
  t.filter (fun c => !(c = ' ' || c = '-'))

/-- Decimal digits of `n`, most significant first, via fuel recursion
(`n` itself bounds the number of division steps). -/
def natDecAux (fuel n : Nat) : List Char :=
  match fuel with
  | 0 => []
  | f + 1 => if n = 0 then [] else natDecAux f (n / 10) ++ [Nat.digitChar (n % 10)]

/-- Python `str(n)` for a natural number. -/
def natDec (n : Nat) : List Char := if n = 0 then ['0'] else natDecAux n n

/-- The label `Asset` followed by the decimal rendering of `n`, i.e. the
Python f-string Asset followed by n. -/
def assetLabel (n : Nat) : List Char := "Asset".toList ++ natDec n

example : assetLabel 1 = "Asset1".toList := by decide
example : assetLabel 12 = "Asset12".toList := by decide

/-- Python dict assignment: update the value in place if the key exists,
else append the new entry. -/
def alInsert (m : List (List Char × List Char)) (k v : List Char) :
    List (List Char × List Char) :=
  match m with
  | [] => [(k, v)]
  | (k2, v2) :: r => if k2 = k then (k2, v) :: r else (k2, v2) :: alInsert r k v

/-- One iteration of the term loop of `normalise_csv`. -/
def buildStep (m : List (List Char × List Char)) (t : List Char) :
    List (List Char × List Char) :=
  let tn := stripKey t
  let m1 := if (alLookup m tn).isNone
            then alInsert m tn (assetLabel (m.length + 1)) else m
  match alLookup m1 tn with
  | some l => alInsert m1 t l
  | none => m1

/-- The anonymised-terms map built from the enumeration `ts` of the
collected term set (the loop of src/mudlark/main.py, lines 200-208). -/
def buildAnonMap (ts : List (List Char)) : List (List Char × List Char) :=
  ts.foldl buildStep []

/-- The distinct terms collected over a batch of documents
(src/mudlark/main.py, lines 193-198); the set is modelled by the
de-duplicated list, and enumeration order is quantified in the theorems. -/
def collectBatch (docs : List (List Char)) : List (List Char) :=
  (docs.flatMap get_anonymised_terms).dedup

/-! ### Decimal label injectivity -/

theorem natDecAux_zero (f : Nat) : natDecAux f 0 = [] := by
  cases f <;> simp [natDecAux]

theorem natDecAux_ne_nil {f n : Nat} (hf : n ≤ f) (hn : 0 < n) :
    natDecAux f n ≠ [] := by
  cases f with
  | zero => omega
  | succ g =>
    simp only [natDecAux, Nat.pos_iff_ne_zero.mp hn, if_false]
    simp

theorem digitChar_inj_lt10 :
    ∀ a, a < 10 → ∀ b, b < 10 → Nat.digitChar a = Nat.digitChar b → a = b := by
  decide

theorem append_singleton_inj {xs ys : List Char} {a b : Char}
    (h : xs ++ [a] = ys ++ [b]) : xs = ys ∧ a = b := by
  have h2 : a = b ∧ xs.reverse = ys.reverse := by
    simpa using congrArg List.reverse h
  refine ⟨?_, h2.1⟩
  simpa using congrArg List.reverse h2.2

theorem natDecAux_inj : ∀ (f1 : Nat) {f2 n m : Nat}, n ≤ f1 → m ≤ f2 →
    natDecAux f1 n = natDecAux f2 m → n = m := by
  intro f1
  induction f1 with
  | zero =>
    intro f2 n m hn hm h
    have hn0 : n = 0 := Nat.le_zero.mp hn
    subst hn0
    rw [natDecAux_zero] at h
    by_contra hne
    exact natDecAux_ne_nil hm (Nat.pos_of_ne_zero (fun h0 => hne h0.symm)) h.symm
  | succ g ih =>
    intro f2 n m hn hm h
    by_cases hn0 : n = 0
    · subst hn0
      rw [natDecAux_zero] at h
      by_contra hne
      exact natDecAux_ne_nil hm (Nat.pos_of_ne_zero (fun h0 => hne h0.symm)) h.symm
    · cases f2 with
      | zero =>
        have hm0 : m = 0 := Nat.le_zero.mp hm
        subst hm0
        rw [natDecAux_zero] at h
        exact absurd h (natDecAux_ne_nil hn (Nat.pos_of_ne_zero hn0))
      | succ g2 =>
        by_cases hm0 : m = 0
        · subst hm0
          rw [natDecAux_zero] at h
          exact absurd h (natDecAux_ne_nil hn (Nat.pos_of_ne_zero hn0))
        · simp only [natDecAux, hn0, hm0, if_false] at h
          obtain ⟨hpre, hdig⟩ := append_singleton_inj h
          have hdiv : n / 10 = m / 10 := by
            refine ih ?_ ?_ hpre
            · have hlt : n / 10 < n :=
                Nat.div_lt_self (Nat.pos_of_ne_zero hn0) (by decide)
              omega
            · have hlt : m / 10 < m :=
                Nat.div_lt_self (Nat.pos_of_ne_zero hm0) (by decide)
              omega
          have hmod : n % 10 = m % 10 :=
            digitChar_inj_lt10 _ (Nat.mod_lt n (by omega)) _
              (Nat.mod_lt m (by omega)) hdig
          omega

theorem natDecAux_eq_nil {f n : Nat} (hf : n ≤ f) (h : natDecAux f n = []) :
    n = 0 := by
  by_contra hne
  exact natDecAux_ne_nil hf (Nat.pos_of_ne_zero hne) h

theorem natDecAux_ne_zero_char {f m : Nat} (hm : m ≤ f) :
    natDecAux f m ≠ ['0'] := by
  intro h
  by_cases hm0 : m = 0
  · subst hm0
    rw [natDecAux_zero] at h
    cases h
  · cases f with
    | zero => omega
    | succ g =>
      simp only [natDecAux, hm0, if_false] at h
      have h2 : natDecAux g (m / 10) ++ [Nat.digitChar (m % 10)]
          = [] ++ ['0'] := by simpa using h
      obtain ⟨hpre, hdig⟩ := append_singleton_inj h2
      have hmod : m % 10 = 0 :=
        digitChar_inj_lt10 _ (Nat.mod_lt m (by omega)) 0 (by decide) hdig
      have hdivle : m / 10 ≤ g := by
        have hlt : m / 10 < m :=
          Nat.div_lt_self (Nat.pos_of_ne_zero hm0) (by decide)
        omega
      have hdiv : m / 10 = 0 := natDecAux_eq_nil hdivle hpre
      omega

theorem natDec_inj {n m : Nat} (h : natDec n = natDec m) : n = m := by
  unfold natDec at h
  by_cases hn : n = 0 <;> by_cases hm : m = 0
  · omega
  · rw [if_pos hn, if_neg hm] at h
    exact absurd h.symm (natDecAux_ne_zero_char (le_refl m))
  · rw [if_neg hn, if_pos hm] at h
    exact absurd h (natDecAux_ne_zero_char (le_refl n))
  · rw [if_neg hn, if_neg hm] at h
    exact natDecAux_inj n (le_refl n) (le_refl m) h

theorem assetLabel_inj {n m : Nat} (h : assetLabel n = assetLabel m) : n = m := by
  unfold assetLabel at h
  have h2 : natDec n = natDec m := by
    have := congrArg (fun l => l.drop 5) h
    simpa using this
  exact natDec_inj h2

/-! ### Association list lemmas -/

theorem stripKey_idem (t : List Char) : stripKey (stripKey t) = stripKey t := by
  unfold stripKey
  rw [List.filter_filter]
  congr 1
  funext c
  cases hc : (!(c = ' ' || c = '-')) <;> simp [hc]

theorem alLookup_some_mem {m : List (List Char × List Char)} {k v : List Char}
    (h : alLookup m k = some v) : (k, v) ∈ m := by
  induction m with
  | nil => cases h
  | cons p r ih =>
    obtain ⟨k2, v2⟩ := p
    rw [alLookup] at h
    by_cases he : k2 = k
    · rw [if_pos he] at h
      cases h
      subst he
      exact List.mem_cons_self _ _
    · rw [if_neg he] at h
      exact List.mem_cons_of_mem _ (ih h)

theorem alLookup_none_not_mem {m : List (List Char × List Char)} {k : List Char}
    (h : alLookup m k = none) : ∀ p ∈ m, p.1 ≠ k := by
  induction m with
  | nil => intro p hp; cases hp
  | cons q r ih =>
    obtain ⟨k2, v2⟩ := q
    rw [alLookup] at h
    by_cases he : k2 = k
    · rw [if_pos he] at h; cases h
    · rw [if_neg he] at h
      intro p hp
      rcases List.mem_cons.mp hp with he2 | hmem
      · subst he2; exact he
      · exact ih h p hmem

theorem alInsert_of_none {m : List (List Char × List Char)} {k : List Char}
    (v : List Char) (h : alLookup m k = none) : alInsert m k v = m ++ [(k, v)] := by
  induction m with
  | nil => rfl
  | cons q r ih =>
    obtain ⟨k2, v2⟩ := q
    rw [alLookup] at h
    by_cases he : k2 = k
    · rw [if_pos he] at h; cases h
    · rw [if_neg he] at h
      simp [alInsert, he, ih h]

theorem alInsert_self {m : List (List Char × List Char)} {k v : List Char}
    (h : alLookup m k = some v) : alInsert m k v = m := by
  induction m with
  | nil => cases h
  | cons q r ih =>
    obtain ⟨k2, v2⟩ := q
    rw [alLookup] at h
    by_cases he : k2 = k
    · rw [if_pos he] at h
      cases h
      simp [alInsert, he]
    · rw [if_neg he] at h
      simp [alInsert, he, ih h]

theorem alLookup_append_of_none {m m2 : List (List Char × List Char)}
    {k : List Char} (h : alLookup m k = none) :
    alLookup (m ++ m2) k = alLookup m2 k := by
  induction m with
  | nil => rfl
  | cons q r ih =>
    obtain ⟨k2, v2⟩ := q
    rw [alLookup] at h
    by_cases he : k2 = k
    · rw [if_pos he] at h; cases h
    · rw [if_neg he] at h
      simp [alLookup, he, ih h]

theorem alLookup_append_of_some {m m2 : List (List Char × List Char)}
    {k v : List Char} (h : alLookup m k = some v) :
    alLookup (m ++ m2) k = some v := by
  induction m with
  | nil => cases h
  | cons q r ih =>
    obtain ⟨k2, v2⟩ := q
    rw [alLookup] at h
    by_cases he : k2 = k
    · rw [if_pos he] at h
      cases h
      simp [alLookup, he]
    · rw [if_neg he] at h
      simp [alLookup, he, ih h]

theorem alLookup_insert_self (m : List (List Char × List Char))
    (k v : List Char) : alLookup (alInsert m k v) k = some v := by
  induction m with
  | nil => simp [alInsert, alLookup]
  | cons q r ih =>
    obtain ⟨k2, v2⟩ := q
    by_cases he : k2 = k
    · simp [alInsert, he, alLookup]
    · simp [alInsert, he, alLookup, ih]

theorem alLookup_insert_ne {m : List (List Char × List Char)}
    {k k2 : List Char} (v : List Char) (h : k2 ≠ k) :
    alLookup (alInsert m k v) k2 = alLookup m k2 := by
  induction m with
  | nil =>
    have h2 : ¬k = k2 := fun he => h he.symm
    simp [alInsert, alLookup, h2]
  | cons q r ih =>
    obtain ⟨k3, v3⟩ := q
    by_cases he : k3 = k
    · subst he
      have h2 : ¬k3 = k2 := fun he2 => h he2.symm
      simp [alInsert, alLookup, h2]
    · simp [alInsert, he, alLookup, ih]

theorem length_le_alInsert (m : List (List Char × List Char)) (k v : List Char) :
    m.length ≤ (alInsert m k v).length := by
  induction m with
  | nil => simp [alInsert]
  | cons q r ih =>
    obtain ⟨k2, v2⟩ := q
    by_cases he : k2 = k
    · simp [alInsert, he]
    · simp only [alInsert, he, if_false, List.length_cons]
      omega

theorem mem_alInsert {m : List (List Char × List Char)} {k v : List Char}
    {p : List Char × List Char} (h : p ∈ alInsert m k v) :
    p ∈ m ∨ p = (k, v) := by
  induction m with
  | nil => simpa [alInsert] using h
  | cons q r ih =>
    obtain ⟨k2, v2⟩ := q
    by_cases he : k2 = k
    · rw [alInsert] at h
      rw [if_pos he] at h
      rcases List.mem_cons.mp h with he2 | hmem
      · right; rw [he2, he]
      · left; exact List.mem_cons_of_mem _ hmem
    · rw [alInsert] at h
      rw [if_neg he] at h
      rcases List.mem_cons.mp h with he2 | hmem
      · left; rw [he2]; exact List.mem_cons_self _ _
      · rcases ih hmem with hm | hp
        · left; exact List.mem_cons_of_mem _ hm
        · right; exact hp

/-! ### The map invariant -/

/-- Invariant of the anonymised-terms map: every value is an asset label
numbered within the current size; every entry's value equals the value
stored at its own stripped key; and values are injective across the
canonical (stripped-form) keys. -/
def MapInv (m : List (List Char × List Char)) : Prop :=
  (∀ p ∈ m, ∃ n, 1 ≤ n ∧ n ≤ m.length ∧ p.2 = assetLabel n) ∧
  (∀ p ∈ m, alLookup m (stripKey p.1) = some p.2) ∧
  (∀ p q, p ∈ m → q ∈ m → stripKey p.1 = p.1 → stripKey q.1 = q.1 →
    p.2 = q.2 → p.1 = q.1)

theorem mapInv_nil : MapInv [] := by
  refine ⟨?_, ?_, ?_⟩
  · intro p hp; cases hp
  · intro p hp; cases hp
  · intro p q hp hq h1 h2 h3; cases hp

/-- One step of the term loop preserves the invariant, never changes an
existing binding, and leaves both the term and its key bound to one common
label. -/
theorem buildStep_spec {m : List (List Char × List Char)} (t : List Char)
    (hinv : MapInv m) :
    MapInv (buildStep m t) ∧
    (∀ k v, alLookup m k = some v → alLookup (buildStep m t) k = some v) ∧
    (∃ v, alLookup (buildStep m t) t = some v ∧
      alLookup (buildStep m t) (stripKey t) = some v) := by
  obtain ⟨hI1, hI2, hI3⟩ := hinv
  cases hlk : alLookup m (stripKey t) with
  | some l0 =>
    have hm1 : buildStep m t = alInsert m t l0 := by
      unfold buildStep
      simp [hlk]
    cases hlt : alLookup m t with
    | some vt =>
      have h2 := hI2 (t, vt) (alLookup_some_mem hlt)
      rw [hlk] at h2
      cases h2
      have hbs : buildStep m t = m := by rw [hm1]; exact alInsert_self hlt
      rw [hbs]
      exact ⟨⟨hI1, hI2, hI3⟩, fun k v h => h, ⟨vt, hlt, hlk⟩⟩
    | none =>
      have hbs : buildStep m t = m ++ [(t, l0)] := by
        rw [hm1]; exact alInsert_of_none _ hlt
      have htne : stripKey t ≠ t := by
        intro he
        rw [he, hlt] at hlk
        cases hlk
      have hlook_t : alLookup (m ++ [(t, l0)]) t = some l0 := by
        rw [alLookup_append_of_none hlt]
        simp [alLookup]
      rw [hbs]
      refine ⟨⟨?_, ?_, ?_⟩, ?_, ⟨l0, hlook_t, alLookup_append_of_some hlk⟩⟩
      · intro p hp
        rcases List.mem_append.mp hp with hp | hp
        · obtain ⟨n, hn1, hn2, hn3⟩ := hI1 p hp
          exact ⟨n, hn1, by simp only [List.length_append, List.length_cons, List.length_nil]; omega, hn3⟩
        · simp only [List.mem_singleton] at hp
          subst hp
          obtain ⟨n, hn1, hn2, hn3⟩ := hI1 _ (alLookup_some_mem hlk)
          exact ⟨n, hn1, by simp only [List.length_append, List.length_cons, List.length_nil]; omega, hn3⟩
      · intro p hp
        rcases List.mem_append.mp hp with hp | hp
        · exact alLookup_append_of_some (hI2 p hp)
        · simp only [List.mem_singleton] at hp
          subst hp
          exact alLookup_append_of_some hlk
      · intro p q hp hq h1 h2 h3
        rcases List.mem_append.mp hp with hp | hp
        · rcases List.mem_append.mp hq with hq | hq
          · exact hI3 p q hp hq h1 h2 h3
          · simp only [List.mem_singleton] at hq
            subst hq
            exact absurd h2 htne
        · simp only [List.mem_singleton] at hp
          subst hp
          exact absurd h1 htne
      · intro k v h
        exact alLookup_append_of_some h
  | none =>
    have hm1eq : alInsert m (stripKey t) (assetLabel (m.length + 1))
        = m ++ [(stripKey t, assetLabel (m.length + 1))] :=
      alInsert_of_none _ hlk
    have hlk1 : alLookup (m ++ [(stripKey t, assetLabel (m.length + 1))])
        (stripKey t) = some (assetLabel (m.length + 1)) := by
      rw [alLookup_append_of_none hlk]
      simp [alLookup]
    have hlt : alLookup m t = none := by
      cases hlt2 : alLookup m t with
      | none => rfl
      | some vt =>
        have h2 := hI2 (t, vt) (alLookup_some_mem hlt2)
        rw [hlk] at h2
        cases h2
    have hbs : buildStep m t
        = alInsert (m ++ [(stripKey t, assetLabel (m.length + 1))]) t
            (assetLabel (m.length + 1)) := by
      unfold buildStep
      simp only [hlk, Option.isNone_none, if_true, hm1eq, hlk1]
    have hfresh : ∀ q ∈ m, ∀ n, q.2 = assetLabel n → n ≤ m.length := by
      intro q hq n hn
      obtain ⟨n2, hn1, hn2, hn3⟩ := hI1 q hq
      rw [hn3] at hn
      have := assetLabel_inj hn.symm
      omega
    by_cases hteq : t = stripKey t
    · have hbs2 : buildStep m t = m ++ [(stripKey t, assetLabel (m.length + 1))] := by
        rw [hbs]
        nth_rewrite 2 [hteq]
        exact alInsert_self hlk1
      rw [hbs2]
      refine ⟨⟨?_, ?_, ?_⟩, ?_, ⟨assetLabel (m.length + 1), by rw [hteq, stripKey_idem]; exact hlk1, hlk1⟩⟩
      · intro p hp
        rcases List.mem_append.mp hp with hp | hp
        · obtain ⟨n, hn1, hn2, hn3⟩ := hI1 p hp
          exact ⟨n, hn1, by simp only [List.length_append, List.length_cons, List.length_nil]; omega, hn3⟩
        · simp only [List.mem_singleton] at hp
          subst hp
          exact ⟨m.length + 1, by omega, by simp only [List.length_append, List.length_cons, List.length_nil]; omega, rfl⟩
      · intro p hp
        rcases List.mem_append.mp hp with hp | hp
        · exact alLookup_append_of_some (hI2 p hp)
        · simp only [List.mem_singleton] at hp
          subst hp
          simp only [stripKey_idem]
          exact hlk1
      · intro p q hp hq h1 h2 h3
        rcases List.mem_append.mp hp with hp | hp
        · rcases List.mem_append.mp hq with hq | hq
          · exact hI3 p q hp hq h1 h2 h3
          · simp only [List.mem_singleton] at hq
            subst hq
            have := hfresh p hp (m.length + 1) h3
            omega
        · simp only [List.mem_singleton] at hp
          subst hp
          rcases List.mem_append.mp hq with hq | hq
          · have := hfresh q hq (m.length + 1) h3.symm
            omega
          · simp only [List.mem_singleton] at hq
            subst hq
            rfl
      · intro k v h
        exact alLookup_append_of_some h
    · have hlt1 : alLookup (m ++ [(stripKey t, assetLabel (m.length + 1))]) t
          = none := by
        rw [alLookup_append_of_none hlt]
        have h2 : ¬stripKey t = t := fun he => hteq he.symm
        simp [alLookup, h2]
      have hbs2 : buildStep m t
          = m ++ [(stripKey t, assetLabel (m.length + 1)),
                  (t, assetLabel (m.length + 1))] := by
        rw [hbs, alInsert_of_none _ hlt1, List.append_assoc]
        rfl
      have hpairlook : alLookup
          [(stripKey t, assetLabel (m.length + 1)), (t, assetLabel (m.length + 1))]
          (stripKey t) = some (assetLabel (m.length + 1)) := by
        simp [alLookup]
      rw [hbs2]
      refine ⟨⟨?_, ?_, ?_⟩, ?_, ⟨assetLabel (m.length + 1), ?_, ?_⟩⟩
      · intro p hp
        rcases List.mem_append.mp hp with hp | hp
        · obtain ⟨n, hn1, hn2, hn3⟩ := hI1 p hp
          exact ⟨n, hn1, by simp only [List.length_append, List.length_cons, List.length_nil]; omega, hn3⟩
        · rcases List.mem_cons.mp hp with hp | hp
          · subst hp
            exact ⟨m.length + 1, by omega, by simp only [List.length_append, List.length_cons, List.length_nil]; omega, rfl⟩
          · simp only [List.mem_singleton] at hp
            subst hp
            exact ⟨m.length + 1, by omega, by simp only [List.length_append, List.length_cons, List.length_nil]; omega, rfl⟩
      · intro p hp
        rcases List.mem_append.mp hp with hp | hp
        · exact alLookup_append_of_some (hI2 p hp)
        · rcases List.mem_cons.mp hp with hp | hp
          · subst hp
            simp only [stripKey_idem]
            rw [alLookup_append_of_none hlk]
            exact hpairlook
          · simp only [List.mem_singleton] at hp
            subst hp
            rw [alLookup_append_of_none hlk]
            exact hpairlook
      · intro p q hp hq h1 h2 h3
        have hnotc : ∀ r : List Char × List Char,
            r ∈ [(stripKey t, assetLabel (m.length + 1)),
                 (t, assetLabel (m.length + 1))] →
            stripKey r.1 = r.1 → r.1 = stripKey t := by
          intro r hr hcan
          rcases List.mem_cons.mp hr with hr | hr
          · subst hr; rfl
          · simp only [List.mem_singleton] at hr
            subst hr
            exact absurd hcan.symm hteq
        rcases List.mem_append.mp hp with hp | hp
        · rcases List.mem_append.mp hq with hq | hq
          · exact hI3 p q hp hq h1 h2 h3
          · have hq1 := hnotc q hq h2
            have hqv : q.2 = assetLabel (m.length + 1) := by
              rcases List.mem_cons.mp hq with hq | hq
              · rw [hq]
              · simp only [List.mem_singleton] at hq; rw [hq]
            have := hfresh p hp (m.length + 1) (h3.trans hqv)
            omega
        · have hp1 := hnotc p hp h1
          have hpv : p.2 = assetLabel (m.length + 1) := by
            rcases List.mem_cons.mp hp with hp | hp
            · rw [hp]
            · simp only [List.mem_singleton] at hp; rw [hp]
          rcases List.mem_append.mp hq with hq | hq
          · have := hfresh q hq (m.length + 1) (hpv.symm.trans h3).symm
            omega
          · have hq1 := hnotc q hq h2
            rw [hp1, hq1]
      · intro k v h
        exact alLookup_append_of_some h
      · rw [alLookup_append_of_none hlt]
        have h2 : ¬stripKey t = t := fun he => hteq he.symm
        simp [alLookup, h2]
      · rw [alLookup_append_of_none hlk]
        exact hpairlook

theorem buildAux_spec : ∀ (ts : List (List Char))
    (m : List (List Char × List Char)), MapInv m →
    MapInv (ts.foldl buildStep m) ∧
    (∀ k v, alLookup m k = some v → alLookup (ts.foldl buildStep m) k = some v) ∧
    (∀ t ∈ ts, ∃ v, alLookup (ts.foldl buildStep m) t = some v ∧
      alLookup (ts.foldl buildStep m) (stripKey t) = some v) := by
  intro ts
  induction ts with
  | nil =>
    intro m h
    exact ⟨h, fun k v hv => hv, by intro t ht; cases ht⟩
  | cons t ts ih =>
    intro m h
    obtain ⟨h1, h2, h3⟩ := buildStep_spec t h
    obtain ⟨g1, g2, g3⟩ := ih (buildStep m t) h1
    rw [List.foldl_cons]
    refine ⟨g1, fun k v hv => g2 k v (h2 k v hv), ?_⟩
    intro u hu
    rcases List.mem_cons.mp hu with he | hmem
    · subst he
      obtain ⟨v, hv1, hv2⟩ := h3
      exact ⟨v, g2 _ _ hv1, g2 _ _ hv2⟩
    · exact g3 u hmem

/-- C4.  In batch anonymisation, for every admissible enumeration `ts` of
the term set collected over the batch, two detected surface strings are
assigned the identical label iff they are identical after removing spaces
and hyphens. -/
theorem batch_label_consistency (docs ts : List (List Char)) (s1 s2 : List Char)
    (hperm : ts.Perm (collectBatch docs)) (h1 : s1 ∈ ts) (h2 : s2 ∈ ts) :
    ∃ v1 v2, alLookup (buildAnonMap ts) s1 = some v1 ∧
      alLookup (buildAnonMap ts) s2 = some v2 ∧
      (v1 = v2 ↔ stripKey s1 = stripKey s2) := by
  obtain ⟨hinv, -, hterm⟩ := buildAux_spec ts [] mapInv_nil
  obtain ⟨v1, hv1, hk1⟩ := hterm s1 h1
  obtain ⟨v2, hv2, hk2⟩ := hterm s2 h2
  refine ⟨v1, v2, hv1, hv2, ?_, ?_⟩
  · intro he
    exact hinv.2.2 (stripKey s1, v1) (stripKey s2, v2)
      (alLookup_some_mem hk1) (alLookup_some_mem hk2)
      (stripKey_idem s1) (stripKey_idem s2) he
  · intro he
    rw [← he] at hk2
    rw [hk1] at hk2
    exact Option.some.inj hk2

/-- Witness for C4: the batch containing ABC-123 and ABC 123 assigns both
surface forms one label (the spec scenario of section 8). -/
theorem batch_label_consistency_witness :
    ∃ v1 v2,
      alLookup (buildAnonMap ["ABC-123".toList, "ABC 123".toList])
        "ABC-123".toList = some v1 ∧
      alLookup (buildAnonMap ["ABC-123".toList, "ABC 123".toList])
        "ABC 123".toList = some v2 ∧
      (v1 = v2 ↔ stripKey "ABC-123".toList = stripKey "ABC 123".toList) := by
  refine batch_label_consistency ["check ABC-123 and ABC 123".toList]
    ["ABC-123".toList, "ABC 123".toList] "ABC-123".toList "ABC 123".toList
    ?_ (by decide) (by decide)
  have h2 : get_anonymised_terms "check ABC-123 and ABC 123".toList
      = ["ABC-123".toList, "ABC 123".toList] := by
    simp [get_anonymised_terms, detectGo, tryDetect, isU, isW, isS, isD]
  have h3 : List.flatMap ["check ABC-123 and ABC 123".toList] get_anonymised_terms
      = get_anonymised_terms "check ABC-123 and ABC 123".toList := by
    simp
  have h : collectBatch ["check ABC-123 and ABC 123".toList]
      = ["ABC-123".toList, "ABC 123".toList] := by
    unfold collectBatch
    rw [h3, h2]
    decide
  rw [h]

/-! ## C2: the batch second pass

The batch driver of `normalise_csv` builds the map above and then passes it
into the per-document normalisation call
(`simple_normalise(text, corrections_dict, anonymised_terms_map)`,
src/mudlark/main.py lines 227-232).  The variant of `simple_normalise`
accepting the map is not part of the source tree (the file under
src/mudlark/normalisation only defines the two-argument variant whose
anonymisation stage inserts the fixed placeholder), so the substitution
pass is modelled from the specification. -/

/-- Modelled from the spec: the batch-mode second pass of the anonymiser
(the variant of `simple_normalise` taking `anonymised_terms_map`, absent
from the source tree).  Specification section 4.3: A second pass
substitutes each detected surface occurrence with its assigned label; the
key is derived by removing spaces and hyphens from the match and looked up
in the shared identifier map.  Detection is the batch pattern scanner. -/
def substDetected (m : List (List Char × List Char)) (prevW : Bool)
    (s : List Char) : List Char :=
  match s with
  | [] => []
  | c :: cs =>
    if !prevW && isU c then
      match h : tryDetect (c :: cs) with
      | some mr => ((alLookup m (stripKey mr.1)).getD mr.1) ++ substDetected m true mr.2
      | none => c :: substDetected m (isW c) cs
    else c :: substDetected m (isW c) cs
termination_by s.length
decreasing_by
  · exact tryDetect_rest_lt h
  · simp [Nat.lt_succ_iff]
  · simp [Nat.lt_succ_iff]

/-- Modelled from the spec: batch anonymisation of a document set with the
map built from the enumeration `ts` of the collected terms. -/
def batchAnonymise (docs ts : List (List Char)) : List (List Char) :=
  docs.map (fun doc => substDetected (buildAnonMap ts) false doc)

/-- C2.  After the identifier map is built, every detected surface
occurrence in every document of the batch has a bound label of the form
Asset followed by a positive number: the substitution pass
(`substDetected`, which replaces each detected occurrence by the map value
at its stripped key) replaces each occurrence by that label, never leaves
it in place and never inserts another placeholder. -/
theorem batch_substitution_uses_asset_labels (docs ts : List (List Char))
    (doc t : List Char) (hperm : ts.Perm (collectBatch docs))
    (hdoc : doc ∈ docs) (ht : t ∈ get_anonymised_terms doc) :
    ∃ n, 1 ≤ n ∧ alLookup (buildAnonMap ts) (stripKey t) = some (assetLabel n) := by
  have htb : t ∈ collectBatch docs := by
    unfold collectBatch
    rw [List.mem_dedup]
    exact List.mem_flatMap.mpr ⟨doc, hdoc, ht⟩
  have hts : t ∈ ts := hperm.mem_iff.mpr htb
  obtain ⟨hinv, -, hterm⟩ := buildAux_spec ts [] mapInv_nil
  obtain ⟨v, hv1, hv2⟩ := hterm t hts
  obtain ⟨n, hn1, hn2, hn3⟩ := hinv.1 _ (alLookup_some_mem hv2)
  refine ⟨n, hn1, ?_⟩
  show alLookup (ts.foldl buildStep []) (stripKey t) = some (assetLabel n)
  rw [hv2]
  simp only at hn3
  rw [hn3]

/-- Witness for C2 at the batch containing PU1760. -/
theorem batch_substitution_uses_asset_labels_witness :
    ∃ n, 1 ≤ n ∧ alLookup (buildAnonMap ["PU1760".toList])
      (stripKey "PU1760".toList) = some (assetLabel n) := by
  refine batch_substitution_uses_asset_labels ["PU1760 not pumping".toList]
    ["PU1760".toList] "PU1760 not pumping".toList "PU1760".toList ?_
    (by decide) ?_
  · have h2 : get_anonymised_terms "PU1760 not pumping".toList = ["PU1760".toList] := by
      simp [get_anonymised_terms, detectGo, tryDetect, isU, isW, isS, isD]
    have h3 : List.flatMap ["PU1760 not pumping".toList] get_anonymised_terms
        = get_anonymised_terms "PU1760 not pumping".toList := by
      simp
    have h : collectBatch ["PU1760 not pumping".toList] = ["PU1760".toList] := by
      unfold collectBatch
      rw [h3, h2]
      decide
    rw [h]
  · simp [get_anonymised_terms, detectGo, tryDetect, isU, isW, isS, isD]

/-! ## C3: label numbering across the batch -/

/-- The explicit form of the map on clean terms: term `k` in enumeration
position `i` (zero-based) is bound to label number `b + i + 1`. -/
def enumFrom (b : Nat) : List (List Char) → List (List Char × List Char)
  | [] => []
  | t :: r => (t, assetLabel (b + 1)) :: enumFrom (b + 1) r

theorem buildAux_clean : ∀ (ts : List (List Char))
    (m : List (List Char × List Char)),
    (∀ t ∈ ts, stripKey t = t) → (∀ t ∈ ts, alLookup m t = none) → ts.Nodup →
    ts.foldl buildStep m = m ++ enumFrom m.length ts := by
  intro ts
  induction ts with
  | nil => intro m _ _ _; simp [enumFrom]
  | cons t ts ih =>
    intro m hclean hnone hnd
    have hct : stripKey t = t := hclean t (List.mem_cons_self _ _)
    have hnt : alLookup m t = none := hnone t (List.mem_cons_self _ _)
    have hstep : buildStep m t = m ++ [(t, assetLabel (m.length + 1))] := by
      unfold buildStep
      rw [hct]
      simp only [hnt, Option.isNone_none, if_true]
      rw [alInsert_of_none _ hnt]
      have hl : alLookup (m ++ [(t, assetLabel (m.length + 1))]) t
          = some (assetLabel (m.length + 1)) := by
        rw [alLookup_append_of_none hnt]
        simp [alLookup]
      rw [hl]
      exact alInsert_self hl
    rw [List.foldl_cons, hstep]
    rw [ih (m ++ [(t, assetLabel (m.length + 1))])
      (fun u hu => hclean u (List.mem_cons_of_mem _ hu))
      (fun u hu => by
        rw [alLookup_append_of_none (hnone u (List.mem_cons_of_mem _ hu))]
        have hne : ¬t = u := fun he => (List.nodup_cons.mp hnd).1 (he ▸ hu)
        simp [alLookup, hne])
      (List.nodup_cons.mp hnd).2]
    simp only [List.length_append, List.length_cons, List.length_nil,
      List.append_assoc, List.singleton_append]
    rfl

theorem lookup_enumFrom : ∀ (b : Nat) (ts : List (List Char)), ts.Nodup →
    ∀ (i : Nat) (hi : i < ts.length),
    alLookup (enumFrom b ts) ts[i] = some (assetLabel (b + i + 1)) := by
  intro b ts
  induction ts generalizing b with
  | nil => intro _ i hi; simp at hi
  | cons t r ih =>
    intro hnd i hi
    cases i with
    | zero => simp [enumFrom, alLookup]
    | succ j =>
      have hj : j < r.length := by simpa using hi
      have hne : ¬t = r[j] :=
        fun he => (List.nodup_cons.mp hnd).1 (he ▸ r.getElem_mem hj)
      simp only [enumFrom, alLookup, List.getElem_cons_succ, hne, if_false]
      have h4 := ih (b + 1) (List.nodup_cons.mp hnd).2 j hj
      rw [h4]
      congr 2
      omega

/-- C3 counterexample.  The claim says the k-th distinct key across the
batch receives label Asset followed by k, in first-seen order.  For the
single-document batch AB 1 and CD 2 the collected set has two elements, so
the set enumeration is one of the two orders below; under either order the
second distinct key receives Asset3, not Asset2, because mapping a surface
term that differs from its key adds an extra map entry and the label
number is one plus the map size. -/
theorem first_seen_numbering_counterexample :
    collectBatch ["AB 1 and CD 2".toList] = ["AB 1".toList, "CD 2".toList] ∧
    assetLabel 3 = "Asset3".toList ∧
    alLookup (buildAnonMap ["AB 1".toList, "CD 2".toList])
      (stripKey "CD 2".toList) = some (assetLabel 3) ∧
    alLookup (buildAnonMap ["CD 2".toList, "AB 1".toList])
      (stripKey "AB 1".toList) = some (assetLabel 3) ∧
    assetLabel 3 ≠ assetLabel 2 := by
  refine ⟨?_, by decide, by decide, by decide, by decide⟩
  have h2 : get_anonymised_terms "AB 1 and CD 2".toList
      = ["AB 1".toList, "CD 2".toList] := by
    simp [get_anonymised_terms, detectGo, tryDetect, isU, isW, isS, isD]
  have h3 : List.flatMap ["AB 1 and CD 2".toList] get_anonymised_terms
      = get_anonymised_terms "AB 1 and CD 2".toList := by
    simp
  unfold collectBatch
  rw [h3, h2]
  decide

/-- C3 (amended).  Distinct identifier keys are numbered in the order of
the iteration over the collected term set (which Python does not tie to
first-seen document order), and the number assigned to a key is one plus
the number of map entries made before it.  When every collected term
already equals its key (no spaces or hyphens in the detected surface
forms), this numbering is consecutive: the k-th key of the enumeration
receives the label Asset followed by k. -/
theorem batch_labels_enumeration_order (ts : List (List Char))
    (hnd : ts.Nodup) (hclean : ∀ t ∈ ts, stripKey t = t)
    (i : Nat) (hi : i < ts.length) :
    alLookup (buildAnonMap ts) ts[i] = some (assetLabel (i + 1)) := by
  unfold buildAnonMap
  rw [buildAux_clean ts [] hclean (fun t _ => rfl) hnd]
  simp only [List.nil_append, List.length_nil]
  have := lookup_enumFrom 0 ts hnd i hi
  simpa using this

/-- Witness for C3: the clean enumeration AB1, CD2 assigns Asset2 to the
second key. -/
theorem batch_labels_enumeration_order_witness :
    alLookup (buildAnonMap ["AB1".toList, "CD2".toList]) "CD2".toList
      = some (assetLabel 2) := by
  have h := batch_labels_enumeration_order ["AB1".toList, "CD2".toList]
    (by decide) (by decide) 1 (by decide)
  simpa using h

/-! ## C9: descending key-length order in the typo corrector -/

theorem insDesc_perm (x : List Char × List Char)
    (l : List (List Char × List Char)) : (insDesc x l).Perm (x :: l) := by
  induction l with
  | nil => exact List.Perm.refl _
  | cons y ys ih =>
    rw [insDesc]
    split
    · exact List.Perm.refl _
    · exact ((ih.cons y).trans (List.Perm.swap x y ys))

theorem sortCorrections_perm (d : List (List Char × List Char)) :
    (sortCorrections d).Perm d := by
  induction d with
  | nil => exact List.Perm.refl _
  | cons x xs ih =>
    exact (insDesc_perm x (sortCorrections xs)).trans (ih.cons x)

theorem insDesc_sorted {x : List Char × List Char}
    {l : List (List Char × List Char)}
    (h : List.Pairwise (fun p q => q.1.length ≤ p.1.length) l) :
    List.Pairwise (fun p q => q.1.length ≤ p.1.length) (insDesc x l) := by
  induction l with
  | nil => simp [insDesc]
  | cons y ys ih =>
    rw [insDesc]
    split
    · rename_i hle
      refine List.Pairwise.cons ?_ h
      intro z hz
      rcases List.mem_cons.mp hz with he | hmem
      · subst he; exact hle
      · exact le_trans ((List.pairwise_cons.mp h).1 z hmem) hle
    · rename_i hgt
      refine List.Pairwise.cons ?_ (ih (List.pairwise_cons.mp h).2)
      intro z hz
      have hz2 := (insDesc_perm x ys).mem_iff.mp hz
      rcases List.mem_cons.mp hz2 with he | hmem
      · subst he; omega
      · exact (List.pairwise_cons.mp h).1 z hmem

theorem sortCorrections_sorted (d : List (List Char × List Char)) :
    List.Pairwise (fun p q => q.1.length ≤ p.1.length) (sortCorrections d) := by
  induction d with
  | nil => simp [sortCorrections]
  | cons x xs ih => exact insDesc_sorted ih

/-- C9.  The typo corrector processes keys in descending key-length order
(the processing order is a permutation of the table, pairwise sorted by
non-increasing key length), so an overlapping longer key is applied before
any shorter whole-word key: on the text air / con with the table mapping
air / con to air conditioner and con to control, the code yields
air conditioner, while processing the shorter key first (the order the
claim rules out) would yield air / control. -/
theorem typo_correction_longest_first :
    (∀ d : List (List Char × List Char),
      (sortCorrections d).Perm d ∧
      List.Pairwise (fun p q => q.1.length ≤ p.1.length) (sortCorrections d)) ∧
    correct_typos "air / con".toList
      [("air / con".toList, "air conditioner".toList),
       ("con".toList, "control".toList)] = "air conditioner".toList ∧
    applyCorrections
      [("con".toList, "control".toList),
       ("air / con".toList, "air conditioner".toList)]
      "air / con".toList = "air / control".toList := by
  refine ⟨fun d => ⟨sortCorrections_perm d, sortCorrections_sorted d⟩, ?_, ?_⟩
  · simp only [correct_typos]
    simp [applyCorrections, sortCorrections, insDesc, substGo, headW, lastW,
      isW, isS]
  · simp [applyCorrections, substGo, headW, lastW, isW, isS]

/-! ## C8: idempotence of the shape normalisation -/

/-- The shape-normalisation composite: the shape stages of
`simple_normalise` in source order, without the anonymiser. -/
def shapeNormalise (s : List Char) : List Char :=
  remove_extra_spaces (add_space_around_punctuation
    (remove_duplicate_contiguous_chars (remove_undesirable_chars
      (remove_commas (pyLower s)))))

/-- Character class facts used throughout: a character of the first
punctuation class has a code point between 33 and 126 distinct from the
slash and hyphen codes. -/
theorem toNat_of_inQ1 {c : Char} (h : inQ1 c = true) :
    33 ≤ c.toNat ∧ c.toNat ≤ 126 ∧ c.toNat ≠ 45 ∧ c.toNat ≠ 47 := by
  unfold inQ1 q1Codes at h
  simp [List.contains] at h
  omega

theorem toNat_of_alnum {c : Char} (h : c.isAlphanum = true) :
    (48 ≤ c.toNat ∧ c.toNat ≤ 57) ∨ (65 ≤ c.toNat ∧ c.toNat ≤ 90) ∨
    (97 ≤ c.toNat ∧ c.toNat ≤ 122) := by
  simp [Char.isAlphanum, Char.isAlpha, Char.isUpper, Char.isLower,
    Char.isDigit] at h
  rcases h with (h | h) | h
  · right; left; exact ⟨h.1, h.2⟩
  · right; right; exact ⟨h.1, h.2⟩
  · left; exact ⟨h.1, h.2⟩

theorem inQ1_eq_false_of_alnum {c : Char} (h : c.isAlphanum = true) :
    inQ1 c = false := by
  cases hq : inQ1 c
  · rfl
  · exfalso
    have h2 := toNat_of_alnum h
    unfold inQ1 q1Codes at hq
    simp [List.contains] at hq
    omega

theorem toNat_of_isS {c : Char} (h : isS c = true) : c.toNat ≤ 32 := by
  simp [isS] at h
  rcases h with ((((h | h) | h) | h) | h) | h <;> subst h <;> decide

theorem inQ1_eq_false_of_isS {c : Char} (h : isS c = true) : inQ1 c = false := by
  cases hq : inQ1 c
  · rfl
  · exact absurd (toNat_of_isS h) (by have := (toNat_of_inQ1 hq).1; omega)

theorem isS_eq_false_of_isW {c : Char} (h : isW c = true) : isS c = false := by
  cases hs : isS c
  · rfl
  · exfalso
    have h1 := toNat_of_isS hs
    simp [isW] at h
    rcases h with h | h
    · have := toNat_of_alnum h
      omega
    · subst h
      exact absurd h1 (by decide)

theorem isW_eq_false_of_isS {c : Char} (h : isS c = true) : isW c = false := by
  cases hw : isW c
  · rfl
  · exact absurd (isS_eq_false_of_isW hw) (by simp [h])

/-- The only character that is both a word character and a member of the
first punctuation class is the underscore. -/
theorem eq_underscore_of_isW_inQ1 {c : Char} (hw : isW c = true)
    (hq : inQ1 c = true) : c = '_' := by
  simp [isW] at hw
  rcases hw with h | h
  · exact absurd (inQ1_eq_false_of_alnum h) (by simp [hq])
  · exact h

theorem toNat_ofNat_valid (n : Nat) (h : n.isValidChar) :
    (Char.ofNat n).toNat = n := by
  unfold Char.ofNat
  simp [h, Char.ofNatAux, Char.toNat, UInt32.toNat]

/-- Lowercasing is idempotent on characters. -/
theorem toLower_idem (c : Char) : c.toLower.toLower = c.toLower := by
  unfold Char.toLower
  by_cases h : c.toNat ≥ 65 ∧ c.toNat ≤ 90
  · rw [if_pos h]
    have hv : (c.toNat + 32).isValidChar := by
      left
      omega
    rw [toNat_ofNat_valid _ hv]
    rw [if_neg (by omega)]
  · rw [if_neg h, if_neg h]

/-- A character is shape-stable when it survives the lowercasing, comma
removal and undesirable-character stages unchanged: it is in the kept
alphabet, is not a comma, and is fixed by lowercasing. -/
def goodChar (c : Char) : Bool :=
  isAllowed c && !(c = ',') && (c.toLower = c)

/-- A character is run-safe when it is not simultaneously a word character
and a member of the first punctuation class (i.e. it is not an
underscore in that class). -/
def okCh (c : Char) : Bool := !(inQ1 c && isW c)

theorem okCh_of_goodChar {c : Char} (h : goodChar c = true) : okCh c = true := by
  simp [goodChar, isAllowed, inKeep, keepP] at h
  simp [okCh]
  cases hq : inQ1 c
  · exact Or.inl rfl
  · right
    cases hw : isW c
    · rfl
    · exfalso
      have h3 := eq_underscore_of_isW_inQ1 hw hq
      subst h3
      rcases h.1.1 with h4 | h4
      · rcases h4 with h4 | h4
        · exact absurd h4 (by decide)
        · exact absurd h4 (by decide)
      · rcases h4 with h4 | h4 | h4 | h4 | h4 | h4 | h4 <;> exact absurd h4 (by decide)

/-! ### Generic run/append helpers -/

theorem takeWhile_append_all {p : Char → Bool} {xs : List Char}
    (h : xs.all p = true) (ys : List Char)
    (h2 : ∀ c, ys.head? = some c → p c = false) :
    (xs ++ ys).takeWhile p = xs := by
  induction xs with
  | nil =>
    cases ys with
    | nil => simp
    | cons c cs => simp [List.takeWhile_cons, h2 c rfl]
  | cons x xs ih =>
    simp only [List.all_cons, Bool.and_eq_true] at h
    simp [List.takeWhile_cons, h.1, ih h.2]

theorem dropWhile_append_all {p : Char → Bool} {xs : List Char}
    (h : xs.all p = true) (ys : List Char)
    (h2 : ∀ c, ys.head? = some c → p c = false) :
    (xs ++ ys).dropWhile p = ys := by
  induction xs with
  | nil =>
    cases ys with
    | nil => simp
    | cons c cs => simp [List.dropWhile_cons, h2 c rfl]
  | cons x xs ih =>
    simp only [List.all_cons, Bool.and_eq_true] at h
    simp [List.dropWhile_cons, h.1, ih h.2]

theorem head_not_of_dropWhile {p : Char → Bool} (l : List Char) :
    ∀ c, (l.dropWhile p).head? = some c → p c = false := by
  induction l with
  | nil => intro c h; cases h
  | cons x xs ih =>
    intro c h
    rw [List.dropWhile_cons] at h
    split at h
    · exact ih c h
    · rename_i hx
      simp at h
      subst h
      simpa using hx

theorem dropWhile_eq_self_of_head {p : Char → Bool} {l : List Char}
    (h : ∀ c, l.head? = some c → p c = false) : l.dropWhile p = l := by
  cases l with
  | nil => rfl
  | cons c cs => simp [List.dropWhile_cons, h c rfl]


/-! ### Whitespace-collapse scanner lemmas -/

theorem wsGo_cons_ws {c : Char} {cs : List Char} (h : isS c = true) (pS : Bool) :
    wsGo pS (c :: cs) = (if pS then wsGo true cs else ' ' :: wsGo true cs) := by
  rw [wsGo]
  simp [h]

theorem wsGo_cons_nonws {c : Char} {cs : List Char} (h : isS c = false) (pS : Bool) :
    wsGo pS (c :: cs) = c :: wsGo false cs := by
  rw [wsGo]
  simp [h]

/-- The whitespace collapser is idempotent. -/
theorem wsGo_idem (x : List Char) : ∀ pS, wsGo pS (wsGo pS x) = wsGo pS x := by
  induction x with
  | nil => intro pS; rfl
  | cons c cs ih =>
    intro pS
    by_cases h : isS c = true
    · rw [wsGo_cons_ws h]
      cases pS
      · simp only [Bool.false_eq_true, if_false]
        rw [wsGo_cons_ws (by decide), if_neg (by simp), ih true]
      · simp only [if_true, ih true]
    · rw [wsGo_cons_nonws (by simpa using h),
        wsGo_cons_nonws (by simpa using h), ih false]

theorem dropWhile_isS_wsGo (z : List Char) :
    ∀ pS, (wsGo pS z).dropWhile isS = wsGo false (z.dropWhile isS) := by
  induction z with
  | nil => intro pS; rfl
  | cons c cs ih =>
    intro pS
    by_cases h : isS c = true
    · rw [wsGo_cons_ws h, List.dropWhile_cons_of_pos (by simpa using h)]
      cases pS
      · simp only [Bool.false_eq_true, if_false,
          List.dropWhile_cons_of_pos (show isS ' ' = true by decide)]
        exact ih true
      · simp only [if_true]
        exact ih true
    · rw [wsGo_cons_nonws (by simpa using h),
        List.dropWhile_cons_of_neg (by simpa using h),
        List.dropWhile_cons_of_neg (by simpa using h),
        wsGo_cons_nonws (by simpa using h)]

theorem takeWhile_isW_wsGo (z : List Char) :
    (wsGo false z).takeWhile isW = z.takeWhile isW := by
  induction z with
  | nil => rfl
  | cons c cs ih =>
    by_cases h : isS c = true
    · rw [wsGo_cons_ws h, if_neg (by simp)]
      rw [List.takeWhile_cons_of_neg (by decide),
        List.takeWhile_cons_of_neg (by simp [isW_eq_false_of_isS h])]
    · rw [wsGo_cons_nonws (by simpa using h)]
      by_cases hw : isW c = true
      · rw [List.takeWhile_cons_of_pos (by simpa using hw),
          List.takeWhile_cons_of_pos (by simpa using hw)]
        -- the tail state: after a non-whitespace char the collapser is in
        -- state false, but the takeWhile result below needs the recursive
        -- equation at state false, which is exactly ih
        rw [ih]
      · rw [List.takeWhile_cons_of_neg (by simpa using hw),
          List.takeWhile_cons_of_neg (by simpa using hw)]

theorem sepOk_wsGo (s : Char) (z : List Char) (pS : Bool) :
    sepOk s (wsGo pS z) = sepOk s z := by
  unfold sepOk
  rw [dropWhile_isS_wsGo]
  cases hd : z.dropWhile isS with
  | nil => rfl
  | cons c r2 =>
    have hc : isS c = false := by
      have := head_not_of_dropWhile (p := isS) z c
      rw [hd] at this
      exact this rfl
    rw [wsGo_cons_nonws hc]
    simp only
    rw [dropWhile_isS_wsGo, takeWhile_isW_wsGo]

theorem wsGo_append_run {r : List Char} (h : r.all (fun c => !isS c) = true)
    (hne : r ≠ []) (z : List Char) :
    ∀ pS, wsGo pS (r ++ z) = r ++ wsGo false z := by
  induction r with
  | nil => exact absurd rfl hne
  | cons c r2 ih =>
    intro pS
    simp only [List.all_cons, Bool.and_eq_true, Bool.not_eq_true'] at h
    rw [List.cons_append, wsGo_cons_nonws h.1]
    cases hr : r2 with
    | nil => simp
    | cons d r3 =>
      rw [← hr]
      have := ih (by rw [List.all_eq_true] at h ⊢; exact fun a ha => h.2 a ha)
        (by rw [hr]; exact List.cons_ne_nil d r3) false
      rw [this, List.cons_append]
  
/-! ### Separator scanner equation lemmas -/

theorem sepGo_nil (sep : Char) : sepGo sep [] = [] := by
  rw [sepGo]

theorem sepGo_cons_nonword {sep c : Char} {cs : List Char} (h : isW c = false) :
    sepGo sep (c :: cs) = c :: sepGo sep cs := by
  rw [sepGo]
  simp [h]

theorem sepGo_cons_match {sep c : Char} {cs : List Char} (hw : isW c = true)
    (h : 3 ≤ (c :: cs.takeWhile isW).length ∧ sepOk sep (cs.dropWhile isW) = true) :
    sepGo sep (c :: cs) = (c :: cs.takeWhile isW)
      ++ ' ' :: sep :: ' ' :: sepGo sep (sepRes (cs.dropWhile isW)) := by
  rw [sepGo]
  simp only [hw, if_true]
  rw [dif_pos h]

theorem sepGo_cons_nomatch {sep c : Char} {cs : List Char} (hw : isW c = true)
    (h : ¬(3 ≤ (c :: cs.takeWhile isW).length ∧ sepOk sep (cs.dropWhile isW) = true)) :
    sepGo sep (c :: cs) = (c :: cs.takeWhile isW) ++ sepGo sep (cs.dropWhile isW) := by
  rw [sepGo]
  simp only [hw, if_true, if_pos]
  rw [dif_neg h]

theorem sepGo_head (sep : Char) (z : List Char) :
    (sepGo sep z).head? = z.head? := by
  cases z with
  | nil => rw [sepGo_nil]
  | cons c cs =>
    by_cases hw : isW c = true
    · by_cases h : 3 ≤ (c :: cs.takeWhile isW).length
          ∧ sepOk sep (cs.dropWhile isW) = true
      · rw [sepGo_cons_match hw h]
        simp
      · rw [sepGo_cons_nomatch hw h]
        simp
    · rw [sepGo_cons_nonword (by simpa using hw)]
      simp

theorem sepGo_copy {pre : List Char} (h : pre.all (fun c => !isW c) = true)
    (sep : Char) (z : List Char) :
    sepGo sep (pre ++ z) = pre ++ sepGo sep z := by
  induction pre with
  | nil => rfl
  | cons c p2 ih =>
    simp only [List.all_cons, Bool.and_eq_true, Bool.not_eq_true'] at h
    rw [List.cons_append, sepGo_cons_nonword h.1, ih h.2, List.cons_append]

theorem takeWhile_isW_sepGo {sep : Char} (hw : isW sep = false) (z : List Char) :
    (sepGo sep z).takeWhile isW = z.takeWhile isW := by
  cases z with
  | nil => rw [sepGo_nil]
  | cons c cs =>
    by_cases hc : isW c = true
    · have hall : (c :: cs.takeWhile isW).all isW = true := by
        simp only [List.all_cons, hc, Bool.true_and]
        exact all_takeWhile_self isW cs
      by_cases h : 3 ≤ (c :: cs.takeWhile isW).length
          ∧ sepOk sep (cs.dropWhile isW) = true
      · rw [sepGo_cons_match hc h,
          takeWhile_append_all hall _ (by intro d hd; cases hd; decide),
          List.takeWhile_cons_of_pos (by simpa using hc)]
      · rw [sepGo_cons_nomatch hc h,
          takeWhile_append_all hall _ (by
            intro d hd
            rw [sepGo_head] at hd
            exact head_not_of_dropWhile cs d hd),
          List.takeWhile_cons_of_pos (by simpa using hc)]
    · rw [sepGo_cons_nonword (by simpa using hc),
        List.takeWhile_cons_of_neg (by simpa using hc),
        List.takeWhile_cons_of_neg (by simpa using hc)]

theorem dropWhile_isS_sepGo {sep : Char} (hs : isS sep = false) (z : List Char) :
    (sepGo sep z).dropWhile isS = sepGo sep (z.dropWhile isS) := by
  induction z with
  | nil => rw [List.dropWhile_nil, sepGo_nil, List.dropWhile_nil]
  | cons c cs ih =>
    by_cases hc : isW c = true
    · have hcs : isS c = false := isS_eq_false_of_isW hc
      have hz : (c :: cs).dropWhile isS = c :: cs :=
        List.dropWhile_cons_of_neg (by simp [hcs])
      rw [hz]
      have hh := sepGo_head sep (c :: cs)
      cases hg : sepGo sep (c :: cs) with
      | nil => rfl
      | cons d gs =>
        rw [hg] at hh
        simp at hh
        rw [List.dropWhile_cons_of_neg (by simp [hh ▸ hcs])]
    · by_cases hcss : isS c = true
      · rw [sepGo_cons_nonword (by simpa using hc),
          List.dropWhile_cons_of_pos (by simpa using hcss),
          List.dropWhile_cons_of_pos (by simpa using hcss)]
        exact ih
      · rw [sepGo_cons_nonword (by simpa using hc),
          List.dropWhile_cons_of_neg (by simpa using hcss),
          List.dropWhile_cons_of_neg (by simpa using hcss),
          sepGo_cons_nonword (by simpa using hc)]

theorem sepOk_sepGo {s s2 : Char} (hs : isS s = false) (hw : isW s = false)
    (hw2 : isW s2 = false) (z : List Char) :
    sepOk s2 (sepGo s z) = sepOk s2 z := by
  unfold sepOk
  rw [dropWhile_isS_sepGo hs]
  cases hd : z.dropWhile isS with
  | nil => rw [sepGo_nil]
  | cons c r2 =>
    by_cases hc : isW c = true
    · have hne : (c = s2) = False := by
        simp only [eq_iff_iff, iff_false]
        intro he
        rw [he] at hc
        exact absurd hc (by simp [hw2])
      by_cases h : 3 ≤ (c :: r2.takeWhile isW).length
          ∧ sepOk s (r2.dropWhile isW) = true
      · rw [sepGo_cons_match hc h]
        simp only [List.cons_append]
        simp [hne]
      · rw [sepGo_cons_nomatch hc h]
        simp only [List.cons_append]
        simp [hne]
    · rw [sepGo_cons_nonword (by simpa using hc)]
      simp only
      rw [dropWhile_isS_sepGo hs, takeWhile_isW_sepGo hw]

theorem sepRes_lookahead {sep : Char} {rest : List Char}
    (h : sepOk sep rest = true) :
    3 ≤ ((sepRes rest).takeWhile isW).length := by
  unfold sepOk at h
  unfold sepRes
  cases hd : rest.dropWhile isS with
  | nil => rw [hd] at h; cases h
  | cons c r2 =>
    rw [hd] at h
    simp only [Bool.and_eq_true, decide_eq_true_eq] at h
    simpa using h.2

theorem head_isW_of_lookahead {l : List Char} (h : 3 ≤ (l.takeWhile isW).length) :
    ∃ c cs, l = c :: cs ∧ isW c = true := by
  cases hl : l with
  | nil => rw [hl] at h; simp at h
  | cons c cs =>
    refine ⟨c, cs, rfl, ?_⟩
    by_cases hc : isW c = true
    · exact hc
    · rw [hl, List.takeWhile_cons_of_neg (by simpa using hc)] at h
      simp at h

/-- Inversion of a fixed point of the separator scanner at a matching run:
the separator context is already in the single-spaced normal form, and the
scanner also fixes the resume point. -/
theorem sepGo_match_inversion {sep c : Char} {cs : List Char}
    (hs : isS sep = false) (hwsep : isW sep = false) (hw : isW c = true)
    (h : 3 ≤ (c :: cs.takeWhile isW).length ∧ sepOk sep (cs.dropWhile isW) = true)
    (heq : sepGo sep (c :: cs) = c :: cs) :
    cs.dropWhile isW = ' ' :: sep :: ' ' :: sepRes (cs.dropWhile isW)
      ∧ sepGo sep (sepRes (cs.dropWhile isW)) = sepRes (cs.dropWhile isW) := by
  have hsplit : c :: cs = (c :: cs.takeWhile isW) ++ cs.dropWhile isW := by
    simp [List.takeWhile_append_dropWhile]
  rw [sepGo_cons_match hw h] at heq
  conv_rhs at heq => rw [hsplit]
  have heq2 : ' ' :: sep :: ' ' :: sepGo sep (sepRes (cs.dropWhile isW))
      = cs.dropWhile isW := List.append_cancel_left heq
  have hlk : 3 ≤ ((sepRes (cs.dropWhile isW)).takeWhile isW).length :=
    sepRes_lookahead h.2
  obtain ⟨d, ds, hd, hdw⟩ := head_isW_of_lookahead hlk
  have hdrop : (cs.dropWhile isW).dropWhile isS
      = sep :: ' ' :: sepGo sep (sepRes (cs.dropWhile isW)) := by
    conv_lhs => rw [← heq2]
    rw [List.dropWhile_cons_of_pos (by decide),
      List.dropWhile_cons_of_neg (by simp [hs])]
  have hres2 : sepRes (cs.dropWhile isW)
      = (sepGo sep (sepRes (cs.dropWhile isW))).dropWhile isS := by
    conv_lhs => rw [show sepRes (cs.dropWhile isW)
      = (((cs.dropWhile isW).dropWhile isS).drop 1).dropWhile isS from rfl, hdrop]
    simp only [List.drop_one, List.tail_cons]
    rw [List.dropWhile_cons_of_pos (by decide)]
  have h1 : (sepRes (cs.dropWhile isW)).dropWhile isS = sepRes (cs.dropWhile isW) := by
    rw [hd]
    exact List.dropWhile_cons_of_neg (by simp [isS_eq_false_of_isW hdw])
  have hfix : sepGo sep (sepRes (cs.dropWhile isW)) = sepRes (cs.dropWhile isW) := by
    calc sepGo sep (sepRes (cs.dropWhile isW))
        = sepGo sep ((sepRes (cs.dropWhile isW)).dropWhile isS) := by rw [h1]
      _ = (sepGo sep (sepRes (cs.dropWhile isW))).dropWhile isS :=
          (dropWhile_isS_sepGo hs _).symm
      _ = sepRes (cs.dropWhile isW) := hres2.symm
  refine ⟨?_, hfix⟩
  exact heq2.symm.trans (by rw [hfix])

theorem sepOk_spaced {sep : Char} (hs : isS sep = false) (t : List Char) :
    sepOk sep (' ' :: sep :: ' ' :: t)
      = decide (3 ≤ ((t.dropWhile isS).takeWhile isW).length) := by
  unfold sepOk
  rw [List.dropWhile_cons_of_pos (by decide),
    List.dropWhile_cons_of_neg (by simp [hs])]
  simp only []
  rw [List.dropWhile_cons_of_pos (show isS ' ' = true by decide)]
  simp

theorem sepRes_spaced {sep : Char} (hs : isS sep = false) (t : List Char) :
    sepRes (' ' :: sep :: ' ' :: t) = t.dropWhile isS := by
  unfold sepRes
  rw [List.dropWhile_cons_of_pos (by decide),
    List.dropWhile_cons_of_neg (by simp [hs])]
  simp only [List.drop_one, List.tail_cons]
  rw [List.dropWhile_cons_of_pos (by decide)]

theorem dropWhile_isS_of_lookahead {t : List Char}
    (h : 3 ≤ (t.takeWhile isW).length) : t.dropWhile isS = t := by
  obtain ⟨d, ds, hd, hdw⟩ := head_isW_of_lookahead h
  rw [hd]
  exact List.dropWhile_cons_of_neg (by simp [isS_eq_false_of_isW hdw])

/-- The separator substitution is idempotent. -/
theorem sepGo_idem {sep : Char} (hs : isS sep = false) (hw : isW sep = false)
    (x : List Char) : sepGo sep (sepGo sep x) = sepGo sep x := by
  refine sepGo.induct sep
    (fun z => sepGo sep (sepGo sep z) = sepGo sep z) ?_ ?_ ?_ ?_ x
  · show sepGo sep (sepGo sep []) = sepGo sep []
    rw [sepGo_nil, sepGo_nil]
  · intro c cs hc h ih
    show sepGo sep (sepGo sep (c :: cs)) = sepGo sep (c :: cs)
    rw [sepGo_cons_match hc h]
    -- facts about the resume point
    have hlk : 3 ≤ ((sepRes (cs.dropWhile isW)).takeWhile isW).length :=
      sepRes_lookahead h.2
    have hlkg : 3 ≤ ((sepGo sep (sepRes (cs.dropWhile isW))).takeWhile isW).length := by
      rw [takeWhile_isW_sepGo hw]
      exact hlk
    have hdg : (sepGo sep (sepRes (cs.dropWhile isW))).dropWhile isS
        = sepGo sep (sepRes (cs.dropWhile isW)) :=
      dropWhile_isS_of_lookahead hlkg
    have htw : (cs.takeWhile isW
        ++ ' ' :: sep :: ' ' :: sepGo sep (sepRes (cs.dropWhile isW))).takeWhile isW
        = cs.takeWhile isW :=
      takeWhile_append_all (all_takeWhile_self isW cs) _
        (by intro d hd; cases hd; decide)
    have hdw : (cs.takeWhile isW
        ++ ' ' :: sep :: ' ' :: sepGo sep (sepRes (cs.dropWhile isW))).dropWhile isW
        = ' ' :: sep :: ' ' :: sepGo sep (sepRes (cs.dropWhile isW)) :=
      dropWhile_append_all (all_takeWhile_self isW cs) _
        (by intro d hd; cases hd; decide)
    rw [List.cons_append, sepGo_cons_match hc (by
      refine ⟨?_, ?_⟩
      · rw [htw]
        simpa using h.1
      · rw [hdw, sepOk_spaced hs, hdg]
        simpa using hlkg)]
    rw [htw, hdw, sepRes_spaced hs, hdg, ih, List.cons_append]
  · intro c cs hc h ih
    show sepGo sep (sepGo sep (c :: cs)) = sepGo sep (c :: cs)
    rw [sepGo_cons_nomatch hc h]
    have hhd : ∀ d, (sepGo sep (cs.dropWhile isW)).head? = some d → isW d = false := by
      intro d hd
      rw [sepGo_head] at hd
      exact head_not_of_dropWhile cs d hd
    have htw : (cs.takeWhile isW ++ sepGo sep (cs.dropWhile isW)).takeWhile isW
        = cs.takeWhile isW :=
      takeWhile_append_all (all_takeWhile_self isW cs) _ hhd
    have hdw : (cs.takeWhile isW ++ sepGo sep (cs.dropWhile isW)).dropWhile isW
        = sepGo sep (cs.dropWhile isW) :=
      dropWhile_append_all (all_takeWhile_self isW cs) _ hhd
    rw [List.cons_append, sepGo_cons_nomatch hc (by
      rw [htw, hdw, sepOk_sepGo hs hw hw]
      simpa using h)]
    rw [htw, hdw, ih, List.cons_append]
  · intro c cs hc ih
    show sepGo sep (sepGo sep (c :: cs)) = sepGo sep (c :: cs)
    rw [sepGo_cons_nonword (by simpa using hc),
      sepGo_cons_nonword (by simpa using hc), ih]

theorem head_nonword_wsGo {z : List Char}
    (hn : ∀ e, z.head? = some e → isW e = false) :
    ∀ e, (wsGo false z).head? = some e → isW e = false := by
  intro e he
  cases z with
  | nil => cases he
  | cons d ds =>
    by_cases hd : isS d = true
    · rw [wsGo_cons_ws hd, if_neg (by simp)] at he
      simp at he
      subst he
      decide
    · rw [wsGo_cons_nonws (by simpa using hd)] at he
      simp at he
      subst he
      exact hn d rfl

/-- A fixed point of the separator substitution stays fixed after
whitespace collapsing. -/
theorem sepGo_wsGo_fix {sep : Char} (hs : isS sep = false) (hw : isW sep = false)
    (x : List Char) :
    sepGo sep x = x → ∀ pS, sepGo sep (wsGo pS x) = wsGo pS x := by
  refine sepGo.induct sep
    (fun z => sepGo sep z = z → ∀ pS, sepGo sep (wsGo pS z) = wsGo pS z)
    ?_ ?_ ?_ ?_ x
  · intro _ pS
    rw [wsGo]
    exact sepGo_nil sep
  · intro c cs hc h ih heq pS
    obtain ⟨hrest, hfix⟩ := sepGo_match_inversion hs hw hc h heq
    have hlk : 3 ≤ ((sepRes (cs.dropWhile isW)).takeWhile isW).length :=
      sepRes_lookahead h.2
    obtain ⟨d, ds, hd, hdw⟩ := head_isW_of_lookahead hlk
    have hsplit : c :: cs = (c :: cs.takeWhile isW) ++ cs.dropWhile isW := by
      simp [List.takeWhile_append_dropWhile]
    have hRall : (c :: cs.takeWhile isW).all (fun e => !isS e) = true := by
      simp only [List.all_cons, Bool.and_eq_true, Bool.not_eq_true']
      refine ⟨isS_eq_false_of_isW hc, ?_⟩
      rw [List.all_eq_true]
      intro e he
      simp only [Bool.not_eq_true']
      exact isS_eq_false_of_isW (by
        have := all_takeWhile_self isW cs
        rw [List.all_eq_true] at this
        exact this e he)
    have hdns : isS d = false := isS_eq_false_of_isW hdw
    have hres_ws : wsGo true (sepRes (cs.dropWhile isW))
        = wsGo false (sepRes (cs.dropWhile isW)) := by
      rw [hd, wsGo_cons_nonws hdns, wsGo_cons_nonws hdns]
    -- normalise the whitespace image of the already-spaced context
    have hws : ∀ pS, wsGo pS (c :: cs)
        = (c :: cs.takeWhile isW)
          ++ ' ' :: sep :: ' ' :: wsGo false (sepRes (cs.dropWhile isW)) := by
      intro pS
      conv_lhs => rw [hsplit, hrest]
      rw [wsGo_append_run hRall (by simp) _ pS,
        wsGo_cons_ws (show isS ' ' = true by decide), if_neg (by simp),
        wsGo_cons_nonws hs,
        wsGo_cons_ws (show isS ' ' = true by decide), if_neg (by simp),
        hres_ws]
    have hlkw : 3 ≤ ((wsGo false (sepRes (cs.dropWhile isW))).takeWhile isW).length := by
      rw [takeWhile_isW_wsGo]
      exact hlk
    have hdgw : (wsGo false (sepRes (cs.dropWhile isW))).dropWhile isS
        = wsGo false (sepRes (cs.dropWhile isW)) :=
      dropWhile_isS_of_lookahead hlkw
    have htw : (cs.takeWhile isW
        ++ ' ' :: sep :: ' ' :: wsGo false (sepRes (cs.dropWhile isW))).takeWhile isW
        = cs.takeWhile isW :=
      takeWhile_append_all (all_takeWhile_self isW cs) _
        (by intro e he; cases he; decide)
    have hdw2 : (cs.takeWhile isW
        ++ ' ' :: sep :: ' ' :: wsGo false (sepRes (cs.dropWhile isW))).dropWhile isW
        = ' ' :: sep :: ' ' :: wsGo false (sepRes (cs.dropWhile isW)) :=
      dropWhile_append_all (all_takeWhile_self isW cs) _
        (by intro e he; cases he; decide)
    rw [hws pS, List.cons_append, sepGo_cons_match hc (by
      refine ⟨?_, ?_⟩
      · rw [htw]
        simpa using h.1
      · rw [hdw2, sepOk_spaced hs, hdgw]
        simpa using hlkw)]
    rw [htw, hdw2, sepRes_spaced hs, hdgw, ih hfix false, List.cons_append]
  · intro c cs hc h ih heq pS
    -- fixed point at a non-matching run: the scanner fixes the tail
    have hsplit : c :: cs = (c :: cs.takeWhile isW) ++ cs.dropWhile isW := by
      simp [List.takeWhile_append_dropWhile]
    have hfix : sepGo sep (cs.dropWhile isW) = cs.dropWhile isW := by
      rw [sepGo_cons_nomatch hc h] at heq
      conv_rhs at heq => rw [hsplit]
      exact List.append_cancel_left heq
    have hRall : (c :: cs.takeWhile isW).all (fun e => !isS e) = true := by
      simp only [List.all_cons, Bool.and_eq_true, Bool.not_eq_true']
      refine ⟨isS_eq_false_of_isW hc, ?_⟩
      rw [List.all_eq_true]
      intro e he
      simp only [Bool.not_eq_true']
      exact isS_eq_false_of_isW (by
        have := all_takeWhile_self isW cs
        rw [List.all_eq_true] at this
        exact this e he)
    have hws : wsGo pS (c :: cs)
        = (c :: cs.takeWhile isW) ++ wsGo false (cs.dropWhile isW) := by
      conv_lhs => rw [hsplit]
      rw [wsGo_append_run hRall (by simp) _ pS]
    have hhd : ∀ e, (wsGo false (cs.dropWhile isW)).head? = some e → isW e = false :=
      head_nonword_wsGo (head_not_of_dropWhile cs)
    have htw : (cs.takeWhile isW ++ wsGo false (cs.dropWhile isW)).takeWhile isW
        = cs.takeWhile isW :=
      takeWhile_append_all (all_takeWhile_self isW cs) _ hhd
    have hdw2 : (cs.takeWhile isW ++ wsGo false (cs.dropWhile isW)).dropWhile isW
        = wsGo false (cs.dropWhile isW) :=
      dropWhile_append_all (all_takeWhile_self isW cs) _ hhd
    rw [hws, List.cons_append, sepGo_cons_nomatch hc (by
      rw [htw, hdw2, sepOk_wsGo]
      simpa using h)]
    rw [htw, hdw2, ih hfix false, List.cons_append]
  · intro c cs hc ih heq pS
    have hfix : sepGo sep cs = cs := by
      rw [sepGo_cons_nonword (by simpa using hc)] at heq
      exact List.tail_eq_of_cons_eq heq
    by_cases hcs : isS c = true
    · rw [wsGo_cons_ws hcs]
      cases pS
      · rw [if_neg (by simp), sepGo_cons_nonword (by decide), ih hfix true]
      · rw [if_pos rfl]
        exact ih hfix true
    · rw [wsGo_cons_nonws (by simpa using hcs),
        sepGo_cons_nonword (by simpa using hc), ih hfix false]

/-- A fixed point of one separator substitution stays fixed after the other
separator substitution. -/
theorem sepGo_other_fix {sep sep2 : Char} (hs : isS sep = false)
    (hw : isW sep = false) (hs2 : isS sep2 = false) (hw2 : isW sep2 = false)
    (hne : sep2 ≠ sep) (x : List Char) :
    sepGo sep x = x → sepGo sep (sepGo sep2 x) = sepGo sep2 x := by
  refine sepGo.induct sep2
    (fun z => sepGo sep z = z → sepGo sep (sepGo sep2 z) = sepGo sep2 z)
    ?_ ?_ ?_ ?_ x
  · intro _
    rw [sepGo_nil, sepGo_nil]
  · intro c cs hc h2 ih heq
    -- the run matches for sep2, so its first non-whitespace successor is
    -- sep2 and the sep scanner cannot have matched here
    have h2' := h2.2
    unfold sepOk at h2'
    cases hdr : (cs.dropWhile isW).dropWhile isS with
    | nil =>
      rw [hdr] at h2'
      cases h2'
    | cons e r2 =>
    rw [hdr] at h2'
    simp only [Bool.and_eq_true, decide_eq_true_eq] at h2'
    obtain ⟨he, hlk2⟩ := h2'
    subst he
    have hres_eq : sepRes (cs.dropWhile isW) = r2.dropWhile isS := by
      unfold sepRes
      rw [hdr]
      simp [List.drop_one]
    have hokno : sepOk sep (cs.dropWhile isW) = false := by
      unfold sepOk
      rw [hdr]
      simp [hne]
    have hfix : sepGo sep (cs.dropWhile isW) = cs.dropWhile isW := by
      rw [sepGo_cons_nomatch hc (by simp [hokno])] at heq
      conv_rhs at heq => rw [show c :: cs
        = (c :: cs.takeWhile isW) ++ cs.dropWhile isW by
          simp [List.takeWhile_append_dropWhile]]
      exact List.append_cancel_left heq
    have hsplitrest : cs.dropWhile isW
        = ((cs.dropWhile isW).takeWhile isS ++ e :: r2.takeWhile isS)
          ++ r2.dropWhile isS := by
      conv_lhs => rw [← List.takeWhile_append_dropWhile (p := isS)
        (l := cs.dropWhile isW), hdr]
      conv_lhs => rw [← List.takeWhile_append_dropWhile (p := isS) (l := r2)]
      simp [List.append_assoc]
    have hpre : ((cs.dropWhile isW).takeWhile isS
        ++ e :: r2.takeWhile isS).all (fun e => !isW e) = true := by
      rw [List.all_eq_true]
      intro e he
      simp only [Bool.not_eq_true']
      rw [List.mem_append] at he
      rcases he with he | he
      · exact isW_eq_false_of_isS (by
          have := all_takeWhile_self isS (cs.dropWhile isW)
          rw [List.all_eq_true] at this
          exact this e he)
      · rcases List.mem_cons.mp he with he | he
        · rw [he]; exact hw2
        · exact isW_eq_false_of_isS (by
            have := all_takeWhile_self isS r2
            rw [List.all_eq_true] at this
            exact this e he)
    have hfixres : sepGo sep (sepRes (cs.dropWhile isW))
        = sepRes (cs.dropWhile isW) := by
      rw [hres_eq]
      have h3 := hfix
      conv_lhs at h3 => rw [hsplitrest]
      conv_rhs at h3 => rw [hsplitrest]
      rw [sepGo_copy hpre] at h3
      exact List.append_cancel_left h3
    -- evaluate the sep scanner on the rewritten context
    have hX : ∀ e, (' ' :: e :: ' '
        :: sepGo e (sepRes (cs.dropWhile isW))).head? = some e → isW e = false := by
      intro e he
      cases he
      decide
    have htw : (cs.takeWhile isW
        ++ ' ' :: e :: ' ' :: sepGo e (sepRes (cs.dropWhile isW))).takeWhile isW
        = cs.takeWhile isW :=
      takeWhile_append_all (all_takeWhile_self isW cs) _ hX
    have hdw2 : (cs.takeWhile isW
        ++ ' ' :: e :: ' ' :: sepGo e (sepRes (cs.dropWhile isW))).dropWhile isW
        = ' ' :: e :: ' ' :: sepGo e (sepRes (cs.dropWhile isW)) :=
      dropWhile_append_all (all_takeWhile_self isW cs) _ hX
    rw [sepGo_cons_match hc h2, List.cons_append, sepGo_cons_nomatch hc (by
      intro hcon
      rw [hdw2] at hcon
      have hcon2 := hcon.2
      unfold sepOk at hcon2
      rw [List.dropWhile_cons_of_pos (by decide),
        List.dropWhile_cons_of_neg (by simp [hs2])] at hcon2
      simp [hne] at hcon2)]
    rw [htw, hdw2, sepGo_cons_nonword (by decide),
      sepGo_cons_nonword hw2, sepGo_cons_nonword (by decide), ih hfixres,
      List.cons_append]
  · intro c cs hc h2 ih heq
    have hhd : ∀ e, (sepGo sep2 (cs.dropWhile isW)).head? = some e → isW e = false := by
      intro e he
      rw [sepGo_head] at he
      exact head_not_of_dropWhile cs e he
    have htw : (cs.takeWhile isW ++ sepGo sep2 (cs.dropWhile isW)).takeWhile isW
        = cs.takeWhile isW :=
      takeWhile_append_all (all_takeWhile_self isW cs) _ hhd
    have hdw2 : (cs.takeWhile isW ++ sepGo sep2 (cs.dropWhile isW)).dropWhile isW
        = sepGo sep2 (cs.dropWhile isW) :=
      dropWhile_append_all (all_takeWhile_self isW cs) _ hhd
    by_cases hok : 3 ≤ (c :: cs.takeWhile isW).length
        ∧ sepOk sep (cs.dropWhile isW) = true
    · -- the sep scanner matched at this run: the context is already spaced
      obtain ⟨hrest, hfixres⟩ := sepGo_match_inversion hs hw hc hok heq
      have hfix : sepGo sep (cs.dropWhile isW) = cs.dropWhile isW := by
        conv_lhs => rw [hrest]
        rw [sepGo_cons_nonword (by decide), sepGo_cons_nonword hw,
          sepGo_cons_nonword (by decide), hfixres, ← hrest]
      have hres2 := ih hfix
      have hg2rest : sepGo sep2 (cs.dropWhile isW)
          = ' ' :: sep :: ' ' :: sepGo sep2 (sepRes (cs.dropWhile isW)) := by
        conv_lhs => rw [hrest]
        rw [sepGo_cons_nonword (by decide), sepGo_cons_nonword hw,
          sepGo_cons_nonword (by decide)]
      have hlk : 3 ≤ ((sepRes (cs.dropWhile isW)).takeWhile isW).length :=
        sepRes_lookahead hok.2
      have hlkg : 3 ≤ ((sepGo sep2 (sepRes (cs.dropWhile isW))).takeWhile isW).length := by
        rw [takeWhile_isW_sepGo hw2]
        exact hlk
      have hdg : (sepGo sep2 (sepRes (cs.dropWhile isW))).dropWhile isS
          = sepGo sep2 (sepRes (cs.dropWhile isW)) :=
        dropWhile_isS_of_lookahead hlkg
      have hfres2 : sepGo sep (sepGo sep2 (sepRes (cs.dropWhile isW)))
          = sepGo sep2 (sepRes (cs.dropWhile isW)) := by
        rw [hg2rest] at hres2
        rw [sepGo_cons_nonword (by decide), sepGo_cons_nonword hw,
          sepGo_cons_nonword (by decide)] at hres2
        exact List.tail_eq_of_cons_eq (List.tail_eq_of_cons_eq
          (List.tail_eq_of_cons_eq hres2))
      rw [sepGo_cons_nomatch hc h2, hg2rest, List.cons_append,
        sepGo_cons_match hc (by
          rw [takeWhile_append_all (all_takeWhile_self isW cs) _ (by
              intro e he; cases he; decide),
            dropWhile_append_all (all_takeWhile_self isW cs) _ (by
              intro e he; cases he; decide)]
          refine ⟨by simpa using hok.1, ?_⟩
          rw [sepOk_spaced hs, hdg]
          simpa using hlkg)]
      rw [takeWhile_append_all (all_takeWhile_self isW cs) _ (by
          intro e he; cases he; decide),
        dropWhile_append_all (all_takeWhile_self isW cs) _ (by
          intro e he; cases he; decide),
        sepRes_spaced hs, hdg, hfres2, List.cons_append]
    · -- the sep scanner did not match here either
      have hfix : sepGo sep (cs.dropWhile isW) = cs.dropWhile isW := by
        rw [sepGo_cons_nomatch hc hok] at heq
        conv_rhs at heq => rw [show c :: cs
          = (c :: cs.takeWhile isW) ++ cs.dropWhile isW by
            simp [List.takeWhile_append_dropWhile]]
        exact List.append_cancel_left heq
      rw [sepGo_cons_nomatch hc h2, List.cons_append, sepGo_cons_nomatch hc (by
        rw [htw, hdw2, sepOk_sepGo hs2 hw2 hw]
        simpa using hok)]
      rw [htw, hdw2, ih hfix, List.cons_append]
  · intro c cs hc ih heq
    have hfix : sepGo sep cs = cs := by
      rw [sepGo_cons_nonword (by simpa using hc)] at heq
      exact List.tail_eq_of_cons_eq heq
    rw [sepGo_cons_nonword (by simpa using hc),
      sepGo_cons_nonword (by simpa using hc), ih hfix]

/-! ### Punctuation-spacing lemmas -/

theorem spacePunct_nil : spacePunct [] = [] := rfl

theorem spacePunct_cons (c : Char) (cs : List Char) :
    spacePunct (c :: cs)
      = (if inQ1 c then [' ', c, ' '] else [c]) ++ spacePunct cs := by
  simp [spacePunct]

theorem spacePunct_append (a b : List Char) :
    spacePunct (a ++ b) = spacePunct a ++ spacePunct b := by
  simp [spacePunct]

theorem spacePunct_all_nonQ1 {a : List Char}
    (h : a.all (fun c => !inQ1 c) = true) : spacePunct a = a := by
  induction a with
  | nil => rfl
  | cons c cs ih =>
    simp only [List.all_cons, Bool.and_eq_true, Bool.not_eq_true'] at h
    rw [spacePunct_cons, h.1, if_neg (by simp), ih h.2, List.singleton_append]

theorem all_of_sublist {p : Char → Bool} {a b : List Char}
    (hsub : List.Sublist a b) (h : b.all p = true) : a.all p = true := by
  rw [List.all_eq_true] at h ⊢
  exact fun e he => h e (hsub.subset he)

theorem sepRes_sublist (r : List Char) : List.Sublist (sepRes r) r := by
  unfold sepRes
  exact ((((r.dropWhile isS).drop 1).dropWhile_sublist isS).trans
    ((r.dropWhile isS).drop_sublist 1)).trans (r.dropWhile_sublist isS)

theorem dropWhile_append_of_all {p : Char → Bool} {a : List Char}
    (h : a.all p = true) (b : List Char) :
    (a ++ b).dropWhile p = b.dropWhile p := by
  induction a with
  | nil => rfl
  | cons c cs ih =>
    simp only [List.all_cons, Bool.and_eq_true] at h
    rw [List.cons_append, List.dropWhile_cons_of_pos h.1, ih h.2]

theorem takeWhile_isW_spacePunct {w : List Char} (hok : w.all okCh = true) :
    (spacePunct w).takeWhile isW = w.takeWhile isW := by
  induction w with
  | nil => rfl
  | cons c cs ih =>
    simp only [List.all_cons, Bool.and_eq_true] at hok
    rw [spacePunct_cons]
    by_cases hq : inQ1 c = true
    · have hw : isW c = false := by
        have := hok.1
        simp [okCh, hq] at this
        exact this
      rw [if_pos hq, List.cons_append,
        List.takeWhile_cons_of_neg (by decide),
        List.takeWhile_cons_of_neg (by simp [hw])]
    · rw [if_neg hq, List.singleton_append]
      by_cases hw : isW c = true
      · rw [List.takeWhile_cons_of_pos (by simpa using hw),
          List.takeWhile_cons_of_pos (by simpa using hw), ih hok.2]
      · rw [List.takeWhile_cons_of_neg (by simpa using hw),
          List.takeWhile_cons_of_neg (by simpa using hw)]

theorem dropWhile_isS_spacePunct_nil {z : List Char}
    (hd : z.dropWhile isS = []) : (spacePunct z).dropWhile isS = [] := by
  have hall : z.all isS = true := by
    rw [List.all_eq_true]
    rw [List.dropWhile_eq_nil_iff] at hd
    intro e he
    exact hd e he
  rw [spacePunct_all_nonQ1 (by
    rw [List.all_eq_true] at hall ⊢
    intro e he
    simp [inQ1_eq_false_of_isS (hall e he)]), hd]

theorem dropWhile_isS_spacePunct_cons {z : List Char} {e : Char} {r2 : List Char}
    (hd : z.dropWhile isS = e :: r2) :
    (spacePunct z).dropWhile isS
      = if inQ1 e then e :: ' ' :: spacePunct r2 else e :: spacePunct r2 := by
  have hz : z = z.takeWhile isS ++ e :: r2 := by
    conv_lhs => rw [← List.takeWhile_append_dropWhile (p := isS) (l := z), hd]
  have htw1 : (spacePunct (z.takeWhile isS)) = z.takeWhile isS :=
    spacePunct_all_nonQ1 (by
      have := all_takeWhile_self isS z
      rw [List.all_eq_true] at this ⊢
      intro a ha
      simp [inQ1_eq_false_of_isS (this a ha)])
  have he : isS e = false := by
    have := head_not_of_dropWhile (p := isS) z e
    rw [hd] at this
    exact this rfl
  conv_lhs => rw [hz, spacePunct_append, htw1, spacePunct_cons]
  rw [dropWhile_append_of_all (all_takeWhile_self isS z)]
  by_cases hq : inQ1 e = true
  · rw [if_pos hq, if_pos hq, List.cons_append, List.cons_append,
      List.dropWhile_cons_of_pos (by decide),
      List.dropWhile_cons_of_neg (by simp [he])]
    simp
  · rw [if_neg hq, if_neg hq, List.singleton_append,
      List.dropWhile_cons_of_neg (by simp [he])]

theorem lookahead_spacePunct {z : List Char} (hok : z.all okCh = true) :
    ((spacePunct z).dropWhile isS).takeWhile isW
      = (z.dropWhile isS).takeWhile isW := by
  cases hd : z.dropWhile isS with
  | nil => rw [dropWhile_isS_spacePunct_nil hd]
  | cons e r2 =>
    have hok2 : r2.all okCh = true :=
      all_of_sublist (by
        have h1 : List.Sublist (e :: r2) z := hd ▸ z.dropWhile_sublist isS
        exact (List.sublist_cons_self e r2).trans h1) hok
    have hoke : okCh e = true := by
      have h1 : List.Sublist (e :: r2) z := hd ▸ z.dropWhile_sublist isS
      have := all_of_sublist h1 hok
      simp only [List.all_cons, Bool.and_eq_true] at this
      exact this.1
    rw [dropWhile_isS_spacePunct_cons hd]
    by_cases hq : inQ1 e = true
    · have hw : isW e = false := by
        simp [okCh, hq] at hoke
        exact hoke
      rw [if_pos hq, List.takeWhile_cons_of_neg (by simp [hw]),
        List.takeWhile_cons_of_neg (by simp [hw])]
    · rw [if_neg hq]
      by_cases hw : isW e = true
      · rw [List.takeWhile_cons_of_pos (by simpa using hw),
          List.takeWhile_cons_of_pos (by simpa using hw),
          takeWhile_isW_spacePunct hok2]
      · rw [List.takeWhile_cons_of_neg (by simpa using hw),
          List.takeWhile_cons_of_neg (by simpa using hw)]

theorem sepOk_spacePunct {s : Char} (hqs : inQ1 s = false)
    {z : List Char} (hok : z.all okCh = true) :
    sepOk s (spacePunct z) = sepOk s z := by
  unfold sepOk
  cases hd : z.dropWhile isS with
  | nil => rw [dropWhile_isS_spacePunct_nil hd]
  | cons e r2 =>
    have hok2 : r2.all okCh = true :=
      all_of_sublist (by
        have h1 : List.Sublist (e :: r2) z := hd ▸ z.dropWhile_sublist isS
        exact (List.sublist_cons_self e r2).trans h1) hok
    rw [dropWhile_isS_spacePunct_cons hd]
    by_cases hq : inQ1 e = true
    · have hne : (e = s) = False := by
        simp only [eq_iff_iff, iff_false]
        intro hes
        rw [hes] at hq
        exact absurd hq (by simp [hqs])
      rw [if_pos hq]
      simp [hne]
    · rw [if_neg hq]
      simp only
      rw [lookahead_spacePunct hok2]

theorem head_nonword_spacePunct {z : List Char}
    (hn : ∀ e, z.head? = some e → isW e = false) :
    ∀ e, (spacePunct z).head? = some e → isW e = false := by
  intro e he
  cases z with
  | nil => cases he
  | cons d ds =>
    rw [spacePunct_cons] at he
    by_cases hq : inQ1 d = true
    · rw [if_pos hq] at he
      simp at he
      subst he
      decide
    · rw [if_neg hq, List.singleton_append] at he
      simp at he
      subst he
      exact hn d rfl

/-- A fixed point of the separator substitution stays fixed after the
punctuation-spacing substitution, provided no character is both a word
character and in the spaced punctuation class. -/
theorem sepGo_spacePunct_fix {sep : Char} (hs : isS sep = false)
    (hw : isW sep = false) (hq : inQ1 sep = false) (x : List Char) :
    x.all okCh = true → sepGo sep x = x
      → sepGo sep (spacePunct x) = spacePunct x := by
  refine sepGo.induct sep
    (fun z => z.all okCh = true → sepGo sep z = z
      → sepGo sep (spacePunct z) = spacePunct z) ?_ ?_ ?_ ?_ x
  · intro _ _
    rw [spacePunct_nil, sepGo_nil]
  · intro c cs hc h ih hok heq
    obtain ⟨hrest, hfixres⟩ := sepGo_match_inversion hs hw hc h heq
    have hokcs : cs.all okCh = true := by
      simp only [List.all_cons, Bool.and_eq_true] at hok
      exact hok.2
    have hokc : okCh c = true := by
      simp only [List.all_cons, Bool.and_eq_true] at hok
      exact hok.1
    have hokrest : (cs.dropWhile isW).all okCh = true :=
      all_of_sublist (cs.dropWhile_sublist isW) hokcs
    have hokres : (sepRes (cs.dropWhile isW)).all okCh = true :=
      all_of_sublist (sepRes_sublist _) hokrest
    have hRnq : (c :: cs.takeWhile isW).all (fun e => !inQ1 e) = true := by
      simp only [List.all_cons, Bool.and_eq_true, Bool.not_eq_true']
      constructor
      · cases hq1 : inQ1 c
        · rfl
        · exfalso
          have := hokc
          simp [okCh, hq1, hc] at this
      · rw [List.all_eq_true]
        intro e he
        have hew : isW e = true := by
          have := all_takeWhile_self isW cs
          rw [List.all_eq_true] at this
          exact this e he
        have hokE : okCh e = true := by
          rw [List.all_eq_true] at hokcs
          exact hokcs e ((cs.takeWhile_sublist isW).subset he)
        simp only [Bool.not_eq_true']
        cases hq1 : inQ1 e
        · rfl
        · exfalso
          simp [okCh, hq1, hew] at hokE
    have hPsplit : spacePunct (c :: cs)
        = (c :: cs.takeWhile isW)
          ++ ' ' :: sep :: ' ' :: spacePunct (sepRes (cs.dropWhile isW)) := by
      conv_lhs => rw [show c :: cs
        = (c :: cs.takeWhile isW) ++ cs.dropWhile isW by
          simp [List.takeWhile_append_dropWhile], hrest]
      rw [spacePunct_append, spacePunct_all_nonQ1 hRnq,
        spacePunct_cons, if_neg (by decide),
        spacePunct_cons, if_neg (by simp [hq]),
        spacePunct_cons, if_neg (by decide)]
      simp
    have hlk : 3 ≤ ((sepRes (cs.dropWhile isW)).takeWhile isW).length :=
      sepRes_lookahead h.2
    obtain ⟨d, ds, hd, hdw⟩ := head_isW_of_lookahead hlk
    have hdnq : inQ1 d = false := by
      have hokd : okCh d = true := by
        rw [List.all_eq_true] at hokres
        exact hokres d (by rw [hd]; exact List.mem_cons_self d ds)
      cases hq1 : inQ1 d
      · rfl
      · exfalso
        simp [okCh, hq1, hdw] at hokd
    have hPhead : spacePunct (sepRes (cs.dropWhile isW))
        = d :: spacePunct ds := by
      rw [hd, spacePunct_cons, if_neg (by simp [hdnq]), List.singleton_append]
    have hdropP : (spacePunct (sepRes (cs.dropWhile isW))).dropWhile isS
        = spacePunct (sepRes (cs.dropWhile isW)) := by
      rw [hPhead]
      exact List.dropWhile_cons_of_neg (by simp [isS_eq_false_of_isW hdw])
    have hlkP : 3 ≤ ((spacePunct (sepRes (cs.dropWhile isW))).takeWhile isW).length := by
      rw [takeWhile_isW_spacePunct hokres]
      exact hlk
    have hX : ∀ e, (' ' :: sep :: ' '
        :: spacePunct (sepRes (cs.dropWhile isW))).head? = some e
          → isW e = false := by
      intro e he
      cases he
      decide
    have htw : (cs.takeWhile isW ++ ' ' :: sep :: ' '
        :: spacePunct (sepRes (cs.dropWhile isW))).takeWhile isW
        = cs.takeWhile isW :=
      takeWhile_append_all (all_takeWhile_self isW cs) _ hX
    have hdw2 : (cs.takeWhile isW ++ ' ' :: sep :: ' '
        :: spacePunct (sepRes (cs.dropWhile isW))).dropWhile isW
        = ' ' :: sep :: ' ' :: spacePunct (sepRes (cs.dropWhile isW)) :=
      dropWhile_append_all (all_takeWhile_self isW cs) _ hX
    rw [hPsplit, List.cons_append, sepGo_cons_match hc (by
      refine ⟨?_, ?_⟩
      · rw [htw]
        simpa using h.1
      · rw [hdw2, sepOk_spaced hs, hdropP]
        simpa using hlkP)]
    rw [htw, hdw2, sepRes_spaced hs, hdropP, ih hokres hfixres,
      List.cons_append]
  · intro c cs hc h ih hok heq
    have hokcs : cs.all okCh = true := by
      simp only [List.all_cons, Bool.and_eq_true] at hok
      exact hok.2
    have hokc : okCh c = true := by
      simp only [List.all_cons, Bool.and_eq_true] at hok
      exact hok.1
    have hokrest : (cs.dropWhile isW).all okCh = true :=
      all_of_sublist (cs.dropWhile_sublist isW) hokcs
    have hfix : sepGo sep (cs.dropWhile isW) = cs.dropWhile isW := by
      rw [sepGo_cons_nomatch hc h] at heq
      conv_rhs at heq => rw [show c :: cs
        = (c :: cs.takeWhile isW) ++ cs.dropWhile isW by
          simp [List.takeWhile_append_dropWhile]]
      exact List.append_cancel_left heq
    have hRnq : (c :: cs.takeWhile isW).all (fun e => !inQ1 e) = true := by
      simp only [List.all_cons, Bool.and_eq_true, Bool.not_eq_true']
      constructor
      · cases hq1 : inQ1 c
        · rfl
        · exfalso
          simp [okCh, hq1, hc] at hokc
      · rw [List.all_eq_true]
        intro e he
        have hew : isW e = true := by
          have := all_takeWhile_self isW cs
          rw [List.all_eq_true] at this
          exact this e he
        have hokE : okCh e = true := by
          rw [List.all_eq_true] at hokcs
          exact hokcs e ((cs.takeWhile_sublist isW).subset he)
        simp only [Bool.not_eq_true']
        cases hq1 : inQ1 e
        · rfl
        · exfalso
          simp [okCh, hq1, hew] at hokE
    have hPsplit : spacePunct (c :: cs)
        = (c :: cs.takeWhile isW) ++ spacePunct (cs.dropWhile isW) := by
      conv_lhs => rw [show c :: cs
        = (c :: cs.takeWhile isW) ++ cs.dropWhile isW by
          simp [List.takeWhile_append_dropWhile]]
      rw [spacePunct_append, spacePunct_all_nonQ1 hRnq]
    have hhd : ∀ e, (spacePunct (cs.dropWhile isW)).head? = some e
        → isW e = false :=
      head_nonword_spacePunct (head_not_of_dropWhile cs)
    have htw : (cs.takeWhile isW ++ spacePunct (cs.dropWhile isW)).takeWhile isW
        = cs.takeWhile isW :=
      takeWhile_append_all (all_takeWhile_self isW cs) _ hhd
    have hdw2 : (cs.takeWhile isW ++ spacePunct (cs.dropWhile isW)).dropWhile isW
        = spacePunct (cs.dropWhile isW) :=
      dropWhile_append_all (all_takeWhile_self isW cs) _ hhd
    rw [hPsplit, List.cons_append, sepGo_cons_nomatch hc (by
      rw [htw, hdw2, sepOk_spacePunct hq hokrest]
      simpa using h)]
    rw [htw, hdw2, ih hokrest hfix, List.cons_append]
  · intro c cs hc ih hok heq
    have hokcs : cs.all okCh = true := by
      simp only [List.all_cons, Bool.and_eq_true] at hok
      exact hok.2
    have hfix : sepGo sep cs = cs := by
      rw [sepGo_cons_nonword (by simpa using hc)] at heq
      exact List.tail_eq_of_cons_eq heq
    rw [spacePunct_cons]
    by_cases hq1 : inQ1 c = true
    · rw [if_pos hq1, List.cons_append, List.cons_append, List.cons_append,
        List.nil_append,
        sepGo_cons_nonword (by decide),
        sepGo_cons_nonword (by simpa using hc),
        sepGo_cons_nonword (by decide), ih hokcs hfix]
    · rw [if_neg hq1, List.singleton_append,
        sepGo_cons_nonword (by simpa using hc), ih hokcs hfix]

/-! ### Spaced punctuation flanking -/

/-- Every character of the first punctuation class is directly preceded and
followed by whitespace; `prevS` records whether the previous character was
whitespace. -/
def flankGo (prevS : Bool) (s : List Char) : Bool :=
  match s with
  | [] => true
  | c :: cs =>
    if inQ1 c then
      (match cs with
       | d :: _ => prevS && isS d
       | [] => false) && flankGo false cs
    else flankGo (isS c) cs

theorem flankGo_cons_q1_nil {c : Char} (hq : inQ1 c = true) (p : Bool) :
    flankGo p [c] = false := by
  unfold flankGo
  simp [hq]

theorem flankGo_cons_q1_cons {c d : Char} {cs2 : List Char}
    (hq : inQ1 c = true) (p : Bool) :
    flankGo p (c :: d :: cs2) = (p && isS d && flankGo false (d :: cs2)) := by
  conv_lhs => rw [flankGo.eq_def]
  simp [hq, Bool.and_assoc]

theorem flankGo_cons_nonq1 {c : Char} (hq : inQ1 c = false) (p : Bool)
    (cs : List Char) : flankGo p (c :: cs) = flankGo (isS c) cs := by
  conv_lhs => rw [flankGo.eq_def]
  simp [hq]

theorem flankGo_indep (q q2 : Bool) {d : Char} (hd : inQ1 d = false)
    (cs : List Char) : flankGo q (d :: cs) = flankGo q2 (d :: cs) := by
  rw [flankGo_cons_nonq1 hd, flankGo_cons_nonq1 hd]

/-- On a string whose punctuation is already whitespace-flanked, collapsing
whitespace after spacing punctuation is the same as collapsing whitespace
directly. -/
theorem wsGo_spacePunct (x : List Char) :
    ∀ p, flankGo p x = true → wsGo p (spacePunct x) = wsGo p x := by
  induction x with
  | nil => intro p _; rfl
  | cons c cs ih =>
    intro p hf
    by_cases hq : inQ1 c = true
    · have hcs : ∃ d cs2, cs = d :: cs2 ∧ p = true ∧ isS d = true
          ∧ flankGo false (d :: cs2) = true := by
        cases hcs : cs with
        | nil =>
          rw [hcs, flankGo_cons_q1_nil hq] at hf
          cases hf
        | cons d cs2 =>
          rw [hcs, flankGo_cons_q1_cons hq] at hf
          simp only [Bool.and_eq_true] at hf
          exact ⟨d, cs2, rfl, hf.1.1, hf.1.2, hf.2⟩
      obtain ⟨d, cs2, hcse, hp, hd, hf2⟩ := hcs
      subst hp
      subst hcse
      have hcns : isS c = false := by
        cases hscc : isS c
        · rfl
        · exact absurd hq (by simp [inQ1_eq_false_of_isS hscc])
      have hftrue : flankGo true (d :: cs2) = true := by
        rw [flankGo_indep true false (inQ1_eq_false_of_isS hd)]
        exact hf2
      rw [spacePunct_cons, if_pos hq]
      simp only [List.cons_append, List.nil_append]
      rw [wsGo_cons_ws (show isS ' ' = true by decide) true, if_pos rfl,
        wsGo_cons_nonws hcns,
        wsGo_cons_ws (show isS ' ' = true by decide) false, if_neg (by simp),
        ih true hftrue,
        wsGo_cons_nonws hcns, wsGo_cons_ws hd true, if_pos rfl,
        wsGo_cons_ws hd false, if_neg (by simp)]
    · rw [flankGo_cons_nonq1 (by simpa using hq)] at hf
      rw [spacePunct_cons, if_neg hq, List.singleton_append]
      by_cases hs : isS c = true
      · rw [hs] at hf
        rw [wsGo_cons_ws hs p, wsGo_cons_ws hs p]
        cases p
        · rw [if_neg (by simp), if_neg (by simp), ih true hf]
        · rw [if_pos rfl, if_pos rfl]
          exact ih true hf
      · rw [(by simpa using hs : isS c = false)] at hf
        rw [wsGo_cons_nonws (by simpa using hs),
          wsGo_cons_nonws (by simpa using hs), ih false hf]

theorem flank_mono_true {q : Bool} {x : List Char} (h : flankGo q x = true) :
    flankGo true x = true := by
  cases x with
  | nil => rfl
  | cons c cs =>
    by_cases hq : inQ1 c = true
    · cases q
      · cases cs with
        | nil => rw [flankGo_cons_q1_nil hq] at h; cases h
        | cons d cs2 =>
          rw [flankGo_cons_q1_cons hq] at h
          simp at h
      · exact h
    · rw [flankGo_cons_nonq1 (by simpa using hq)] at h ⊢
      exact h

theorem flank_append_run {r : List Char}
    (hr : r.all (fun e => !isS e && !inQ1 e) = true) (hne : r ≠ [])
    (z : List Char) : ∀ p, flankGo p (r ++ z) = flankGo false z := by
  induction r with
  | nil => exact absurd rfl hne
  | cons c r2 ih =>
    intro p
    simp only [List.all_cons, Bool.and_eq_true, Bool.not_eq_true'] at hr
    rw [List.cons_append, flankGo_cons_nonq1 hr.1.2, hr.1.1]
    cases hr2 : r2 with
    | nil => simp
    | cons e r3 =>
      rw [← hr2]
      exact ih (by
        rw [List.all_eq_true]
        intro a ha
        have := hr.2
        rw [List.all_eq_true] at this
        exact this a ha) (by rw [hr2]; exact List.cons_ne_nil e r3) false

theorem flank_append_elim {pre : List Char}
    (hpre : pre.all (fun e => !inQ1 e) = true) {z : List Char} :
    ∀ p, flankGo p (pre ++ z) = true → ∃ q, flankGo q z = true := by
  induction pre with
  | nil => exact fun p h => ⟨p, h⟩
  | cons c p2 ih =>
    intro p h
    simp only [List.all_cons, Bool.and_eq_true, Bool.not_eq_true'] at hpre
    rw [List.cons_append, flankGo_cons_nonq1 hpre.1] at h
    exact ih hpre.2 _ h

theorem flank_spacePunct (u : List Char) : ∀ p, flankGo p (spacePunct u) = true := by
  induction u with
  | nil => intro p; rfl
  | cons c cs ih =>
    intro p
    rw [spacePunct_cons]
    by_cases hq : inQ1 c = true
    · have hcns : isS c = false := by
        cases hscc : isS c
        · rfl
        · exact absurd hq (by simp [inQ1_eq_false_of_isS hscc])
      rw [if_pos hq]
      simp only [List.cons_append, List.nil_append]
      rw [flankGo_cons_nonq1 (by decide), (by decide : isS ' ' = true),
        flankGo_cons_q1_cons hq, flankGo_cons_nonq1 (by decide),
        (by decide : isS ' ' = true)]
      simp [ih true]
    · rw [if_neg hq, List.singleton_append, flankGo_cons_nonq1 (by simpa using hq)]
      exact ih _

theorem flank_sepGo {sep : Char} (hs : isS sep = false) (hw : isW sep = false)
    (hq : inQ1 sep = false) (x : List Char) :
    ∀ p, x.all okCh = true → flankGo p x = true
      → flankGo p (sepGo sep x) = true := by
  refine sepGo.induct sep
    (fun z => ∀ p, z.all okCh = true → flankGo p z = true
      → flankGo p (sepGo sep z) = true) ?_ ?_ ?_ ?_ x
  · intro p _ _
    rw [sepGo_nil]
    rfl
  · intro c cs hc h ih p hok hf
    have hokcs : cs.all okCh = true := by
      simp only [List.all_cons, Bool.and_eq_true] at hok
      exact hok.2
    have hokc : okCh c = true := by
      simp only [List.all_cons, Bool.and_eq_true] at hok
      exact hok.1
    have hokrest : (cs.dropWhile isW).all okCh = true :=
      all_of_sublist (cs.dropWhile_sublist isW) hokcs
    have hokres : (sepRes (cs.dropWhile isW)).all okCh = true :=
      all_of_sublist (sepRes_sublist _) hokrest
    have hRrun : (c :: cs.takeWhile isW).all (fun e => !isS e && !inQ1 e) = true := by
      simp only [List.all_cons, Bool.and_eq_true, Bool.not_eq_true']
      refine ⟨⟨isS_eq_false_of_isW hc, ?_⟩, ?_⟩
      · cases hq1 : inQ1 c
        · rfl
        · exfalso
          simp [okCh, hq1, hc] at hokc
      · rw [List.all_eq_true]
        intro e he
        have hew : isW e = true := by
          have := all_takeWhile_self isW cs
          rw [List.all_eq_true] at this
          exact this e he
        have hokE : okCh e = true := by
          rw [List.all_eq_true] at hokcs
          exact hokcs e ((cs.takeWhile_sublist isW).subset he)
        simp only [Bool.and_eq_true, Bool.not_eq_true']
        refine ⟨isS_eq_false_of_isW hew, ?_⟩
        cases hq1 : inQ1 e
        · rfl
        · exfalso
          simp [okCh, hq1, hew] at hokE
    -- flanking at the resume point, extracted through the consumed prefix
    have hf2 : flankGo false (cs.dropWhile isW) = true := by
      have := hf
      conv at this => rw [show c :: cs
        = (c :: cs.takeWhile isW) ++ cs.dropWhile isW by
          simp [List.takeWhile_append_dropWhile],
        flank_append_run hRrun (by simp) _ p]
      exact this
    -- decompose the consumed separator region
    have h2' := h.2
    unfold sepOk at h2'
    cases hdr : (cs.dropWhile isW).dropWhile isS with
    | nil =>
      rw [hdr] at h2'
      cases h2'
    | cons e r2 =>
    rw [hdr] at h2'
    simp only [Bool.and_eq_true, decide_eq_true_eq] at h2'
    obtain ⟨he, hlk2⟩ := h2'
    subst he
    have hres_eq : sepRes (cs.dropWhile isW) = r2.dropWhile isS := by
      unfold sepRes
      rw [hdr]
      simp [List.drop_one]
    have hsplitrest : cs.dropWhile isW
        = ((cs.dropWhile isW).takeWhile isS ++ e :: r2.takeWhile isS)
          ++ r2.dropWhile isS := by
      conv_lhs => rw [← List.takeWhile_append_dropWhile (p := isS)
        (l := cs.dropWhile isW), hdr]
      conv_lhs => rw [← List.takeWhile_append_dropWhile (p := isS) (l := r2)]
      simp [List.append_assoc]
    have hprenq : ((cs.dropWhile isW).takeWhile isS
        ++ e :: r2.takeWhile isS).all (fun e => !inQ1 e) = true := by
      rw [List.all_eq_true]
      intro e he
      simp only [Bool.not_eq_true']
      rw [List.mem_append] at he
      rcases he with he | he
      · exact inQ1_eq_false_of_isS (by
          have := all_takeWhile_self isS (cs.dropWhile isW)
          rw [List.all_eq_true] at this
          exact this e he)
      · rcases List.mem_cons.mp he with he | he
        · rw [he]; exact hq
        · exact inQ1_eq_false_of_isS (by
            have := all_takeWhile_self isS r2
            rw [List.all_eq_true] at this
            exact this e he)
    have hfres : flankGo true (sepRes (cs.dropWhile isW)) = true := by
      rw [hsplitrest] at hf2
      obtain ⟨q, hq2⟩ := flank_append_elim hprenq false hf2
      rw [hres_eq]
      exact flank_mono_true hq2
    have hout := ih true hokres hfres
    rw [sepGo_cons_match hc h,
      flank_append_run hRrun (by simp) _ p,
      flankGo_cons_nonq1 (by decide), (by decide : isS ' ' = true),
      flankGo_cons_nonq1 hq, hs,
      flankGo_cons_nonq1 (by decide), (by decide : isS ' ' = true)]
    exact hout
  · intro c cs hc h ih p hok hf
    have hokcs : cs.all okCh = true := by
      simp only [List.all_cons, Bool.and_eq_true] at hok
      exact hok.2
    have hokc : okCh c = true := by
      simp only [List.all_cons, Bool.and_eq_true] at hok
      exact hok.1
    have hokrest : (cs.dropWhile isW).all okCh = true :=
      all_of_sublist (cs.dropWhile_sublist isW) hokcs
    have hRrun : (c :: cs.takeWhile isW).all (fun e => !isS e && !inQ1 e) = true := by
      simp only [List.all_cons, Bool.and_eq_true, Bool.not_eq_true']
      refine ⟨⟨isS_eq_false_of_isW hc, ?_⟩, ?_⟩
      · cases hq1 : inQ1 c
        · rfl
        · exfalso
          simp [okCh, hq1, hc] at hokc
      · rw [List.all_eq_true]
        intro e he
        have hew : isW e = true := by
          have := all_takeWhile_self isW cs
          rw [List.all_eq_true] at this
          exact this e he
        have hokE : okCh e = true := by
          rw [List.all_eq_true] at hokcs
          exact hokcs e ((cs.takeWhile_sublist isW).subset he)
        simp only [Bool.and_eq_true, Bool.not_eq_true']
        refine ⟨isS_eq_false_of_isW hew, ?_⟩
        cases hq1 : inQ1 e
        · rfl
        · exfalso
          simp [okCh, hq1, hew] at hokE
    have hf2 : flankGo false (cs.dropWhile isW) = true := by
      have := hf
      conv at this => rw [show c :: cs
        = (c :: cs.takeWhile isW) ++ cs.dropWhile isW by
          simp [List.takeWhile_append_dropWhile],
        flank_append_run hRrun (by simp) _ p]
      exact this
    rw [sepGo_cons_nomatch hc h, flank_append_run hRrun (by simp) _ p]
    exact ih false hokrest hf2
  · intro c cs hc ih p hok hf
    have hokcs : cs.all okCh = true := by
      simp only [List.all_cons, Bool.and_eq_true] at hok
      exact hok.2
    rw [sepGo_cons_nonword (by simpa using hc)]
    by_cases hq1 : inQ1 c = true
    · obtain ⟨d, cs2, rfl⟩ : ∃ d cs2, cs = d :: cs2 := by
        cases cs with
        | nil =>
          rw [flankGo_cons_q1_nil hq1] at hf
          cases hf
        | cons d cs2 => exact ⟨d, cs2, rfl⟩
      rw [flankGo_cons_q1_cons hq1] at hf
      simp only [Bool.and_eq_true] at hf
      obtain ⟨⟨hp, hd⟩, hftail⟩ := hf
      subst hp
      have hdnw : isW d = false := isW_eq_false_of_isS hd
      rw [sepGo_cons_nonword hdnw, flankGo_cons_q1_cons hq1]
      have := ih false hokcs hftail
      rw [sepGo_cons_nonword hdnw] at this
      simp [hd, this]
    · rw [flankGo_cons_nonq1 (by simpa using hq1)] at hf
      rw [flankGo_cons_nonq1 (by simpa using hq1)]
      exact ih _ hokcs hf

theorem flank_wsGo (x : List Char) :
    ∀ pS p, flankGo p x = true
      → flankGo (if pS then true else p) (wsGo pS x) = true := by
  induction x with
  | nil => intro pS p _; cases pS <;> rfl
  | cons c cs ih =>
    intro pS p hf
    by_cases hq : inQ1 c = true
    · obtain ⟨d, cs2, rfl⟩ : ∃ d cs2, cs = d :: cs2 := by
        cases cs with
        | nil =>
          rw [flankGo_cons_q1_nil hq] at hf
          cases hf
        | cons d cs2 => exact ⟨d, cs2, rfl⟩
      rw [flankGo_cons_q1_cons hq] at hf
      simp only [Bool.and_eq_true] at hf
      obtain ⟨⟨hp, hd⟩, hftail⟩ := hf
      subst hp
      have hcns : isS c = false := by
        cases hscc : isS c
        · rfl
        · exact absurd hq (by simp [inQ1_eq_false_of_isS hscc])
      rw [wsGo_cons_nonws hcns]
      simp only [ite_self]
      have h5 := ih true true (flank_mono_true hftail)
      simp only [ite_self] at h5
      rw [wsGo_cons_ws hd true, if_pos rfl] at h5
      rw [wsGo_cons_ws hd false, if_neg (by simp),
        flankGo_cons_q1_cons hq, flankGo_cons_nonq1 (by decide),
        (by decide : isS ' ' = true)]
      simp [h5]
    · rw [flankGo_cons_nonq1 (by simpa using hq)] at hf
      by_cases hs : isS c = true
      · rw [hs] at hf
        rw [wsGo_cons_ws hs pS]
        have h5 := ih true true hf
        simp only [ite_self] at h5
        cases pS
        · show flankGo p (' ' :: wsGo true cs) = true
          rw [flankGo_cons_nonq1 (by decide), (by decide : isS ' ' = true)]
          exact h5
        · show flankGo true (wsGo true cs) = true
          exact h5
      · rw [(by simpa using hs : isS c = false)] at hf
        rw [wsGo_cons_nonws (by simpa using hs)]
        have h5 := ih false false hf
        rw [if_neg (by simp)] at h5
        rw [flankGo_cons_nonq1 (by simpa using hq),
          (by simpa using hs : isS c = false)]
        exact h5

/-! ### Duplicate-punctuation invariant -/

/-- No character of the allow-set is immediately repeated; `prev` is the
previous character. -/
def noDupK (prev : Option Char) (s : List Char) : Bool :=
  match s with
  | [] => true
  | c :: cs => !(prev = some c && inKeep c) && noDupK (some c) cs

theorem noDupK_cons (p : Option Char) (c : Char) (cs : List Char) :
    noDupK p (c :: cs) = (!(p = some c && inKeep c) && noDupK (some c) cs) := rfl

theorem noDupK_tail {p : Option Char} {c : Char} {cs : List Char}
    (h : noDupK p (c :: cs) = true) : noDupK (some c) cs = true := by
  rw [noDupK_cons] at h
  exact (Bool.and_eq_true_iff.mp h).2

theorem noDupK_space {p : Option Char} {x : List Char}
    (h : noDupK p x = true) : noDupK (some ' ') x = true := by
  cases x with
  | nil => rfl
  | cons c cs =>
    rw [noDupK_cons]
    refine Bool.and_eq_true_iff.mpr ⟨?_, noDupK_tail h⟩
    by_cases hc : c = ' '
    · subst hc
      simp [inKeep, keepP]
    · have hne : ¬(' ' = c) := fun he => hc he.symm
      simp [hne]

theorem noDupK_none {p : Option Char} {x : List Char}
    (h : noDupK p x = true) : noDupK none x = true := by
  cases x with
  | nil => rfl
  | cons c cs =>
    rw [noDupK_cons]
    refine Bool.and_eq_true_iff.mpr ⟨by simp, noDupK_tail h⟩

/-- `dupGo` fixes any string without adjacent duplicate allow-set
characters. -/
theorem dupGo_fix {x : List Char} : ∀ {p}, noDupK p x = true → dupGo p x = x := by
  induction x with
  | nil => intro p _; rfl
  | cons c cs ih =>
    intro p h
    rw [noDupK_cons] at h
    obtain ⟨h1, h2⟩ := Bool.and_eq_true_iff.mp h
    rw [dupGo]
    have hX : (decide (p = some c) && inKeep c) = false := by
      cases hb : (decide (p = some c) && inKeep c)
      · rfl
      · rw [hb] at h1
        cases h1
    simp only [hX, Bool.false_eq_true, if_false]
    rw [ih h2]

/-- The output of `dupGo` has no adjacent duplicate allow-set characters. -/
theorem noDupK_dupGo (x : List Char) : ∀ p, noDupK p (dupGo p x) = true := by
  induction x with
  | nil => intro p; rfl
  | cons c cs ih =>
    intro p
    rw [dupGo]
    by_cases hpc : (p = some c && inKeep c) = true
    · rw [if_pos hpc]
      exact ih p
    · have hX : (decide (p = some c) && inKeep c) = false := by
        cases hb : (decide (p = some c) && inKeep c)
        · rfl
        · exact absurd hb hpc
      rw [if_neg hpc, noDupK_cons]
      refine Bool.and_eq_true_iff.mpr ⟨by simp [hX], ih (some c)⟩

def lastP (p : Option Char) : List Char → Option Char
  | [] => p
  | c :: cs => lastP (some c) cs

theorem lastP_cons (p : Option Char) (c : Char) (a : List Char) :
    lastP p (c :: a) = lastP (some c) a := rfl

theorem noDupK_append (p : Option Char) (a b : List Char) :
    noDupK p (a ++ b) = (noDupK p a && noDupK (lastP p a) b) := by
  induction a generalizing p with
  | nil => simp [noDupK, lastP]
  | cons c a2 ih =>
    rw [List.cons_append, noDupK_cons, noDupK_cons, ih (some c),
      lastP_cons, Bool.and_assoc]

theorem noDupK_suffix {p : Option Char} {x b : List Char}
    (h : noDupK p x = true) (hsuf : b.IsSuffix x) :
    noDupK (some ' ') b = true := by
  obtain ⟨a, ha⟩ := hsuf
  rw [← ha, noDupK_append] at h
  exact noDupK_space (Bool.and_eq_true_iff.mp h).2

theorem noDupK_spacePunct {x : List Char} :
    ∀ {p}, noDupK p x = true → noDupK p (spacePunct x) = true := by
  induction x with
  | nil => intro p _; rfl
  | cons c cs ih =>
    intro p h
    rw [noDupK_cons] at h
    obtain ⟨h1, h2⟩ := Bool.and_eq_true_iff.mp h
    rw [spacePunct_cons]
    by_cases hq : inQ1 c = true
    · have hcsp : ¬(' ' = c) := by
        intro he
        rw [← he] at hq
        exact absurd hq (by decide)
      rw [if_pos hq, List.cons_append, List.cons_append, List.cons_append,
        List.nil_append, noDupK_cons, noDupK_cons, noDupK_cons]
      refine Bool.and_eq_true_iff.mpr ⟨by simp [inKeep, keepP], ?_⟩
      refine Bool.and_eq_true_iff.mpr ⟨by simp [hcsp], ?_⟩
      refine Bool.and_eq_true_iff.mpr ⟨by simp [inKeep, keepP], ?_⟩
      exact ih (noDupK_space h2)
    · rw [if_neg hq, List.singleton_append, noDupK_cons]
      exact Bool.and_eq_true_iff.mpr ⟨h1, ih h2⟩

theorem sepRes_suffix (r : List Char) : (sepRes r).IsSuffix r := by
  unfold sepRes
  exact ((((r.dropWhile isS).drop 1).dropWhile_suffix isS).trans
    ((r.dropWhile isS).drop_suffix 1)).trans (r.dropWhile_suffix isS)

theorem noDupK_sepGo {sep : Char} (hspne : sep ≠ ' ') (x : List Char) :
    ∀ p, noDupK p x = true → noDupK p (sepGo sep x) = true := by
  refine sepGo.induct sep
    (fun z => ∀ p, noDupK p z = true → noDupK p (sepGo sep z) = true)
    ?_ ?_ ?_ ?_ x
  · intro p _
    rw [sepGo_nil]
    rfl
  · intro c cs hc h ih p hnd
    have hsplit : c :: cs = (c :: cs.takeWhile isW) ++ cs.dropWhile isW := by
      simp [List.takeWhile_append_dropWhile]
    rw [hsplit, noDupK_append] at hnd
    obtain ⟨hR, hrest⟩ := Bool.and_eq_true_iff.mp hnd
    have hres : noDupK (some ' ') (sepRes (cs.dropWhile isW)) = true :=
      noDupK_suffix hrest (sepRes_suffix _)
    have hresG := ih (some ' ') hres
    rw [sepGo_cons_match hc h, noDupK_append]
    refine Bool.and_eq_true_iff.mpr ⟨hR, ?_⟩
    rw [noDupK_cons, noDupK_cons, noDupK_cons]
    refine Bool.and_eq_true_iff.mpr ⟨by simp [inKeep, keepP], ?_⟩
    refine Bool.and_eq_true_iff.mpr ⟨?_, ?_⟩
    · have : ¬(' ' = sep) := fun he => hspne he.symm
      simp [this]
    refine Bool.and_eq_true_iff.mpr ⟨by simp [inKeep, keepP], ?_⟩
    exact hresG
  · intro c cs hc h ih p hnd
    have hsplit : c :: cs = (c :: cs.takeWhile isW) ++ cs.dropWhile isW := by
      simp [List.takeWhile_append_dropWhile]
    rw [hsplit, noDupK_append] at hnd
    obtain ⟨hR, hrest⟩ := Bool.and_eq_true_iff.mp hnd
    rw [sepGo_cons_nomatch hc h, noDupK_append]
    exact Bool.and_eq_true_iff.mpr ⟨hR, ih _ hrest⟩
  · intro c cs hc ih p hnd
    rw [noDupK_cons] at hnd
    obtain ⟨h1, h2⟩ := Bool.and_eq_true_iff.mp hnd
    rw [sepGo_cons_nonword (by simpa using hc), noDupK_cons]
    exact Bool.and_eq_true_iff.mpr ⟨h1, ih (some c) h2⟩

theorem noDupK_wsGo (x : List Char) :
    ∀ pS p, noDupK p x = true
      → noDupK (if pS then some ' ' else p) (wsGo pS x) = true := by
  induction x with
  | nil => intro pS p _; cases pS <;> rfl
  | cons c cs ih =>
    intro pS p hnd
    rw [noDupK_cons] at hnd
    obtain ⟨h1, h2⟩ := Bool.and_eq_true_iff.mp hnd
    by_cases hs : isS c = true
    · rw [wsGo_cons_ws hs pS]
      cases pS
      · rw [if_neg (by simp)]
        show noDupK p (' ' :: wsGo true cs) = true
        rw [noDupK_cons]
        refine Bool.and_eq_true_iff.mpr ⟨by simp [inKeep, keepP], ?_⟩
        simpa using ih true (some c) h2
      · rw [if_pos rfl]
        show noDupK (some ' ') (wsGo true cs) = true
        simpa using ih true (some c) h2
    · rw [wsGo_cons_nonws (by simpa using hs)]
      have htail : noDupK (some c) (wsGo false cs) = true := by
        simpa using ih false (some c) h2
      cases pS
      · show noDupK p (c :: wsGo false cs) = true
        rw [noDupK_cons]
        exact Bool.and_eq_true_iff.mpr ⟨h1, htail⟩
      · show noDupK (some ' ') (c :: wsGo false cs) = true
        rw [noDupK_cons]
        refine Bool.and_eq_true_iff.mpr ⟨?_, htail⟩
        have hcsp : ¬(' ' = c) := by
          intro he
          rw [← he] at hs
          exact hs (by decide)
        simp [hcsp]

/-! ### Character-set preservation and stage identities -/

theorem all_imp {pr q : Char → Bool} (h : ∀ c, pr c = true → q c = true)
    {x : List Char} (hx : x.all pr = true) : x.all q = true := by
  rw [List.all_eq_true] at hx ⊢
  exact fun c hc => h c (hx c hc)

theorem all_spacePunct {pr : Char → Bool} (hsp : pr ' ' = true)
    {x : List Char} (hx : x.all pr = true) : (spacePunct x).all pr = true := by
  induction x with
  | nil => rfl
  | cons c cs ih =>
    simp only [List.all_cons, Bool.and_eq_true] at hx
    rw [spacePunct_cons, List.all_append]
    refine Bool.and_eq_true_iff.mpr ⟨?_, ih hx.2⟩
    by_cases hq : inQ1 c = true
    · rw [if_pos hq]
      simp [hsp, hx.1]
    · rw [if_neg hq]
      simp [hx.1]

theorem all_wsGo {pr : Char → Bool} (hsp : pr ' ' = true) (x : List Char) :
    ∀ pS, x.all pr = true → (wsGo pS x).all pr = true := by
  induction x with
  | nil => intro pS _; rfl
  | cons c cs ih =>
    intro pS hx
    simp only [List.all_cons, Bool.and_eq_true] at hx
    by_cases hs : isS c = true
    · rw [wsGo_cons_ws hs pS]
      cases pS
      · rw [if_neg (by simp), List.all_cons]
        exact Bool.and_eq_true_iff.mpr ⟨hsp, ih true hx.2⟩
      · rw [if_pos rfl]
        exact ih true hx.2
    · rw [wsGo_cons_nonws (by simpa using hs), List.all_cons]
      exact Bool.and_eq_true_iff.mpr ⟨hx.1, ih false hx.2⟩

theorem all_dupGo {pr : Char → Bool} (x : List Char) :
    ∀ p, x.all pr = true → (dupGo p x).all pr = true := by
  induction x with
  | nil => intro p _; rfl
  | cons c cs ih =>
    intro p hx
    simp only [List.all_cons, Bool.and_eq_true] at hx
    rw [dupGo]
    by_cases hpc : (decide (p = some c) && inKeep c) = true
    · rw [if_pos hpc]
      exact ih p hx.2
    · rw [if_neg hpc, List.all_cons]
      exact Bool.and_eq_true_iff.mpr ⟨hx.1, ih (some c) hx.2⟩

theorem all_sepGo {pr : Char → Bool} {sep : Char} (hsp : pr ' ' = true)
    (hsep : pr sep = true) (x : List Char) :
    x.all pr = true → (sepGo sep x).all pr = true := by
  refine sepGo.induct sep
    (fun z => z.all pr = true → (sepGo sep z).all pr = true) ?_ ?_ ?_ ?_ x
  · intro _
    rw [sepGo_nil]
    rfl
  · intro c cs hc h ih hx
    simp only [List.all_cons, Bool.and_eq_true] at hx
    have hres : (sepRes (cs.dropWhile isW)).all pr = true :=
      all_of_sublist ((sepRes_sublist _).trans (cs.dropWhile_sublist isW)) hx.2
    rw [sepGo_cons_match hc h, List.all_append, List.all_cons, List.all_cons,
      List.all_cons, List.all_cons]
    simp only [Bool.and_eq_true]
    exact ⟨⟨hx.1, all_of_sublist (cs.takeWhile_sublist isW) hx.2⟩,
      hsp, hsep, hsp, ih hres⟩
  · intro c cs hc h ih hx
    simp only [List.all_cons, Bool.and_eq_true] at hx
    rw [sepGo_cons_nomatch hc h, List.all_append, List.all_cons]
    simp only [Bool.and_eq_true]
    exact ⟨⟨hx.1, all_of_sublist (cs.takeWhile_sublist isW) hx.2⟩,
      ih (all_of_sublist (cs.dropWhile_sublist isW) hx.2)⟩
  · intro c cs hc ih hx
    simp only [List.all_cons, Bool.and_eq_true] at hx
    rw [sepGo_cons_nonword (by simpa using hc), List.all_cons]
    exact Bool.and_eq_true_iff.mpr ⟨hx.1, ih hx.2⟩

theorem map_id_of_all {f : Char → Char} {x : List Char}
    (h : ∀ c ∈ x, f c = c) : x.map f = x := by
  induction x with
  | nil => rfl
  | cons c cs ih =>
    rw [List.map_cons, h c (List.mem_cons_self c cs),
      ih (fun d hd => h d (List.mem_cons_of_mem c hd))]

/-- Every character surviving the lowercase, comma and undesirable-character
stages is shape-stable. -/
theorem goodChar_stage (c : Char) :
    goodChar (if isAllowed (if Char.toLower c = ',' then ' ' else Char.toLower c)
      then (if Char.toLower c = ',' then ' ' else Char.toLower c) else ' ')
      = true := by
  by_cases hcm : Char.toLower c = ','
  · rw [if_pos hcm]
    decide
  · rw [if_neg hcm]
    by_cases hal : isAllowed (Char.toLower c) = true
    · rw [if_pos hal]
      simp only [goodChar, hal, Bool.true_and]
      refine Bool.and_eq_true_iff.mpr ⟨by simp [hcm], ?_⟩
      simp [toLower_idem]
    · rw [if_neg hal]
      decide

theorem u_goodChar (s : List Char) :
    (remove_duplicate_contiguous_chars (remove_undesirable_chars
      (remove_commas (pyLower s)))).all goodChar = true := by
  unfold remove_duplicate_contiguous_chars remove_undesirable_chars
    remove_commas pyLower
  refine all_dupGo _ none ?_
  rw [List.map_map, List.map_map, List.all_map, List.all_eq_true]
  intro c _
  exact goodChar_stage c

theorem pyLower_fix {x : List Char} (h : x.all goodChar = true) :
    pyLower x = x := by
  unfold pyLower
  refine map_id_of_all ?_
  intro c hc
  rw [List.all_eq_true] at h
  have := h c hc
  simp only [goodChar, Bool.and_eq_true, decide_eq_true_eq] at this
  exact this.2

theorem remove_commas_fix {x : List Char} (h : x.all goodChar = true) :
    remove_commas x = x := by
  unfold remove_commas
  refine map_id_of_all ?_
  intro c hc
  rw [List.all_eq_true] at h
  have := h c hc
  simp only [goodChar, Bool.and_eq_true, Bool.not_eq_true',
    decide_eq_false_iff_not] at this
  rw [if_neg this.1.2]

theorem remove_undesirable_fix {x : List Char} (h : x.all goodChar = true) :
    remove_undesirable_chars x = x := by
  unfold remove_undesirable_chars
  refine map_id_of_all ?_
  intro c hc
  rw [List.all_eq_true] at h
  have := h c hc
  simp only [goodChar, Bool.and_eq_true] at this
  rw [if_pos this.1.1]

/-- C8.  The composed shape normalisation (lowercasing, comma removal,
undesirable-character stripping, duplicate-punctuation collapsing,
punctuation spacing and whitespace collapsing, in source order) is
idempotent. -/
theorem shape_normalisation_idempotent (s : List Char) :
    shapeNormalise (shapeNormalise s) = shapeNormalise s := by
  unfold shapeNormalise remove_extra_spaces add_space_around_punctuation
  set u := remove_duplicate_contiguous_chars (remove_undesirable_chars
    (remove_commas (pyLower s))) with hu
  set y1 := sepGo '/' (spacePunct u) with hy1
  set y2 := sepGo '-' y1 with hy2
  set N := wsGo false y2 with hN
  -- character-set invariants
  have hgood_u : u.all goodChar = true := u_goodChar s
  have hgood_Pu : (spacePunct u).all goodChar = true :=
    all_spacePunct (by decide) hgood_u
  have hgood_y1 : y1.all goodChar = true :=
    all_sepGo (by decide) (by decide) _ hgood_Pu
  have hgood_y2 : y2.all goodChar = true :=
    all_sepGo (by decide) (by decide) _ hgood_y1
  have hgood_N : N.all goodChar = true := all_wsGo (by decide) y2 false hgood_y2
  have hok_N : N.all okCh = true := all_imp (fun c => okCh_of_goodChar) hgood_N
  -- the first three stages fix the output
  have hL : pyLower N = N := pyLower_fix hgood_N
  have hC : remove_commas N = N := remove_commas_fix hgood_N
  have hU : remove_undesirable_chars N = N := remove_undesirable_fix hgood_N
  -- no duplicate allow-set characters in the output
  have hnd_u : noDupK none u = true := by
    rw [hu]
    unfold remove_duplicate_contiguous_chars
    exact noDupK_dupGo _ none
  have hnd_Pu : noDupK none (spacePunct u) = true := noDupK_spacePunct hnd_u
  have hnd_y1 : noDupK none y1 = true := noDupK_sepGo (by decide) _ none hnd_Pu
  have hnd_y2 : noDupK none y2 = true := noDupK_sepGo (by decide) _ none hnd_y1
  have hnd_N : noDupK none N = true := by
    have := noDupK_wsGo y2 false none hnd_y2
    rw [if_neg (by simp)] at this
    exact this
  have hD : remove_duplicate_contiguous_chars N = N := by
    unfold remove_duplicate_contiguous_chars
    exact dupGo_fix hnd_N
  -- the separator scanners fix the spaced output
  have hf1 : sepGo '/' y1 = y1 := by
    rw [hy1]
    exact sepGo_idem (by decide) (by decide) _
  have hf2 : sepGo '/' y2 = y2 := by
    rw [hy2]
    exact sepGo_other_fix (by decide) (by decide) (by decide) (by decide)
      (by decide) y1 hf1
  have hfN : sepGo '/' N = N := by
    rw [hN]
    exact sepGo_wsGo_fix (by decide) (by decide) y2 hf2 false
  have hfPN : sepGo '/' (spacePunct N) = spacePunct N :=
    sepGo_spacePunct_fix (by decide) (by decide) (by decide) N hok_N hfN
  have hg2 : sepGo '-' y2 = y2 := by
    rw [hy2]
    exact sepGo_idem (by decide) (by decide) y1
  have hgN : sepGo '-' N = N := by
    rw [hN]
    exact sepGo_wsGo_fix (by decide) (by decide) y2 hg2 false
  have hgPN : sepGo '-' (spacePunct N) = spacePunct N :=
    sepGo_spacePunct_fix (by decide) (by decide) (by decide) N hok_N hgN
  -- flanking of punctuation in the output
  have hok_Pu : (spacePunct u).all okCh = true :=
    all_imp (fun c => okCh_of_goodChar) hgood_Pu
  have hok_y1 : y1.all okCh = true :=
    all_imp (fun c => okCh_of_goodChar) hgood_y1
  have hfl_Pu : flankGo false (spacePunct u) = true := flank_spacePunct u false
  have hfl_y1 : flankGo false y1 = true := by
    rw [hy1]
    exact flank_sepGo (by decide) (by decide) (by decide) _ false hok_Pu hfl_Pu
  have hfl_y2 : flankGo false y2 = true := by
    rw [hy2]
    exact flank_sepGo (by decide) (by decide) (by decide) _ false hok_y1 hfl_y1
  have hfl_N : flankGo false N = true := by
    have := flank_wsGo y2 false false hfl_y2
    rw [if_neg (by simp)] at this
    exact this
  have hWN : wsGo false N = N := by
    rw [hN]
    exact wsGo_idem y2 false
  rw [hL, hC, hU, hD, hfPN, hgPN, wsGo_spacePunct N false hfl_N, hWN]

end Mudlark
